import Mathlib

/-!
# Verification of the Algo_U3 graph-algorithm toolkit

Shallow embedding of `src/graph.h` and `src/prioqueue.h` (C++) in Lean 4,
together with proofs and refutations of the specified properties.

Modelling conventions:
* `std::map<K, T>` is modelled as an association list `List (K × T)` whose
  keys are kept in strictly ascending order (`std::map` iterates in key
  order).  Reads through `operator[]` that occur after all relevant keys
  have been initialised are modelled as defaulted lookups (`lookupD`,
  default = the value-initialised C++ value); the one read the claims are
  about where the silent insertion of `operator[]` is observable
  (`Graph::successors` on an unknown key) is modelled state-passingly and
  exactly (`Graph.successors`).
* `unsigned int` counters and distances (DFS timestamps, BFS hop counts)
  are modelled as `ℕ`; the sentinel `INF` is the concrete value
  `numeric_limits<unsigned>::max() = 4294967295`.  Wraparound would
  require graphs with at least `2^31` vertices; where the distinction
  could matter a cardinality hypothesis is stated explicitly.
* `double` edge weights are modelled as `ℚ` and the IEEE value `+inf`
  (the `Dist<V,double>::INF` sentinel) as `none : Option ℚ`; the only
  operations the source performs on distances are `+` and `<`, whose IEEE
  behaviour on `{finite} ∪ {+inf}` is reproduced exactly by `dplus`/`dlt`.
* `int` (Prim's internal keys) is modelled as `ℤ` with
  `INT_MAX = 2147483647` as `INF`; the implicit C++ `double → int`
  conversion in `prim` truncates towards zero (`ratTruncToInt`).
* Priority-queue entries are heap objects compared by address when their
  priorities tie; addresses are modelled by an allocation counter (the
  spec's "insertion-derived identity"), so entry handles are allocation
  ids and the comparator falls back to ascending id.
-/

namespace AlgoU3

/-! ## Ordered association lists: the model of `std::map` -/

/-- Lookup in an association list (the value stored under key `a`). -/
def findVal {α β : Type} [DecidableEq α] : List (α × β) → α → Option β
  | [], _ => none
  | (k, v) :: m, a => if k = a then some v else findVal m a

/-- Defaulted lookup: models a read through `operator[]` of a map whose
relevant keys are initialised, with `d` the value-initialised default. -/
def lookupD {α β : Type} [DecidableEq α] (m : List (α × β)) (a : α) (d : β) : β :=
  (findVal m a).getD d

/-- Write `m[a] = b`: models `operator[]` followed by assignment; inserts
the key at its sorted position when absent, overwrites when present. -/
def setVal {α β : Type} [LinearOrder α] : List (α × β) → α → β → List (α × β)
  | [], a, b => [(a, b)]
  | (k, v) :: m, a, b =>
    if a < k then (a, b) :: (k, v) :: m
    else if a = k then (a, b) :: m
    else (k, v) :: setVal m a b

/-- Write into a map that is only ever read back pointwise, never
iterated (the weight table `wt`, keyed by `std::pair` in lexicographic
order): update the key in place or append it.  Lookup-equivalent to the
sorted insertion, which is all such maps are observed through. -/
def setValEq {α β : Type} [DecidableEq α] : List (α × β) → α → β → List (α × β)
  | [], a, b => [(a, b)]
  | (k, v) :: m, a, b =>
    if k = a then (a, b) :: m
    else (k, v) :: setValEq m a b

/-- `a[k].push_back(x)` on a `std::map<K, list<X>>`: appends to the list
under `k`, creating the entry (at its sorted position) when absent. -/
def pushBack {α β : Type} [LinearOrder α] : List (α × List β) → α → β → List (α × List β)
  | [], a, b => [(a, [b])]
  | (k, v) :: m, a, b =>
    if a < k then (a, [b]) :: (k, v) :: m
    else if a = k then (k, v ++ [b]) :: m
    else (k, v) :: pushBack m a b

/-- Keys of an association list, in storage (= iteration) order. -/
def keysOf {α β : Type} (m : List (α × β)) : List α := m.map Prod.fst

/-- The `std::map` representation invariant: keys strictly ascending. -/
abbrev SortedKeys {α β : Type} [LinearOrder α] (m : List (α × β)) : Prop :=
  List.Chain' (· < ·) (keysOf m)

/-! ## `Graph<V>` (src/graph.h, lines 18–68) -/

/-- `Graph<V>`: adjacency-list directed graph, `map<V, list<V>> adj`. -/
structure Graph (V : Type) where
  adj : List (V × List V)

variable {V : Type}

/-- `Graph::vertices` (lines 32–39): all keys of `adj`, in map order. -/
def Graph.vertices (g : Graph V) : List V := keysOf g.adj

/-- `Graph::successors` (lines 42–46), modelled exactly: `return adj[v];`
`operator[]` inserts `v` with an empty successor list when absent, so the
call returns the successor list *and* the possibly-enlarged graph. -/
def Graph.successors [LinearOrder V] (g : Graph V) (v : V) : List V × Graph V :=
  match findVal g.adj v with
  | some l => (l, g)
  | none => ([], ⟨setVal g.adj v []⟩)

/-- The value component of `adj[v]`.  Used inside the algorithms, all of
which receive the graph by value and (under the closedness hypotheses the
universal theorems carry, or on the concrete closed inputs) only ever read
`adj[v]` for initialised keys, so the silent insertion of `operator[]` is
unobservable there. -/
def Graph.succs [DecidableEq V] (g : Graph V) (v : V) : List V :=
  lookupD g.adj v []

/-- All adjacency lists point back into the key set (the data-model
invariant under which `adj[v]` reads are pure). -/
def Graph.Closed [LinearOrder V] (g : Graph V) : Prop :=
  ∀ u ∈ g.vertices, ∀ v ∈ g.succs u, v ∈ g.vertices

/-- `Graph::transpose` (lines 49–67): for every `u` in key order and every
successor `v` of `u` in list order, append `u` to `a[v]`. -/
def Graph.transpose [LinearOrder V] (g : Graph V) : Graph V :=
  ⟨g.vertices.foldl (fun a u => (g.succs u).foldl (fun a' v => pushBack a' v u) a) []⟩

/-! ## `WeightedGraph<V>` (lines 74–107) -/

/-- `WeightedGraph<V>`: adjacency lists plus `map<pair<V,V>, double> wt`. -/
structure WGraph (V : Type) where
  adj : List (V × List V)
  wt : List ((V × V) × ℚ)

def WGraph.vertices (g : WGraph V) : List V := keysOf g.adj

def WGraph.succs [DecidableEq V] (g : WGraph V) (v : V) : List V :=
  lookupD g.adj v []

/-- `WeightedGraph::weight` (lines 104–106): `wt[{u,v}]`
(value-initialised default `0.0` for a missing pair; the algorithms only
query real edges, which the constructor always gives a weight entry). -/
def WGraph.weight [DecidableEq V] (g : WGraph V) (u v : V) : ℚ :=
  lookupD g.wt (u, v) 0

def WGraph.Closed [LinearOrder V] (g : WGraph V) : Prop :=
  ∀ u ∈ g.vertices, ∀ v ∈ g.succs u, v ∈ g.vertices

/-- The `WeightedGraph` constructor (lines 86–101): from the extended
adjacency representation, fill `adj` (creating the key even when the list
is empty, line 93) and `wt`. -/
def mkWeighted [LinearOrder V] (a : List (V × List (V × ℚ))) : WGraph V :=
  a.foldl
    (fun g p =>
      let g1 : WGraph V := ⟨pushNil g.adj p.1, g.wt⟩
      p.2.foldl
        (fun g' q => ⟨pushBack g'.adj p.1 q.1, setValEq g'.wt (p.1, q.1) q.2⟩)
        g1)
    ⟨[], []⟩
where
  /-- `Graph<V>::adj[u];` — touch the key, inserting an empty list if new. -/
  pushNil (m : List (V × List V)) (k : V) : List (V × List V) :=
    match findVal m k with
    | some _ => m
    | none => setVal m k []

/-! ## IEEE `double` distances: finite rationals plus `+inf` -/

/-- `Dist<V,double>` values: `some q` a finite distance, `none` the
sentinel `INF = numeric_limits<double>::infinity()`. -/
abbrev DVal := Option ℚ

/-- IEEE addition on `{finite} ∪ {+inf}`: `+inf + w = +inf`. -/
def dplus : DVal → ℚ → DVal
  | none, _ => none
  | some a, b => some (a + b)

/-- IEEE `<` on `{finite} ∪ {+inf}`: nothing is `< ` a finite value from
`+inf`, and `+inf < +inf` is false. -/
def dlt : DVal → DVal → Bool
  | none, _ => false
  | some _, none => true
  | some a, some b => a < b

/-- `numeric_limits<unsigned>::max()`, the `Dist<V,uint>` sentinel. -/
def uintINF : ℕ := 4294967295

/-- `numeric_limits<int>::max()`, the `Dist<V,int>` sentinel in `prim`. -/
def intINF : ℤ := 2147483647

/-- C++ `double → int` conversion: truncation towards zero. -/
def ratTruncToInt (q : ℚ) : ℤ := if q < 0 then -(Int.floor (-q)) else Int.floor q

/-! ## `PrioQueue<P, D>` (src/prioqueue.h)

Entries are heap objects; their identity (the pointer) is modelled by an
allocation id handed out by a counter, and the comparator's pointer
fallback `e1 < e2` by ascending id.  A handle to an entry is its id
(plus the immutable payload `data`); `contains` / `remove` /
`changePrio` locate the entry in the `std::set` through the comparator,
which under distinct ids succeeds exactly when the id is present. -/

/-- `Entry<P, D>` (prioqueue.h lines 9–16) plus its allocation id. -/
structure Entry (P D : Type) where
  prio : P
  id : ℕ
  data : D
deriving DecidableEq

/-- `PrioQueue::LessThan` (lines 27–33): priority first (using only the
strict `<` of `P`, supplied as the Boolean `pLt`), pointer order on ties. -/
def entLt {P D : Type} (pLt : P → P → Bool) (e1 e2 : Entry P D) : Bool :=
  if pLt e1.prio e2.prio then true
  else if pLt e2.prio e1.prio then false
  else decide (e1.id < e2.id)

/-- `PrioQueue<P, D>`: the ordered set of entries (kept sorted by
`entLt`, as `std::set` does) and the allocation counter. -/
structure PrioQueue (P D : Type) where
  entries : List (Entry P D)
  next : ℕ

/-- `std::set::insert` into the sorted entry list: place the new entry
before the first strictly greater one; an equivalent element (neither
side less) would leave the set unchanged. -/
def insertE {P D : Type} (pLt : P → P → Bool) :
    List (Entry P D) → Entry P D → List (Entry P D)
  | [], e => [e]
  | x :: xs, e =>
    if entLt pLt e x then e :: x :: xs
    else if entLt pLt x e then x :: insertE pLt xs e
    else x :: xs

/-- Locate an entry by its id. -/
def findById {P D : Type} : List (Entry P D) → ℕ → Option (Entry P D)
  | [], _ => none
  | e :: es, i => if e.id = i then some e else findById es i

/-- Remove the (first) entry with the given id. -/
def removeById {P D : Type} : List (Entry P D) → ℕ → List (Entry P D)
  | [], _ => []
  | e :: es, i => if e.id = i then es else e :: removeById es i

namespace PrioQueue

variable {P D : Type} (pLt : P → P → Bool)

/-- `PrioQueue::isEmpty` (lines 38–40). -/
def isEmpty (q : PrioQueue P D) : Bool := q.entries.isEmpty

/-- `PrioQueue::insert` (lines 47–51): allocate a fresh entry, add it to
the set, return it (the handle) together with the new queue. -/
def insert (q : PrioQueue P D) (p : P) (d : D) : Entry P D × PrioQueue P D :=
  let e : Entry P D := ⟨p, q.next, d⟩
  (e, ⟨insertE pLt q.entries e, q.next + 1⟩)

/-- `PrioQueue::minimum` (lines 55–58): first element of the ordered
set, `nullptr` (here `none`) when empty. -/
def minimum (q : PrioQueue P D) : Option (Entry P D) := q.entries.head?

/-- `PrioQueue::extractMinimum` (lines 63–67): the minimum, removed from
the queue but still owned by the caller. -/
def extractMinimum (q : PrioQueue P D) : Option (Entry P D) × PrioQueue P D :=
  match q.entries with
  | [] => (none, q)
  | e :: rest => (some e, ⟨rest, q.next⟩)

/-- `PrioQueue::contains` (lines 71–73), on a (non-null) handle. -/
def contains (q : PrioQueue P D) (i : ℕ) : Bool := (findById q.entries i).isSome

/-- `PrioQueue::remove` (lines 78–80), on a (non-null) handle. -/
def remove (q : PrioQueue P D) (i : ℕ) : Bool × PrioQueue P D :=
  match findById q.entries i with
  | none => (false, q)
  | some _ => (true, ⟨removeById q.entries i, q.next⟩)

/-- `PrioQueue::changePrio` (lines 85–90): detach, mutate the priority,
reinsert; `false` when the handle is not in the queue. -/
def changePrio (q : PrioQueue P D) (i : ℕ) (p : P) : Bool × PrioQueue P D :=
  match findById q.entries i with
  | none => (false, q)
  | some e =>
      (true, ⟨insertE pLt (removeById q.entries i) ⟨p, e.id, e.data⟩, q.next⟩)

end PrioQueue

/-! ## Result structures (graph.h lines 113–175) -/

/-- `BFS<V> = Pred<V> ∪ Dist<V, uint>`; the caller-set sentinel `NIL`
is passed to the algorithms explicitly (field `Pred::NIL`). -/
structure BFSRes (V : Type) where
  pred : List (V × V)
  dist : List (V × ℕ)

/-- `SP<V> = Pred<V> ∪ Dist<V, double>`. -/
structure SPRes (V : Type) where
  pred : List (V × V)
  dist : List (V × DVal)

/-- `DFS<V>::color` (line 157); `WHITE` is the value-initialised
default a `map<V, color>` produces for an untouched key. -/
inductive Color : Type
  | white
  | gray
  | black
deriving DecidableEq

/-- `DFS<V>` (lines 155–169), minus the global time counter (a local of
`dfs`, threaded separately). -/
structure DFSRes (V : Type) where
  sorted : Bool
  det : List (V × ℕ)
  fin : List (V × ℕ)
  color_map : List (V × Color)
  seq : List V

/-- Outcome of a DFS fragment: normal completion with the final time and
result, the `throw false` of cycle detection (graph.h line 236), or fuel
exhaustion (never reached from the top-level entry points, which supply
fuel exceeding the graph's vertex count — `dfs_no_out` below). -/
inductive DRes (V : Type) : Type
  | ok (time : ℕ) (res : DFSRes V)
  | cyc
  | out

/-! ## Breadth-first search (graph.h lines 183–205) -/

variable [LinearOrder V]

/-- The body of the successor scan of one dequeued vertex `u`: for each
`v ∈ successors(u)` with `dist[v] == INF`, set `dist[v] = dist[u] + 1`,
`pred[v] = u`, and push `v` to the back of the FIFO queue.  (Reads of
`res.dist` are defaulted to the value-initialised `0`.) -/
def bfsScan (u : V) (vs : List V) (st : BFSRes V) (q : List V) :
    BFSRes V × List V :=
  vs.foldl
    (fun (p : BFSRes V × List V) v =>
      if lookupD p.1.dist v 0 = uintINF then
        (⟨setVal p.1.pred v u, setVal p.1.dist v (lookupD p.1.dist u 0 + 1)⟩,
          p.2 ++ [v])
      else p)
    (st, q)

/-- The `while (q.size() != 0)` loop, fuel-indexed (each iteration
dequeues once; `bfs` supplies fuel exceeding the possible number of
enqueues). -/
def bfsLoop (g : Graph V) : ℕ → List V → BFSRes V → BFSRes V
  | 0, _, st => st
  | _ + 1, [], st => st
  | fuel + 1, u :: q, st =>
      let p := bfsScan u (g.succs u) st q
      bfsLoop g fuel p.2 p.1

/-- `bfs` (lines 183–205): initialise every vertex to `INF`/`NIL`, set
`dist[s] = 0`, then run the FIFO loop from `q = [s]`. -/
def bfs (g : Graph V) (s : V) (nil : V) : BFSRes V :=
  let st0 : BFSRes V :=
    g.vertices.foldl
      (fun (st : BFSRes V) v => ⟨setVal st.pred v nil, setVal st.dist v uintINF⟩)
      ⟨[], []⟩
  let st1 : BFSRes V := ⟨st0.pred, setVal st0.dist s 0⟩
  bfsLoop g (g.vertices.length + 2) [s] st1

/-! ## Depth-first search (graph.h lines 211–278) -/

/-- Every vertex value the traversals can touch: the keys together with
every member of a successor list. -/
def allVerts (g : Graph V) : List V :=
  (g.vertices ++ g.adj.foldr (fun (p : V × List V) acc => p.2 ++ acc) []).dedup

/-- Fuel handed to each top-level `DFSVisit` call: recursion depth is
bounded by the number of distinct touchable vertices. -/
def dfsFuel (g : Graph V) : ℕ := (allVerts g).length + 1

/-- The `for (auto u : g.successors(v))` loop of `DFSVisit` (lines
231–238), parameterised by the visitor used on white successors: visit
`u` when white, then `throw false` when `u` is gray and `sorted` is
set. -/
def dfsSuccLoop (visit : V → ℕ → DFSRes V → DRes V) :
    List V → ℕ → DFSRes V → DRes V
  | [], time, res => .ok time res
  | u :: us, time, res =>
      match
        (if lookupD res.color_map u Color.white = Color.white then
          visit u time res
        else .ok time res) with
      | .ok t r =>
          if lookupD r.color_map u Color.white = Color.gray ∧ r.sorted = true then
            .cyc
          else dfsSuccLoop visit us t r
      | .cyc => .cyc
      | .out => .out

/-- `DFSVisit` (lines 227–242): colour `v` gray, stamp `det[v] = ++time`,
scan the successors (recursing into white ones one fuel level down — fuel
bounds the recursion *depth*), then colour `v` black, stamp
`fin[v] = ++time` and append `v` to the finish-ordered sequence. -/
def DFSVisit (g : Graph V) : ℕ → V → ℕ → DFSRes V → DRes V
  | 0, _, _, _ => .out
  | fuel + 1, v, time, res =>
      let res1 : DFSRes V :=
        { res with
          color_map := setVal res.color_map v Color.gray
          det := setVal res.det v (time + 1) }
      match dfsSuccLoop (DFSVisit g fuel) (g.succs v) (time + 1) res1 with
      | .ok t r =>
          .ok (t + 1)
            { r with
              color_map := setVal r.color_map v Color.black
              fin := setVal r.fin v (t + 1)
              seq := r.seq ++ [v] }
      | .cyc => .cyc
      | .out => .out

/-- The main loop shared by both `dfs` overloads: visit each still-white
vertex of `vs` in order. -/
def dfsMain (g : Graph V) : List V → ℕ → DFSRes V → DRes V
  | [], t, res => .ok t res
  | v :: vs, t, res =>
      if lookupD res.color_map v Color.white = Color.white then
        match DFSVisit g (dfsFuel g) v t res with
        | .ok t' r => dfsMain g vs t' r
        | .cyc => .cyc
        | .out => .out
      else dfsMain g vs t res

/-- The initialisation loop of both `dfs` overloads (lines 213–217 and
266–270): colour every key white and zero its stamps. -/
def dfsInitRes (g : Graph V) (sorted : Bool) : DFSRes V :=
  g.vertices.foldl
    (fun r v =>
      { r with
        color_map := setVal r.color_map v Color.white
        det := setVal r.det v 0
        fin := setVal r.fin v 0 })
    ⟨sorted, [], [], [], []⟩

/-- `dfs(g, res)` (lines 211–225), with the caller's fresh result
carrying the given `sorted` flag. -/
def dfs (g : Graph V) (sorted : Bool) : DRes V :=
  dfsMain g g.vertices 0 (dfsInitRes g sorted)

/-- `dfs(g, vs, res)` (lines 264–278): main loop driven by `vs`. -/
def dfsFrom (g : Graph V) (vs : List V) (sorted : Bool) : DRes V :=
  dfsMain g vs 0 (dfsInitRes g sorted)

/-! ## Topological sort (graph.h lines 285–298) -/

/-- `topsort`: cycle-detecting DFS; on success the out-parameter `seq`
receives the finish-ordered sequence, on the caught `throw` the function
returns `false` and `seq` is left as it was (modelled `[]`). -/
def topsort (g : Graph V) : Bool × List V :=
  match dfs g true with
  | .ok _ r => (true, r.seq)
  | .cyc => (false, [])
  | .out => (false, [])

/-! ## Strongly connected components (graph.h lines 303–336) -/

/-- The grouping loop of `scc` (lines 317–335): walk the reversed
second-pass sequence, keeping a reference interval (`merker_det`,
`merker_fin`, both `int` with initial sentinel `-1`); a vertex whose
interval is nested in the reference joins the current component `l`,
otherwise `l` is pushed to the front of the output and a new component
starts.  The trailing `res.push_front(l)` is the `[]` case. -/
def sccGroup (det fn : List (V × ℕ)) :
    List V → ℤ → ℤ → List V → List (List V) → List (List V)
  | [], _, _, l, acc => l :: acc
  | v :: rest, md, mf, l, acc =>
      let md1 : ℤ := if md = -1 ∧ mf = -1 then (lookupD det v 0 : ℕ) else md
      let mf1 : ℤ := if md = -1 ∧ mf = -1 then (lookupD fn v 0 : ℕ) else mf
      if md1 ≤ (lookupD det v 0 : ℕ) ∧ (lookupD fn v 0 : ℕ) ≤ mf1 then
        sccGroup det fn rest md1 mf1 (l ++ [v]) acc
      else
        sccGroup det fn rest (lookupD det v 0 : ℕ) (lookupD fn v 0 : ℕ) [v] (l :: acc)

/-- `scc` (lines 303–336): first DFS in key order, reverse its finish
sequence, DFS the transpose in that order, reverse again, group by
interval containment.  (The two inner DFS runs never throw — `sorted`
is `false` — and never exhaust fuel; the `.cyc`/`.out` arms are dead.) -/
def scc (g : Graph V) : List (List V) :=
  match dfs g false with
  | .ok _ r1 =>
      match dfsFrom g.transpose r1.seq.reverse false with
      | .ok _ r2 => sccGroup r2.det r2.fin r2.seq.reverse (-1) (-1) [] []
      | .cyc => []
      | .out => []
  | .cyc => []
  | .out => []

/-! ## Prim (graph.h lines 348–383) -/

/-- One evaluation of the inner double loop body of `prim`: for the
current neighbour `v` and one handle `eIter` of `listEntr`, if the
handle's payload is `v`, the entry is still queued, and
`g.weight(u,v) < res1.dist[v]` (`double` vs `int`, compared as rationals;
`res1.dist` is never written after initialisation), then decrease the
queue key to the truncated edge weight and set `pred[v] = u`. -/
def primStep (g : WGraph V) (dist1 : List (V × ℤ)) (u v : V)
    (st : PrioQueue ℤ V × List (V × V)) (eIter : Entry ℤ V) :
    PrioQueue ℤ V × List (V × V) :=
  if eIter.data = v then
    if st.1.contains eIter.id = true ∧ g.weight u v < ((lookupD dist1 v 0 : ℤ) : ℚ) then
      ((st.1.changePrio (fun a b : ℤ => decide (a < b)) eIter.id
          (ratTruncToInt (g.weight u v))).2,
        setVal st.2 v u)
    else st
  else st

/-- The `while (!Prio.isEmpty())` loop of `prim`: scan `u`'s neighbours
against every recorded handle, then extract the minimum and continue from
its payload.  Fuel-indexed; each pass extracts exactly one entry (the
`changePrio` calls preserve the entry count), so the initial entry count
suffices. -/
def primLoop (g : WGraph V) (dist1 : List (V × ℤ)) (listEntr : List (Entry ℤ V)) :
    ℕ → PrioQueue ℤ V → List (V × V) → V → List (V × V)
  | 0, _, pred, _ => pred
  | fuel + 1, q, pred, u =>
      if q.isEmpty = true then pred
      else
        let st :=
          (g.succs u).foldl
            (fun st v => listEntr.foldl (primStep g dist1 u v) st)
            (q, pred)
        match st.1.extractMinimum with
        | (some e, q') => primLoop g dist1 listEntr fuel q' st.2 e.data
        | (none, _) => st.2

/-- `prim` (lines 348–383): queue every non-source vertex with key
`INT_MAX`, remember the handles in `listEntr`, root the source
(`pred[s] = NIL`), and run the loop starting from `u = s`. -/
def prim (g : WGraph V) (s : V) (nil : V) : List (V × V) :=
  let init :=
    g.vertices.foldl
      (fun (t : List (V × V) × List (V × ℤ) × PrioQueue ℤ V × List (Entry ℤ V)) v =>
        if v ≠ s then
          let pred' := setVal t.1 v nil
          let dist' := setVal t.2.1 v intINF
          let ins := t.2.2.1.insert (fun a b : ℤ => decide (a < b)) (lookupD dist' v 0) v
          (pred', dist', ins.2, t.2.2.2 ++ [ins.1])
        else t)
      ([], [], ⟨[], 0⟩, [])
  let pred0 := setVal init.1 s nil
  primLoop g init.2.1 init.2.2.2 (init.2.2.1.entries.length + 1) init.2.2.1 pred0 s

/-! ## Bellman–Ford (graph.h lines 386–423) -/

/-- `hilfsfunktion` (lines 386–391): relax the edge `(u, v)`.  Reads of
`res.dist` default to the value-initialised `0.0`; after initialisation
every vertex is a key, so on closed graphs the default is never used. -/
def hilfsfunktion (res : SPRes V) (v u : V) (g : WGraph V) : SPRes V :=
  if dlt (dplus (lookupD res.dist u (some 0)) (g.weight u v))
      (lookupD res.dist v (some 0)) = true then
    ⟨setVal res.pred v u,
      setVal res.dist v (dplus (lookupD res.dist u (some 0)) (g.weight u v))⟩
  else res

/-- One full relaxation round of `bellmanFord`: every vertex `u` in key
order, every successor `v` in list order. -/
def bfRound (g : WGraph V) (res : SPRes V) : SPRes V :=
  g.vertices.foldl
    (fun res u => (g.succs u).foldl (fun res v => hilfsfunktion res v u g) res)
    res

/-- `i` further relaxation rounds. -/
def bfRounds (g : WGraph V) : ℕ → SPRes V → SPRes V
  | 0, res => res
  | i + 1, res => bfRounds g i (bfRound g res)

/-- The final negative-cycle scan (lines 415–421): does some edge still
admit a strict improvement? -/
def bfImprovable (g : WGraph V) (res : SPRes V) : Bool :=
  g.vertices.any fun u =>
    (g.succs u).any fun v =>
      dlt (dplus (lookupD res.dist u (some 0)) (g.weight u v))
        (lookupD res.dist v (some 0))

/-- `bellmanFord` (lines 398–423): initialise `INF`/`NIL` with
`dist[s] = 0`, run `|V| − 1` rounds, then report failure iff an edge
still improves.  (On the empty graph the C++ round counter underflows;
the claims only concern a source vertex that is in the graph, which
forces `|V| ≥ 1`, and `|V| - 1` is the ℕ truncated difference.) -/
def bellmanFord (g : WGraph V) (s : V) (nil : V) : Bool × SPRes V :=
  let st0 : SPRes V :=
    g.vertices.foldl
      (fun (st : SPRes V) v => ⟨setVal st.pred v nil, setVal st.dist v none⟩)
      ⟨[], []⟩
  let st1 : SPRes V := ⟨st0.pred, setVal st0.dist s (some 0)⟩
  let res := bfRounds g (g.vertices.length - 1) st1
  (!bfImprovable g res, res)

/-! ## Dijkstra (graph.h lines 430–459) -/

/-- The successor scan of one extracted entry `e` (payload `u`): relax
`(u, v)`, and on success call `changePrio` on `e` — the entry *just
removed* from the queue, so the call finds nothing and returns `false`
without touching the queue. -/
def dijkstraScan (g : WGraph V) (e : Entry DVal V)
    (st : SPRes V × PrioQueue DVal V) : SPRes V × PrioQueue DVal V :=
  (g.succs e.data).foldl
    (fun (st : SPRes V × PrioQueue DVal V) v =>
      if dlt (dplus (lookupD st.1.dist e.data (some 0)) (g.weight e.data v))
          (lookupD st.1.dist v (some 0)) = true then
        let res' : SPRes V :=
          ⟨setVal st.1.pred v e.data,
            setVal st.1.dist v
              (dplus (lookupD st.1.dist e.data (some 0)) (g.weight e.data v))⟩
        (res', (st.2.changePrio dlt e.id (lookupD res'.dist v (some 0))).2)
      else st)
    st

/-- The `while (!Prio.isEmpty())` loop of `dijkstra`, fuel-indexed (each
iteration extracts one entry and `changePrio` on the extracted handle is
a no-op, so the initial entry count suffices). -/
def dijkstraLoop (g : WGraph V) : ℕ → PrioQueue DVal V → SPRes V → SPRes V
  | 0, _, res => res
  | fuel + 1, q, res =>
      match q.extractMinimum with
      | (some e, q') =>
          let st := dijkstraScan g e (res, q')
          dijkstraLoop g fuel st.2 st.1
      | (none, _) => res

/-- `dijkstra` (lines 430–459): initialise `INF`/`NIL` inserting every
vertex with key `INF`, set `dist[s] = 0`, insert every vertex *again*
keyed by its current distance, then run the extraction loop. -/
def dijkstra (g : WGraph V) (s : V) (nil : V) : SPRes V :=
  let init :=
    g.vertices.foldl
      (fun (t : SPRes V × PrioQueue DVal V) v =>
        let res' : SPRes V := ⟨setVal t.1.pred v nil, setVal t.1.dist v none⟩
        (res', (t.2.insert dlt (lookupD res'.dist v (some 0)) v).2))
      (⟨[], []⟩, ⟨[], 0⟩)
  let res1 : SPRes V := ⟨init.1.pred, setVal init.1.dist s (some 0)⟩
  let q2 :=
    g.vertices.foldl
      (fun (q : PrioQueue DVal V) v => (q.insert dlt (lookupD res1.dist v (some 0)) v).2)
      init.2
  dijkstraLoop g (q2.entries.length + 1) q2 res1

/-! ## Specification vocabulary and concrete test inputs -/

/-- Total weight of the tree recorded in a `Pred` table: the sum of
`weight(pred[v], v)` over the non-root entries. -/
def predWeight (g : WGraph V) (s : V) (pred : List (V × V)) : ℚ :=
  (pred.filter (fun p => p.1 ≠ s)).foldl (fun acc p => acc + g.weight p.2 p.1) 0

/-- The two-vertex DAG `A → B` (A = 0, B = 1). -/
def exDag : Graph ℕ := ⟨[(0, [1]), (1, [])]⟩

/-- A five-vertex path `A→E→D→C→B` of unit weights, in ascending key
order A=0, B=1, C=2, D=3, E=4 — all weights non-negative. -/
def exW2 : WGraph ℕ :=
  mkWeighted [(0, [(4, 1)]), (1, []), (2, [(1, 1)]), (3, [(2, 1)]), (4, [(3, 1)])]

/-- The symmetric triangle A=0, B=1, C=2 with `w(A,B)=1`, `w(A,C)=2`,
`w(B,C)=10`, every edge present in both directions. -/
def exW3 : WGraph ℕ :=
  mkWeighted
    [(0, [(1, 1), (2, 2)]), (1, [(0, 1), (2, 10)]), (2, [(0, 2), (1, 10)])]

/-- A single-key graph (for the `successors` frame property). -/
def exSingle : Graph ℕ := ⟨[(0, [])]⟩

/-- The empty graph. -/
def exEmpty : Graph ℕ := ⟨[]⟩

/-- The claims' four-vertex SCC example: vertices {A,B,C,D} = {0,1,2,3},
edges A→B, B→A, B→C, C→D, D→C; components {{A,B},{C,D}}. -/
def exScc : Graph ℕ := ⟨[(0, [1]), (1, [0, 2]), (2, [3]), (3, [2])]⟩

/-! ## Priority-queue operation sequences (for the queue-order claim) -/

/-- A client operation on a `PrioQueue P D`: `insert` with a priority,
`remove` by handle, or `changePrio` by handle (handles are allocation
ids; the payloads, irrelevant to the ordering contract, are `Unit`). -/
inductive QOp (P : Type) : Type
  | ins (p : P)
  | rem (i : ℕ)
  | chg (i : ℕ) (p : P)

/-- Run a sequence of client operations from a given queue state. -/
def execOps {P : Type} (pLt : P → P → Bool) : List (QOp P) → PrioQueue P Unit → PrioQueue P Unit
  | [], q => q
  | op :: ops, q =>
      execOps pLt ops
        (match op with
        | .ins p => (q.insert pLt p ()).2
        | .rem i => (q.remove i).2
        | .chg i p => (q.changePrio pLt i p).2)

/-- The Boolean strict order used to instantiate `pLt` at an ordered
priority type (C++ requires exactly `operator<` on `P`). -/
def pltOf (P : Type) [LT P] [DecidableRel ((· < ·) : P → P → Prop)] : P → P → Bool :=
  fun a b => decide (a < b)

/-- The queue representation invariant: the entry list is strictly
ascending in the comparator's order, ids are pairwise distinct, and every
id is below the allocation counter. -/
def QInv {P D : Type} (pLt : P → P → Bool) (q : PrioQueue P D) : Prop :=
  List.Chain' (fun e1 e2 => entLt pLt e1 e2 = true) q.entries ∧
    (q.entries.map (fun e => e.id)).Nodup ∧
    ∀ e ∈ q.entries, e.id < q.next

/-! ## DFS state vocabulary -/

/-- The colour the C++ code reads through `res.color_map[u]`
(value-initialised `WHITE` for an untouched key). -/
abbrev colorOf (r : DFSRes V) (u : V) : Color := lookupD r.color_map u Color.white

/-- The discovery stamp `res.det[u]` (`0` = unstamped). -/
abbrev detOf (r : DFSRes V) (u : V) : ℕ := lookupD r.det u 0

/-- The finish stamp `res.fin[u]` (`0` = unstamped). -/
abbrev finOf (r : DFSRes V) (u : V) : ℕ := lookupD r.fin u 0

/-- A vertex carrying both stamps. -/
def Stamped (r : DFSRes V) (u : V) : Prop := detOf r u ≠ 0 ∧ finOf r u ≠ 0

/-- Number of still-white touchable vertices (the DFS recursion-depth
measure). -/
def whites (g : Graph V) (r : DFSRes V) : ℕ :=
  (allVerts g).countP fun u => decide (colorOf r u = Color.white)

/-- The parenthesis relation between the stamp intervals of two
vertices: disjoint one way or the other, or strictly nested one way or
the other. -/
def IntervalsND (r : DFSRes V) (u w : V) : Prop :=
  finOf r u < detOf r w ∨ finOf r w < detOf r u ∨
    (detOf r w < detOf r u ∧ finOf r u < finOf r w) ∨
    (detOf r u < detOf r w ∧ finOf r w < finOf r u)

/-- The running invariant of a (non-`sorted`) depth-first traversal at
global time `t`. -/
structure DInv (g : Graph V) (t : ℕ) (r : DFSRes V) : Prop where
  sorted_false : r.sorted = false
  white_unstamped : ∀ u, colorOf r u = Color.white → detOf r u = 0 ∧ finOf r u = 0
  gray_open : ∀ u, colorOf r u = Color.gray →
    1 ≤ detOf r u ∧ detOf r u ≤ t ∧ finOf r u = 0
  black_closed : ∀ u, colorOf r u = Color.black →
    1 ≤ detOf r u ∧ detOf r u < finOf r u ∧ finOf r u ≤ t
  black_paren : ∀ u w, colorOf r u = Color.black → colorOf r w = Color.black →
    u ≠ w → IntervalsND r u w
  black_gray : ∀ u w, colorOf r u = Color.black → colorOf r w = Color.gray →
    detOf r w < detOf r u ∨ finOf r u < detOf r w
  black_no_white_succ : ∀ u, colorOf r u = Color.black →
    ∀ w ∈ g.succs u, colorOf r w ≠ Color.white
  seq_mem : ∀ u, u ∈ r.seq ↔ colorOf r u = Color.black
  seq_sorted : r.seq.Pairwise fun a b => finOf r a < finOf r b

/-- Postcondition of `DFSVisit g fuel` on a white vertex under the
invariant: completion, time growth, invariant restoration, the visited
vertex black with interval `[t0+1, t1]`, untouched non-white states,
every other formerly-white vertex either still untouched or black with
an interval strictly inside `(t0+1, t1)`, strictly fewer whites, and the
finish sequence extended. -/
def VisitSpec (g : Graph V) (fuel : ℕ) : Prop :=
  ∀ v t0 r0, colorOf r0 v = Color.white → DInv g t0 r0 →
    (whites g r0 < fuel ∨ (v ∈ allVerts g ∧ whites g r0 = fuel)) →
    ∃ t1 r1, DFSVisit g fuel v t0 r0 = DRes.ok t1 r1 ∧
      t0 + 2 ≤ t1 ∧ DInv g t1 r1 ∧
      colorOf r1 v = Color.black ∧ detOf r1 v = t0 + 1 ∧ finOf r1 v = t1 ∧
      (∀ u, colorOf r0 u ≠ Color.white →
        colorOf r1 u = colorOf r0 u ∧ detOf r1 u = detOf r0 u ∧
          finOf r1 u = finOf r0 u) ∧
      (∀ u, colorOf r0 u = Color.white → u ≠ v →
        (colorOf r1 u = Color.white ∧ detOf r1 u = 0 ∧ finOf r1 u = 0) ∨
          (colorOf r1 u = Color.black ∧ t0 + 1 < detOf r1 u ∧
            detOf r1 u < finOf r1 u ∧ finOf r1 u < t1)) ∧
      whites g r1 ≤ whites g r0 ∧ (v ∈ allVerts g → whites g r1 < whites g r0)

/-- Postcondition of the successor loop `dfsSuccLoop (DFSVisit g fuel)`
under the invariant (no `throw`, since `sorted` is off). -/
def LoopSpec (g : Graph V) (fuel : ℕ) : Prop :=
  ∀ us t r, (∀ u ∈ us, u ∈ allVerts g) → DInv g t r → whites g r ≤ fuel →
    ∃ t' r', dfsSuccLoop (DFSVisit g fuel) us t r = DRes.ok t' r' ∧
      t ≤ t' ∧ DInv g t' r' ∧
      (∀ u, colorOf r u ≠ Color.white →
        colorOf r' u = colorOf r u ∧ detOf r' u = detOf r u ∧
          finOf r' u = finOf r u) ∧
      (∀ u, colorOf r u = Color.white →
        (colorOf r' u = Color.white ∧ detOf r' u = 0 ∧ finOf r' u = 0) ∨
          (colorOf r' u = Color.black ∧ t < detOf r' u ∧
            detOf r' u < finOf r' u ∧ finOf r' u ≤ t')) ∧
      whites g r' ≤ whites g r ∧
      (∀ u ∈ us, colorOf r' u ≠ Color.white)

/-! ## Walks, reachability, and the BFS invariant -/

/-- `Walk g u v n`: the graph has a directed walk of exactly `n` edges
from `u` to `v`. -/
inductive Walk (g : Graph V) : V → V → ℕ → Prop
  | refl (v : V) : Walk g v v 0
  | step {u v w : V} {n : ℕ} : v ∈ g.succs u → Walk g v w n → Walk g u w (n + 1)

/-- `v` is reachable from `u` (by a walk of any length). -/
def Reachable (g : Graph V) (u v : V) : Prop := ∃ n, Walk g u v n

/-- The invariant of the BFS queue loop, tying the distance/predecessor
tables and the FIFO queue together (CLRS-style: discovered distances are
walk lengths, queue distances are sorted and span at most two levels,
processed vertices have fully discovered neighbourhoods, and finite
distances leave numeric room below `INF`). -/
structure BInv (g : Graph V) (s nil : V) (q : List V) (st : BFSRes V) : Prop where
  ds : lookupD st.dist s 0 = 0
  sound : ∀ v ∈ g.vertices, lookupD st.dist v 0 ≠ uintINF →
    Walk g s v (lookupD st.dist v 0)
  pred_tight : ∀ v ∈ g.vertices, v ≠ s → lookupD st.dist v 0 ≠ uintINF →
    lookupD st.pred v nil ∈ g.vertices ∧
      lookupD st.dist (lookupD st.pred v nil) 0 ≠ uintINF ∧
      v ∈ g.succs (lookupD st.pred v nil) ∧
      lookupD st.dist v 0 = lookupD st.dist (lookupD st.pred v nil) 0 + 1
  pred_nil : ∀ v ∈ g.vertices, lookupD st.dist v 0 = uintINF →
    lookupD st.pred v nil = nil
  pred_s : lookupD st.pred s nil = nil
  bound : ∀ v ∈ g.vertices, lookupD st.dist v 0 ≠ uintINF →
    lookupD st.dist v 0 +
        (g.vertices.countP fun w => decide (lookupD st.dist w 0 = uintINF)) ≤
      g.vertices.length
  q_sub : ∀ a ∈ q, a ∈ g.vertices
  q_nodup : q.Nodup
  q_fin : ∀ a ∈ q, lookupD st.dist a 0 ≠ uintINF
  q_sorted : q.Pairwise fun a b => lookupD st.dist a 0 ≤ lookupD st.dist b 0
  q_close : ∀ a ∈ q, ∀ b ∈ q, lookupD st.dist a 0 ≤ lookupD st.dist b 0 + 1
  done_succ : ∀ v ∈ g.vertices, lookupD st.dist v 0 ≠ uintINF → v ∉ q →
    ∀ w ∈ g.succs v, lookupD st.dist w 0 ≠ uintINF ∧
      lookupD st.dist w 0 ≤ lookupD st.dist v 0 + 1
  done_le_q : ∀ v ∈ g.vertices, lookupD st.dist v 0 ≠ uintINF → v ∉ q →
    ∀ a ∈ q, lookupD st.dist v 0 ≤ lookupD st.dist a 0

/-! ## Weighted walks, negative cycles, and Bellman-Ford vocabulary -/

/-- Order companion of `dlt` (`a ≤ b` on `{finite} ∪ {+inf}`). -/
def dle : DVal → DVal → Prop
  | _, none => True
  | none, some _ => False
  | some a, some b => a ≤ b

/-- `chainOk g x l`: starting at `x`, the vertex list `l` follows
directed edges (each element is a successor of its predecessor). -/
def chainOk (g : WGraph V) : V → List V → Bool
  | _, [] => true
  | u, v :: l => decide (v ∈ g.succs u) && chainOk g v l

/-- Total weight of the walk `x · l`. -/
def wOf (g : WGraph V) : V → List V → ℚ
  | _, [] => 0
  | u, v :: l => g.weight u v + wOf g v l

/-- Endpoint of the walk `x · l`. -/
def endOf : V → List V → V
  | x, [] => x
  | _, v :: l => endOf v l

/-- `v` is reachable from `s` along directed edges. -/
def WReach (g : WGraph V) (s v : V) : Prop :=
  ∃ l, chainOk g s l = true ∧ endOf s l = v

/-- The graph contains a negative-weight cycle (equivalently, a
negative-weight nonempty closed walk) reachable from `s`. -/
def HasNegCycle (g : WGraph V) (s : V) : Prop :=
  ∃ v l, WReach g s v ∧ l ≠ [] ∧ chainOk g v l = true ∧ endOf v l = v ∧
    wOf g v l < 0

/-- One link of a predecessor chain in a shortest-path table: `p` lists
the vertices obtained from `x` by repeatedly following `pred`, each step
crossing a real edge whose relaxation inequality holds. -/
def predLinks (g : WGraph V) (st : SPRes V) (s nil : V) : V → List V → Prop
  | _, [] => True
  | x, y :: p => x ≠ s ∧ x ∈ g.vertices ∧ y = lookupD st.pred x nil ∧
      y ∈ g.vertices ∧ x ∈ g.succs y ∧
      dle (dplus (lookupD st.dist y (some 0)) (g.weight y x))
        (lookupD st.dist x (some 0)) ∧
      predLinks g st s nil y p

/-- A full predecessor chain from `x` down to the source `s`. -/
def predPathOk (g : WGraph V) (st : SPRes V) (s nil : V) (x : V)
    (p : List V) : Prop :=
  predLinks g st s nil x p ∧ endOf x p = s

/-- Upper-bound property after `k` relaxation rounds: the table is at or
below the weight of every walk from `s` with at most `k` edges. -/
def UBnd (g : WGraph V) (s : V) (k : ℕ) (st : SPRes V) : Prop :=
  ∀ l, chainOk g s l = true → l.length ≤ k →
    dle (lookupD st.dist (endOf s l) (some 0)) (some (wOf g s l))

/-- The state invariant of `bellmanFord` maintained by every single
relaxation (no hypotheses about cycles): the source stays at or below
`0` and turns strictly negative before its `NIL` predecessor is ever
overwritten, every finite table entry is the exact weight of a real walk
from `s`, and untouched (`INF`) vertices keep the `NIL` predecessor. -/
structure BFInv1 (g : WGraph V) (s nil : V) (st : SPRes V) : Prop where
  ds_le : dle (lookupD st.dist s (some 0)) (some 0)
  sound : ∀ v ∈ g.vertices, ∀ c, lookupD st.dist v (some 0) = some c →
    ∃ l, chainOk g s l = true ∧ endOf s l = v ∧ wOf g s l = c
  inf_nil : ∀ v ∈ g.vertices, v ≠ s → lookupD st.dist v (some 0) = none →
    lookupD st.pred v nil = nil
  ps : dlt (lookupD st.dist s (some 0)) (some 0) = true ∨
    lookupD st.pred s nil = nil

/-- The predecessor-chain invariant of `bellmanFord` (maintained when no
negative cycle is reachable from `s`): every discovered vertex has a
`pred` chain that reaches `s`. -/
def BFChain (g : WGraph V) (s nil : V) (st : SPRes V) : Prop :=
  ∀ x ∈ g.vertices, lookupD st.dist x (some 0) ≠ none →
    ∃ p, predPathOk g st s nil x p

/-- A two-vertex, one-edge weighted graph (edge `0 → 1` of weight `1`),
written directly in the map representation. -/
def exBF : WGraph ℕ := ⟨[(0, [1]), (1, [])], [((0, 1), 1)]⟩

/-! ## Strongly-connected-component vocabulary (for the `scc` claim) -/

/-- Edge chains in an unweighted graph (mirror of `chainOk`): starting
at `x`, the vertex list follows directed edges. -/
def gchain (g : Graph V) : V → List V → Bool
  | _, [] => true
  | u, v :: l => decide (v ∈ g.succs u) && gchain g v l

/-- Mutual reachability: `u` and `v` lie in the same strongly connected
component. -/
def InSCC (g : Graph V) (u v : V) : Prop :=
  Reachable g u v ∧ Reachable g v u

/-- `x`'s stamp interval is contained in `z`'s (allowing `x = z`): `x`
was discovered and finished within `z`'s visit. -/
def InTree (r : DFSRes V) (z x : V) : Prop :=
  detOf r z ≤ detOf r x ∧ finOf r x ≤ finOf r z

/-- Every currently open (gray) vertex reaches `v` by an edge chain of
already-discovered vertices with later discovery stamps: the relation of
a vertex about to be visited to the recursion stack. -/
def GraysReach (g : Graph V) (r : DFSRes V) (v : V) : Prop :=
  ∀ u, colorOf r u = Color.gray →
    ∃ p, gchain g u p = true ∧ endOf u p = v ∧
      ∀ x ∈ p, x ≠ v → colorOf r x ≠ Color.white ∧ detOf r u < detOf r x

/-- The supplementary invariant of the (non-`sorted`) depth-first
traversals, recording what the `scc` correctness argument needs beyond
`DInv`: discovered vertices come from `dom`, a finished vertex saw all
its successors discovered before it closed, and an open vertex reaches
every later-discovered vertex — a closed one every vertex nested in its
interval — by a chain of later-discovered vertices. -/
structure KInv (g : Graph V) (dom : List V) (r : DFSRes V) : Prop where
  k_dom : ∀ u, colorOf r u ≠ Color.white → u ∈ dom
  k_edge : ∀ u, colorOf r u = Color.black → ∀ w ∈ g.succs u,
    detOf r w ≠ 0 ∧ detOf r w < finOf r u
  k_reach : ∀ u w, colorOf r u ≠ Color.white → colorOf r w ≠ Color.white →
    detOf r u < detOf r w →
    (finOf r u = 0 ∨ (finOf r w ≠ 0 ∧ finOf r w < finOf r u)) →
    ∃ p, gchain g u p = true ∧ endOf u p = w ∧
      ∀ x ∈ p, colorOf r x ≠ Color.white ∧ detOf r u < detOf r x ∧
        (finOf r u ≠ 0 → finOf r x ≠ 0 ∧ finOf r x < finOf r u)

/-- `KInv` preservation contract of `DFSVisit` at a given fuel. -/
def KVisitSpec (g : Graph V) (dom : List V) (fuel : ℕ) : Prop :=
  ∀ v t0 r0, colorOf r0 v = Color.white → DInv g t0 r0 → KInv g dom r0 →
    v ∈ dom → GraysReach g r0 v →
    (whites g r0 < fuel ∨ (v ∈ allVerts g ∧ whites g r0 = fuel)) →
    ∀ t1 r1, DFSVisit g fuel v t0 r0 = DRes.ok t1 r1 → KInv g dom r1

/-- `KInv` preservation contract of the successor loop. -/
def KLoopSpec (g : Graph V) (dom : List V) (fuel : ℕ) : Prop :=
  ∀ us t r, (∀ u ∈ us, u ∈ allVerts g) → (∀ u ∈ us, u ∈ dom) →
    DInv g t r → KInv g dom r → (∀ u ∈ us, GraysReach g r u) →
    whites g r ≤ fuel →
    ∀ t' r', dfsSuccLoop (DFSVisit g fuel) us t r = DRes.ok t' r' →
      KInv g dom r'


/-- `b` occurs strictly after `a` in the list `l`. -/
def After (l : List V) (a b : V) : Prop :=
  ∃ l1 l2, l = l1 ++ a :: l2 ∧ b ∈ l2

/-!
# Theorems
-/

/-- C1.  The claim fails on the code and the code contradicts its own
documentation (`topsort` is documented as a topological sort, and the
spec requires `u` before `v` for every edge `u→v`): on the two-vertex
DAG with the single edge `0 → 1`, `topsort` succeeds but emits the
finish-time-*ascending* sequence `[1, 0]`, which lists the edge's target
before its source — the reverse of a topological order. -/
theorem topsort_emits_reverse_topological_order :
    topsort exDag = (true, [1, 0]) ∧ 1 ∈ exDag.succs 0 := by
  constructor
  · rfl
  · simp [exDag, Graph.succs, lookupD, findVal]

/-- C2.  On the all-weights-`1` path `0→4→3→2→1` (source `0`)
Bellman–Ford computes the true distances (vertex `1` at distance `4`),
while `dijkstra` — whose `changePrio` call targets the entry already
extracted from the queue, so no decrease-key ever happens — leaves
vertex `1` at `INF`/`NIL`: the two distance tables differ.  (The
sentinel `NIL` is `99`, not a vertex.) -/
theorem dijkstra_disagrees_with_bellmanFord_on_nonnegative_weights :
    (∀ p ∈ exW2.wt, 0 ≤ p.2) ∧
    (bellmanFord exW2 0 99).1 = true ∧
    (bellmanFord exW2 0 99).2.dist =
      [(0, some 0), (1, some 4), (2, some 3), (3, some 2), (4, some 1)] ∧
    (dijkstra exW2 0 99).dist =
      [(0, some 0), (1, none), (2, some 3), (3, some 2), (4, some 1)] ∧
    (bellmanFord exW2 0 99).2.dist ≠ (dijkstra exW2 0 99).dist := by
  have hbf : (bellmanFord exW2 0 99).1 = true ∧ (bellmanFord exW2 0 99).2.dist =
      [(0, some 0), (1, some 4), (2, some 3), (3, some 2), (4, some 1)] := by
    constructor <;>
    norm_num [bellmanFord, exW2, mkWeighted, mkWeighted.pushNil, bfRounds, bfRound,
      bfImprovable, hilfsfunktion, WGraph.vertices, WGraph.succs, WGraph.weight,
      keysOf, lookupD, findVal, setVal, pushBack, setValEq, dplus, dlt]
  have hdj : (dijkstra exW2 0 99).dist =
      [(0, some 0), (1, none), (2, some 3), (3, some 2), (4, some 1)] := by
    norm_num [dijkstra, dijkstraLoop, dijkstraScan, exW2, mkWeighted,
      mkWeighted.pushNil, WGraph.vertices, WGraph.succs, WGraph.weight, keysOf,
      lookupD, findVal, setVal, pushBack, setValEq, dplus, dlt, PrioQueue.insert,
      PrioQueue.extractMinimum, PrioQueue.changePrio, insertE, entLt, findById,
      removeById]
  refine ⟨?_, hbf.1, hbf.2, hdj, ?_⟩
  · norm_num [exW2, mkWeighted, mkWeighted.pushNil, setValEq, pushBack, findVal,
      setVal]
  · rw [hbf.2, hdj]
    simp

/-- C3.  On the symmetric triangle with `w(0,1)=1`, `w(0,2)=2`,
`w(1,2)=10` and source `0`, `prim` — whose guard compares against an
internal key table it never updates, so every scanned edge overwrites
the previous key — returns the tree `{1 ↦ 0, 2 ↦ 1}` of weight `11`,
although the spanning tree `{1 ↦ 0, 2 ↦ 0}` (both edges incident to the
source, present in the graph) weighs `3`.  The minimum over all spanning
trees of this triangle is `3`, so the result is not minimal. -/
theorem prim_returns_non_minimal_spanning_tree :
    prim exW3 0 99 = [(0, 99), (1, 0), (2, 1)] ∧
    predWeight exW3 0 (prim exW3 0 99) = 11 ∧
    predWeight exW3 0 [(0, 99), (1, 0), (2, 0)] = 3 ∧
    1 ∈ exW3.succs 0 ∧ 2 ∈ exW3.succs 0 := by
  refine ⟨?_, ?_, ?_, ?_, ?_⟩
  · norm_num [prim, primLoop, primStep, exW3, mkWeighted, mkWeighted.pushNil,
      WGraph.vertices, WGraph.succs, WGraph.weight, keysOf, lookupD, findVal,
      setVal, pushBack, setValEq, PrioQueue.insert, PrioQueue.extractMinimum,
      PrioQueue.isEmpty, PrioQueue.changePrio, PrioQueue.contains, insertE, entLt,
      findById, removeById, ratTruncToInt, intINF]
  · norm_num [predWeight, exW3, mkWeighted, mkWeighted.pushNil, WGraph.weight,
      lookupD, findVal, setVal, pushBack, setValEq, prim, primLoop, primStep,
      WGraph.vertices, WGraph.succs, keysOf, PrioQueue.insert,
      PrioQueue.extractMinimum, PrioQueue.isEmpty, PrioQueue.changePrio,
      PrioQueue.contains, insertE, entLt, findById, removeById, ratTruncToInt,
      intINF]
  · norm_num [predWeight, exW3, mkWeighted, mkWeighted.pushNil, WGraph.weight,
      lookupD, findVal, setVal, pushBack, setValEq]
  · norm_num [exW3, mkWeighted, mkWeighted.pushNil, WGraph.succs, lookupD,
      findVal, setVal, pushBack, setValEq]
  · norm_num [exW3, mkWeighted, mkWeighted.pushNil, WGraph.succs, lookupD,
      findVal, setVal, pushBack, setValEq]

/-- C4 counterexample.  On the graph `{0 ↦ [1], 1 ↦ []}` the vertex `0`
has no incoming edges, yet the transpose's key set is `[1]` — the claim
requires `0` to appear in it with an empty successor list. -/
theorem transpose_drops_vertex_without_incoming_edges :
    (exDag.transpose).vertices = [1] ∧ 0 ∈ exDag.vertices ∧
    (∀ u ∈ exDag.vertices, 0 ∉ exDag.succs u) := by
  decide

/-- C7 counterexample.  On the empty graph — which has no strongly
connected components — `scc` pushes the still-empty accumulator list
once, returning the one-element collection `[[]]`, which is not a
partition into SCCs and contains an empty inner list (the claim forbids
both). -/
theorem scc_emits_empty_component_on_empty_graph :
    scc exEmpty = [[]] ∧ [] ∈ scc exEmpty := by
  exact ⟨rfl, by decide⟩

/-- C10 counterexample.  Querying the successors of the unknown vertex
`1` on the graph `{0 ↦ []}` returns the empty sequence but *inserts*
`1` into the key set: `vertices()` changes from `[0]` to `[0, 1]`,
violating the claimed frame property. -/
theorem successors_inserts_unknown_vertex :
    (exSingle.successors 1).1 = [] ∧
    exSingle.vertices = [0] ∧
    (exSingle.successors 1).2.vertices = [0, 1] := by
  decide

/-! ## Association-list lemmas -/

theorem findVal_eq_none {α β : Type} [DecidableEq α] {m : List (α × β)} {a : α}
    (h : a ∉ keysOf m) : findVal m a = none := by
  induction m with
  | nil => rfl
  | cons p m ih =>
      simp only [keysOf, List.map_cons, List.mem_cons] at h
      push_neg at h
      obtain ⟨p1, p2⟩ := p
      simp only [findVal]
      rw [if_neg (by simpa using fun e => h.1 e.symm), ih h.2]

theorem findVal_isSome_of_mem {α β : Type} [DecidableEq α] {m : List (α × β)} {a : α}
    (h : a ∈ keysOf m) : (findVal m a).isSome = true := by
  induction m with
  | nil => simp [keysOf] at h
  | cons p m ih =>
      obtain ⟨p1, p2⟩ := p
      simp only [keysOf, List.map_cons, List.mem_cons] at h
      simp only [findVal]
      by_cases e : p1 = a
      · simp [e]
      · rcases h with h | h
        · exact absurd h.symm e
        · simpa [e] using ih h

theorem findVal_setVal_self {α β : Type} [LinearOrder α] (m : List (α × β)) (a : α)
    (b : β) : findVal (setVal m a b) a = some b := by
  induction m with
  | nil => simp [setVal, findVal]
  | cons p m ih =>
      obtain ⟨k, v⟩ := p
      simp only [setVal]
      by_cases h1 : a < k
      · simp [h1, findVal]
      · by_cases h2 : a = k
        · simp [h1, h2, findVal]
        · have hk : ¬ k = a := fun e => h2 e.symm
          simp [h1, h2, findVal, hk, ih]

theorem findVal_setVal_ne {α β : Type} [LinearOrder α] (m : List (α × β)) (a a' : α)
    (b : β) (h : a' ≠ a) : findVal (setVal m a b) a' = findVal m a' := by
  have hne : ¬ a = a' := fun e => h e.symm
  induction m with
  | nil =>
      simp only [setVal, findVal]
      rw [if_neg hne]
  | cons p m ih =>
      obtain ⟨k, v⟩ := p
      simp only [setVal]
      by_cases h1 : a < k
      · simp only [if_pos h1, findVal]
        rw [if_neg hne]
      · by_cases h2 : a = k
        · subst h2
          simp only [h1, if_false, if_pos rfl, findVal]
          rw [if_neg hne, if_neg hne]
        · simp only [h1, h2, if_false, findVal, ih]

theorem mem_keysOf_setVal {α β : Type} [LinearOrder α] {m : List (α × β)} {a u : α}
    {b : β} : u ∈ keysOf (setVal m a b) ↔ u ∈ keysOf m ∨ u = a := by
  induction m with
  | nil =>
      simp only [setVal, keysOf, List.map_cons, List.map_nil, List.mem_cons,
        List.not_mem_nil]
      tauto
  | cons p m ih =>
      obtain ⟨k, v⟩ := p
      simp only [setVal]
      by_cases h1 : a < k
      · simp only [h1, if_true, keysOf, List.map_cons, List.mem_cons]
        tauto
      · by_cases h2 : a = k
        · subst h2
          simp only [h1, if_true, if_false, keysOf, List.map_cons, List.mem_cons]
          tauto
        · simp only [h1, h2, if_false, keysOf, List.map_cons, List.mem_cons]
          simp only [keysOf] at ih
          rw [ih]
          tauto

theorem keysOf_setVal_head {α β : Type} [LinearOrder α] (m : List (α × β)) (a : α)
    (b : β) :
    (keysOf (setVal m a b)).head? = some a ∨
      (keysOf (setVal m a b)).head? = (keysOf m).head? := by
  cases m with
  | nil => simp [setVal, keysOf]
  | cons p m =>
      obtain ⟨k, v⟩ := p
      simp only [setVal]
      by_cases h1 : a < k
      · simp [h1, keysOf]
      · by_cases h2 : a = k
        · simp [h1, h2, keysOf]
        · simp [h1, h2, keysOf]

theorem sortedKeys_setVal {α β : Type} [LinearOrder α] {m : List (α × β)} (a : α)
    (b : β) (h : SortedKeys m) : SortedKeys (setVal m a b) := by
  induction m with
  | nil => simp [setVal, SortedKeys, keysOf]
  | cons p m ih =>
      obtain ⟨k, v⟩ := p
      simp only [SortedKeys, keysOf, List.map_cons, List.chain'_cons'] at h
      have hm : SortedKeys m := h.2
      simp only [setVal]
      by_cases h1 : a < k
      · simp only [h1, if_true, SortedKeys, keysOf, List.map_cons,
          List.chain'_cons']
        exact ⟨fun y hy => by simp at hy; exact hy ▸ h1, h⟩
      · by_cases h2 : a = k
        · subst h2
          simp only [h1, if_true, if_false, SortedKeys, keysOf, List.map_cons,
            List.chain'_cons']
          exact h
        · have ha : k < a := lt_of_le_of_ne (not_lt.mp h1) fun e => h2 e.symm
          simp only [h1, h2, if_false, SortedKeys, keysOf, List.map_cons,
            List.chain'_cons']
          refine ⟨fun y hy => ?_, ih hm⟩
          rcases keysOf_setVal_head m a b with he | he <;>
            simp only [keysOf] at he <;> rw [he] at hy
          · simp only [Option.mem_def, Option.some.injEq] at hy
            exact hy ▸ ha
          · exact h.1 y hy

/-- C10 amended.  For every graph `g` and vertex `v` that is not a key
of `g`, `g.successors(v)` returns the empty sequence — but the call
inserts `v` into the key set: afterwards `vertices()` returns exactly
the old key set plus `v`. -/
theorem successors_unknown_empty_and_inserts_key (g : Graph V) (v : V)
    (h : v ∉ g.vertices) :
    (g.successors v).1 = [] ∧
      ∀ u, u ∈ (g.successors v).2.vertices ↔ u ∈ g.vertices ∨ u = v := by
  have hf : findVal g.adj v = none := findVal_eq_none h
  unfold Graph.successors
  rw [hf]
  exact ⟨rfl, fun u => mem_keysOf_setVal⟩

/-- C10 amended, witnessed on the single-key graph `{0 ↦ []}` and the
unknown vertex `1`. -/
theorem successors_unknown_empty_and_inserts_key_witness :
    (1 : ℕ) ∉ exSingle.vertices ∧
      ((exSingle.successors 1).1 = [] ∧
        ∀ u, u ∈ (exSingle.successors 1).2.vertices ↔ u ∈ exSingle.vertices ∨ u = 1) :=
  ⟨by decide, successors_unknown_empty_and_inserts_key exSingle 1 (by decide)⟩

/-! ## `pushBack` lemmas and the transpose theorem -/

theorem sortedKeys_head_lt {α β : Type} [LinearOrder α] {k0 : α} {v0 : β}
    {m : List (α × β)} (hs : SortedKeys ((k0, v0) :: m)) :
    ∀ y ∈ keysOf m, k0 < y := by
  simp only [SortedKeys, keysOf, List.map_cons] at hs
  rw [List.chain'_iff_pairwise] at hs
  simpa [keysOf] using (List.pairwise_cons.mp hs).1

theorem lookupD_pushBack_self {α β : Type} [LinearOrder α] (m : List (α × List β))
    (k : α) (x : β) (hs : SortedKeys m) :
    lookupD (pushBack m k x) k [] = lookupD m k [] ++ [x] := by
  induction m with
  | nil => simp [pushBack, lookupD, findVal]
  | cons p m ih =>
      obtain ⟨k0, v0⟩ := p
      simp only [pushBack]
      by_cases h1 : k < k0
      · have hnone : findVal m k = none := by
          refine findVal_eq_none fun hk => ?_
          exact absurd (h1.trans (sortedKeys_head_lt hs k hk)) (lt_irrefl k)
        simp [h1, lookupD, findVal, h1.ne', hnone]
      · by_cases h2 : k = k0
        · subst h2
          simp [h1, lookupD, findVal]
        · have hk : ¬ k0 = k := fun e => h2 e.symm
          have hs2 : SortedKeys m := by
            simp only [SortedKeys, keysOf, List.map_cons, List.chain'_cons'] at hs
            exact hs.2
          simp only [h1, h2, if_false, lookupD, findVal, hk]
          exact ih hs2

theorem lookupD_pushBack_ne {α β : Type} [LinearOrder α] (m : List (α × List β))
    (k k' : α) (x : β) (h : k' ≠ k) :
    lookupD (pushBack m k x) k' [] = lookupD m k' [] := by
  have hne : ¬ k = k' := fun e => h e.symm
  induction m with
  | nil =>
      simp [pushBack, lookupD, findVal, hne]
  | cons p m ih =>
      obtain ⟨k0, v0⟩ := p
      simp only [pushBack]
      by_cases h1 : k < k0
      · simp only [if_pos h1, lookupD, findVal]
        rw [if_neg hne]
      · by_cases h2 : k = k0
        · subst h2
          rw [if_neg h1, if_pos rfl]
          simp only [lookupD, findVal]
          rw [if_neg hne, if_neg hne]
        · simp only [h1, h2, if_false, lookupD, findVal] at *
          by_cases h3 : k0 = k'
          · simp [h3]
          · simp only [h3, if_false]
            exact ih

theorem keysOf_pushBack_head {α β : Type} [LinearOrder α] (m : List (α × List β))
    (k : α) (x : β) :
    (keysOf (pushBack m k x)).head? = some k ∨
      (keysOf (pushBack m k x)).head? = (keysOf m).head? := by
  cases m with
  | nil => simp [pushBack, keysOf]
  | cons p m =>
      obtain ⟨k0, v0⟩ := p
      simp only [pushBack]
      by_cases h1 : k < k0
      · simp [h1, keysOf]
      · by_cases h2 : k = k0
        · simp [h1, h2, keysOf]
        · simp [h1, h2, keysOf]

theorem sortedKeys_pushBack {α β : Type} [LinearOrder α] {m : List (α × List β)}
    (k : α) (x : β) (h : SortedKeys m) : SortedKeys (pushBack m k x) := by
  induction m with
  | nil => simp [pushBack, SortedKeys, keysOf]
  | cons p m ih =>
      obtain ⟨k0, v0⟩ := p
      simp only [SortedKeys, keysOf, List.map_cons, List.chain'_cons'] at h
      simp only [pushBack]
      by_cases h1 : k < k0
      · simp only [if_pos h1, SortedKeys, keysOf, List.map_cons, List.chain'_cons']
        exact ⟨fun y hy => by simp at hy; exact hy ▸ h1, h⟩
      · by_cases h2 : k = k0
        · subst h2
          rw [if_neg h1, if_pos rfl]
          simp only [SortedKeys, keysOf, List.map_cons, List.chain'_cons']
          exact h
        · have hk : k0 < k := lt_of_le_of_ne (not_lt.mp h1) fun e => h2 e.symm
          simp only [h1, h2, if_false, SortedKeys, keysOf, List.map_cons,
            List.chain'_cons']
          refine ⟨fun y hy => ?_, ih h.2⟩
          rcases keysOf_pushBack_head m k x with he | he <;>
            simp only [keysOf] at he <;> rw [he] at hy
          · simp only [Option.mem_def, Option.some.injEq] at hy
            exact hy ▸ hk
          · exact h.1 y hy

theorem mem_keysOf_pushBack {α β : Type} [LinearOrder α] {m : List (α × List β)}
    {k u : α} {x : β} : u ∈ keysOf (pushBack m k x) ↔ u ∈ keysOf m ∨ u = k := by
  induction m with
  | nil =>
      simp only [pushBack, keysOf, List.map_cons, List.map_nil, List.mem_cons,
        List.not_mem_nil]
      tauto
  | cons p m ih =>
      obtain ⟨k0, v0⟩ := p
      simp only [pushBack]
      by_cases h1 : k < k0
      · simp only [if_pos h1, keysOf, List.map_cons, List.mem_cons]
        tauto
      · by_cases h2 : k = k0
        · subst h2
          rw [if_neg h1, if_pos rfl]
          simp only [keysOf, List.map_cons, List.mem_cons]
          tauto
        · simp only [h1, h2, if_false, keysOf, List.map_cons, List.mem_cons]
          simp only [keysOf] at ih
          rw [ih]
          tauto

theorem innerFold_sorted {α : Type} [LinearOrder α] (l : List α) (u : α)
    (a : List (α × List α)) (hs : SortedKeys a) :
    SortedKeys (l.foldl (fun a' v => pushBack a' v u) a) := by
  induction l generalizing a with
  | nil => exact hs
  | cons v l ih => exact ih _ (sortedKeys_pushBack v u hs)

theorem innerFold_lookup {α : Type} [LinearOrder α] (l : List α) (u w : α)
    (a : List (α × List α)) (hs : SortedKeys a) :
    lookupD (l.foldl (fun a' v => pushBack a' v u) a) w [] =
      lookupD a w [] ++ List.replicate (l.count w) u := by
  induction l generalizing a with
  | nil => simp
  | cons v l ih =>
      simp only [List.foldl_cons]
      rw [ih _ (sortedKeys_pushBack v u hs)]
      by_cases hw : w = v
      · subst hw
        rw [lookupD_pushBack_self _ _ _ hs, List.count_cons_self,
          List.replicate_succ, List.append_assoc]
        rfl
      · rw [lookupD_pushBack_ne _ _ _ _ hw,
          List.count_cons_of_ne (by simpa [eq_comm] using hw)]

theorem innerFold_mem_keys {α : Type} [LinearOrder α] (l : List α) (u w : α)
    (a : List (α × List α)) :
    w ∈ keysOf (l.foldl (fun a' v => pushBack a' v u) a) ↔
      w ∈ keysOf a ∨ w ∈ l := by
  induction l generalizing a with
  | nil => simp
  | cons v l ih =>
      simp only [List.foldl_cons, List.mem_cons]
      rw [ih]
      rw [mem_keysOf_pushBack]
      tauto

theorem outerFold_sorted (g : Graph V) (us : List V) (a : List (V × List V))
    (hs : SortedKeys a) :
    SortedKeys
      (us.foldl (fun a u => (g.succs u).foldl (fun a' v => pushBack a' v u) a) a) := by
  induction us generalizing a with
  | nil => exact hs
  | cons u us ih => exact ih _ (innerFold_sorted _ _ _ hs)

theorem outerFold_count (g : Graph V) (us : List V) (a : List (V × List V))
    (hs : SortedKeys a) (hnd : us.Nodup) (u w : V) :
    ((lookupD
        (us.foldl (fun a u => (g.succs u).foldl (fun a' v => pushBack a' v u) a) a)
        w []).count u) =
      (lookupD a w []).count u + (if u ∈ us then (g.succs u).count w else 0) := by
  induction us generalizing a with
  | nil => simp
  | cons u0 us ih =>
      simp only [List.foldl_cons]
      rcases List.nodup_cons.mp hnd with ⟨hu0, hnd'⟩
      rw [ih _ (innerFold_sorted _ _ _ hs) hnd']
      rw [innerFold_lookup _ _ _ _ hs, List.count_append, List.count_replicate]
      simp only [beq_iff_eq]
      by_cases he : u = u0
      · subst he
        simp [hu0, List.mem_cons]
      · by_cases hm : u ∈ us <;> simp [he, Ne.symm he, hm, List.mem_cons]

theorem outerFold_mem_keys (g : Graph V) (us : List V) (a : List (V × List V))
    (w : V) :
    w ∈ keysOf
        (us.foldl (fun a u => (g.succs u).foldl (fun a' v => pushBack a' v u) a) a) ↔
      w ∈ keysOf a ∨ ∃ u ∈ us, w ∈ g.succs u := by
  induction us generalizing a with
  | nil => simp
  | cons u0 us ih =>
      simp only [List.foldl_cons, List.mem_cons]
      rw [ih]
      rw [innerFold_mem_keys]
      constructor
      · rintro ((h | h) | ⟨u, hu, hw⟩)
        · exact Or.inl h
        · exact Or.inr ⟨u0, Or.inl rfl, h⟩
        · exact Or.inr ⟨u, Or.inr hu, hw⟩
      · rintro (h | ⟨u, (rfl | hu), hw⟩)
        · exact Or.inl (Or.inl h)
        · exact Or.inl (Or.inr hw)
        · exact Or.inr ⟨u, hu, hw⟩

theorem sortedKeys_nodup {α β : Type} [LinearOrder α] {m : List (α × β)}
    (hs : SortedKeys m) : (keysOf m).Nodup := by
  unfold SortedKeys at hs
  rw [List.chain'_iff_pairwise] at hs
  exact hs.nodup

/-- C4 amended.  For every well-formed graph `g`, `transpose()` returns a
graph in which every edge `(u→v)` of `g` appears as `(v→u)` with the same
multiplicity, and whose key set is *exactly* the set of vertices with at
least one incoming edge — so a vertex with no incoming edges does *not*
appear in the transpose's key set (the original claim demanded it
appear). -/
theorem transpose_reverses_edges_and_keeps_only_edge_targets (g : Graph V)
    (hs : SortedKeys g.adj) :
    (∀ u w, ((g.transpose).succs w).count u = (g.succs u).count w) ∧
      (∀ w, w ∈ (g.transpose).vertices ↔ ∃ u ∈ g.vertices, w ∈ g.succs u) := by
  constructor
  · intro u w
    show ((lookupD _ w []).count u) = _
    unfold Graph.transpose
    rw [outerFold_count g g.vertices [] (by simp [SortedKeys, keysOf])
      (sortedKeys_nodup hs) u w]
    by_cases hu : u ∈ g.vertices
    · simp [hu, lookupD, findVal]
    · have : g.succs u = [] := by
        unfold Graph.succs lookupD
        rw [findVal_eq_none hu]
        rfl
      simp [hu, this, lookupD, findVal]
  · intro w
    show w ∈ keysOf _ ↔ _
    unfold Graph.transpose
    rw [outerFold_mem_keys g g.vertices [] w]
    simp [keysOf]

/-- C4 amended, witnessed on the DAG `{0 ↦ [1], 1 ↦ []}`. -/
theorem transpose_reverses_edges_and_keeps_only_edge_targets_witness :
    SortedKeys exDag.adj ∧
      ((∀ u w, ((exDag.transpose).succs w).count u = (exDag.succs u).count w) ∧
        (∀ w, w ∈ (exDag.transpose).vertices ↔ ∃ u ∈ exDag.vertices, w ∈ exDag.succs u)) :=
  ⟨by simp [SortedKeys, exDag, keysOf],
    transpose_reverses_edges_and_keeps_only_edge_targets exDag
      (by simp [SortedKeys, exDag, keysOf])⟩

/-! ## Priority-queue lemmas -/

section PrioQueueProofs

variable {P D : Type} [LinearOrder P]

theorem entLt_iff (e1 e2 : Entry P D) :
    entLt (pltOf P) e1 e2 = true ↔
      e1.prio < e2.prio ∨ (e1.prio = e2.prio ∧ e1.id < e2.id) := by
  unfold entLt pltOf
  by_cases h1 : e1.prio < e2.prio
  · simp [h1]
  · by_cases h2 : e2.prio < e1.prio
    · simp [h1, h2, h2.ne']
    · have he : e1.prio = e2.prio := le_antisymm (not_lt.mp h2) (not_lt.mp h1)
      simp [h1, h2, he]

theorem entLt_trans {e1 e2 e3 : Entry P D}
    (h : entLt (pltOf P) e1 e2 = true) (h' : entLt (pltOf P) e2 e3 = true) :
    entLt (pltOf P) e1 e3 = true := by
  rw [entLt_iff] at *
  rcases h with h | ⟨h, hi⟩ <;> rcases h' with h' | ⟨h', hi'⟩
  · exact Or.inl (h.trans h')
  · exact Or.inl (h' ▸ h)
  · exact Or.inl (h ▸ h')
  · exact Or.inr ⟨h.trans h', hi.trans hi'⟩

theorem entLt_total {e1 e2 : Entry P D} (h : e1.id ≠ e2.id) :
    entLt (pltOf P) e1 e2 = true ∨ entLt (pltOf P) e2 e1 = true := by
  rw [entLt_iff, entLt_iff]
  rcases lt_trichotomy e1.prio e2.prio with hp | hp | hp
  · exact Or.inl (Or.inl hp)
  · rcases lt_or_gt_of_ne h with hi | hi
    · exact Or.inl (Or.inr ⟨hp, hi⟩)
    · exact Or.inr (Or.inr ⟨hp.symm, hi⟩)
  · exact Or.inr (Or.inl hp)

theorem insertE_perm {l : List (Entry P D)} {e : Entry P D}
    (h : ∀ x ∈ l, entLt (pltOf P) x e = true ∨ entLt (pltOf P) e x = true) :
    (insertE (pltOf P) l e).Perm (e :: l) := by
  induction l with
  | nil => simp [insertE]
  | cons x xs ih =>
      simp only [insertE]
      by_cases h1 : entLt (pltOf P) e x = true
      · simp [h1]
      · by_cases h2 : entLt (pltOf P) x e = true
        · simp only [h1, h2, if_true, if_false, Bool.false_eq_true]
          have hp : (insertE (pltOf P) xs e).Perm (e :: xs) :=
            ih fun y hy => h y (List.mem_cons_of_mem x hy)
          exact (hp.cons x).trans (List.Perm.swap e x xs)
        · rcases h x (List.mem_cons_self x xs) with hx | hx
          · exact absurd hx h2
          · exact absurd hx h1

theorem insertE_head (l : List (Entry P D)) (e : Entry P D) :
    (insertE (pltOf P) l e).head? = some e ∨
      (insertE (pltOf P) l e).head? = l.head? := by
  cases l with
  | nil => simp [insertE]
  | cons x xs =>
      simp only [insertE]
      by_cases h1 : entLt (pltOf P) e x = true
      · simp [h1]
      · by_cases h2 : entLt (pltOf P) x e = true
        · simp [h1, h2]
        · simp [h1, h2]

theorem insertE_sorted {l : List (Entry P D)} {e : Entry P D}
    (hs : List.Chain' (fun a b => entLt (pltOf P) a b = true) l) :
    List.Chain' (fun a b => entLt (pltOf P) a b = true) (insertE (pltOf P) l e) := by
  induction l with
  | nil => simp [insertE]
  | cons x xs ih =>
      rw [List.chain'_cons'] at hs
      simp only [insertE]
      by_cases h1 : entLt (pltOf P) e x = true
      · simp only [h1, if_true]
        rw [List.chain'_cons']
        refine ⟨fun y hy => ?_, List.chain'_cons'.mpr hs⟩
        simp only [List.head?_cons, Option.mem_def, Option.some.injEq] at hy
        exact hy ▸ h1
      · by_cases h2 : entLt (pltOf P) x e = true
        · simp only [h1, h2, if_true, if_false, Bool.false_eq_true]
          rw [List.chain'_cons']
          refine ⟨fun y hy => ?_, ih hs.2⟩
          rcases insertE_head xs e with he | he <;> rw [he] at hy
          · simp only [Option.mem_def, Option.some.injEq] at hy
            exact hy ▸ h2
          · exact hs.1 y hy
        · simp only [h1, h2, if_false, Bool.false_eq_true]
          exact List.chain'_cons'.mpr hs

theorem removeById_sublist (l : List (Entry P D)) (i : ℕ) :
    (removeById l i).Sublist l := by
  induction l with
  | nil => simp [removeById]
  | cons x xs ih =>
      simp only [removeById]
      by_cases h : x.id = i
      · simp only [h, if_true]
        exact List.sublist_cons_self x xs
      · simp only [h, if_false]
        exact ih.cons₂ x

theorem findById_eq_some {l : List (Entry P D)} {i : ℕ} {e : Entry P D}
    (h : findById l i = some e) : e ∈ l ∧ e.id = i := by
  induction l with
  | nil => simp [findById] at h
  | cons x xs ih =>
      simp only [findById] at h
      by_cases hx : x.id = i
      · rw [if_pos hx] at h
        cases h
        exact ⟨List.mem_cons_self _ xs, hx⟩
      · rw [if_neg hx] at h
        exact ⟨List.mem_cons_of_mem x (ih h).1, (ih h).2⟩

theorem perm_removeById {l : List (Entry P D)} {i : ℕ} {e : Entry P D}
    (h : findById l i = some e) : l.Perm (e :: removeById l i) := by
  induction l with
  | nil => simp [findById] at h
  | cons x xs ih =>
      simp only [findById] at h
      by_cases hx : x.id = i
      · rw [if_pos hx] at h
        cases h
        simp only [removeById, if_pos hx]
        exact List.Perm.refl _
      · rw [if_neg hx] at h
        simp only [removeById, if_neg hx]
        exact ((ih h).cons x).trans (List.Perm.swap e x (removeById xs i))

theorem findById_eq_none {l : List (Entry P D)} {i : ℕ}
    (h : ∀ e ∈ l, e.id ≠ i) : findById l i = none := by
  induction l with
  | nil => rfl
  | cons x xs ih =>
      simp only [findById, if_neg (h x (List.mem_cons_self x xs))]
      exact ih fun e he => h e (List.mem_cons_of_mem x he)

theorem qinv_insert {q : PrioQueue P D} (h : QInv (pltOf P) q) (p : P) (d : D) :
    QInv (pltOf P) (q.insert (pltOf P) p d).2 := by
  obtain ⟨hs, hnd, hlt⟩ := h
  have htot : ∀ x ∈ q.entries,
      entLt (pltOf P) x (⟨p, q.next, d⟩ : Entry P D) = true ∨
        entLt (pltOf P) (⟨p, q.next, d⟩ : Entry P D) x = true :=
    fun x hx => entLt_total (by exact Nat.ne_of_lt (hlt x hx))
  have hperm := insertE_perm htot
  refine ⟨insertE_sorted hs, ?_, ?_⟩
  · have := (hperm.map fun e => e.id).nodup_iff.mpr
    refine this ?_
    simp only [List.map_cons, List.nodup_cons]
    exact ⟨fun hc => by
      rcases List.mem_map.mp hc with ⟨x, hx, he⟩
      exact absurd (he ▸ hlt x hx) (lt_irrefl _), hnd⟩
  · intro e he
    rcases List.mem_cons.mp (hperm.mem_iff.mp he) with rfl | hmem
    · exact Nat.lt_succ_self _
    · exact Nat.lt_succ_of_lt (hlt e hmem)

theorem qinv_remove {q : PrioQueue P D} (h : QInv (pltOf P) q) (i : ℕ) :
    QInv (pltOf P) (q.remove i).2 := by
  obtain ⟨hs, hnd, hlt⟩ := h
  unfold PrioQueue.remove
  cases hf : findById q.entries i with
  | none => exact ⟨hs, hnd, hlt⟩
  | some e =>
      have hsub := removeById_sublist q.entries i
      haveI : IsTrans (Entry P D) (fun a b => entLt (pltOf P) a b = true) :=
        ⟨fun _ _ _ => entLt_trans⟩
      refine ⟨?_, ?_, ?_⟩
      · rw [List.chain'_iff_pairwise] at hs ⊢
        exact hs.sublist hsub
      · exact hnd.sublist (hsub.map fun e => e.id)
      · exact fun x hx => hlt x (hsub.mem hx)

theorem qinv_changePrio {q : PrioQueue P D} (h : QInv (pltOf P) q) (i : ℕ) (p : P) :
    QInv (pltOf P) (q.changePrio (pltOf P) i p).2 := by
  obtain ⟨hs, hnd, hlt⟩ := h
  unfold PrioQueue.changePrio
  cases hf : findById q.entries i with
  | none => exact ⟨hs, hnd, hlt⟩
  | some e =>
      obtain ⟨hmem, hid⟩ := findById_eq_some hf
      have hperm := perm_removeById hf
      have hidperm := hperm.map fun e => e.id
      have hnd' : (e.id :: (removeById q.entries i).map fun e => e.id).Nodup :=
        (hidperm.nodup_iff.mp hnd)
      simp only [List.map_cons, List.nodup_cons] at hnd'
      have hsub := removeById_sublist q.entries i
      haveI : IsTrans (Entry P D) (fun a b => entLt (pltOf P) a b = true) :=
        ⟨fun _ _ _ => entLt_trans⟩
      have hs' : List.Chain' (fun a b => entLt (pltOf P) a b = true)
          (removeById q.entries i) := by
        rw [List.chain'_iff_pairwise] at hs ⊢
        exact hs.sublist hsub
      have htot : ∀ x ∈ removeById q.entries i,
          entLt (pltOf P) x (⟨p, e.id, e.data⟩ : Entry P D) = true ∨
            entLt (pltOf P) (⟨p, e.id, e.data⟩ : Entry P D) x = true := by
        intro x hx
        refine entLt_total fun he => ?_
        exact hnd'.1 (he ▸ List.mem_map_of_mem (fun e => e.id) hx)
      have hperm2 := insertE_perm htot
      refine ⟨insertE_sorted hs', ?_, ?_⟩
      · refine (hperm2.map fun e => e.id).nodup_iff.mpr ?_
        simp only [List.map_cons, List.nodup_cons]
        exact ⟨hnd'.1, hnd'.2⟩
      · intro x hx
        rcases List.mem_cons.mp (hperm2.mem_iff.mp hx) with rfl | hmem
        · exact hlt e hmem
        · exact hlt x (hsub.mem hmem)

theorem qinv_execOps (ops : List (QOp P)) {q : PrioQueue P Unit}
    (h : QInv (pltOf P) q) : QInv (pltOf P) (execOps (pltOf P) ops q) := by
  induction ops generalizing q with
  | nil => exact h
  | cons op ops ih =>
      cases op with
      | ins p => exact ih (qinv_insert h p ())
      | rem i => exact ih (qinv_remove h i)
      | chg i p => exact ih (qinv_changePrio h i p)

end PrioQueueProofs

/-- C8.  After any sequence of `insert` / `remove` / `changePrio`
operations on an initially empty queue: ids are pairwise distinct (two
distinct entries are never merged, even with equal priorities);
`extractMinimum` on an empty queue returns the null result and leaves the
queue unchanged; on a nonempty queue it removes and returns exactly one
entry — the rest survive verbatim — and that entry is strictly below
every remaining entry in the order "priority ascending, allocation id
ascending on ties", i.e. it has minimal priority with the deterministic
identity tie-break.  Priorities changed by a successful `changePrio`
participate with their new value because the minimality statement ranges
over the current entries of the executed state. -/
theorem prioqueue_extractMinimum_returns_unique_minimum {P : Type} [LinearOrder P]
    (ops : List (QOp P)) :
    ((execOps (pltOf P) ops ⟨[], 0⟩).entries.map fun e => e.id).Nodup ∧
      ((execOps (pltOf P) ops ⟨[], 0⟩).entries = [] →
        (execOps (pltOf P) ops ⟨[], 0⟩).extractMinimum =
          (none, execOps (pltOf P) ops ⟨[], 0⟩)) ∧
      ((execOps (pltOf P) ops ⟨[], 0⟩).entries ≠ [] →
        ∃ e q2,
          (execOps (pltOf P) ops ⟨[], 0⟩).extractMinimum = (some e, q2) ∧
            (execOps (pltOf P) ops ⟨[], 0⟩).entries = e :: q2.entries ∧
            ∀ e' ∈ q2.entries,
              e.prio < e'.prio ∨ (e.prio = e'.prio ∧ e.id < e'.id)) := by
  have hinv : QInv (pltOf P) (execOps (pltOf P) ops ⟨[], 0⟩) :=
    qinv_execOps ops ⟨List.chain'_nil, List.nodup_nil, by simp⟩
  obtain ⟨hs, hnd, _⟩ := hinv
  refine ⟨hnd, fun he => ?_, fun hne => ?_⟩
  · simp [PrioQueue.extractMinimum, he]
  · cases hq : (execOps (pltOf P) ops ⟨[], 0⟩).entries with
    | nil => exact absurd hq hne
    | cons e es =>
        refine ⟨e, ⟨es, (execOps (pltOf P) ops ⟨[], 0⟩).next⟩, ?_, ?_, ?_⟩
        · simp [PrioQueue.extractMinimum, hq]
        · simp [hq]
        · intro e' he'
          haveI : IsTrans (Entry P Unit) (fun e1 e2 => entLt (pltOf P) e1 e2 = true) :=
            ⟨fun _ _ _ => entLt_trans⟩
          rw [hq, List.chain'_iff_pairwise] at hs
          exact (entLt_iff e e').mp ((List.pairwise_cons.mp hs).1 e' he')

/-- C8, witnessed: inserting priorities `5, 3, 3` into an empty `ℕ`
queue gives a nonempty queue whose minimum extraction obeys the
ordering contract (the tie between the two `3`-entries is broken by the
smaller allocation id). -/
theorem prioqueue_extractMinimum_returns_unique_minimum_witness :
    (execOps (pltOf ℕ) [QOp.ins 5, QOp.ins 3, QOp.ins 3] ⟨[], 0⟩).entries ≠ [] ∧
      ∃ e q2,
        (execOps (pltOf ℕ) [QOp.ins 5, QOp.ins 3, QOp.ins 3] ⟨[], 0⟩).extractMinimum =
            (some e, q2) ∧
          (execOps (pltOf ℕ) [QOp.ins 5, QOp.ins 3, QOp.ins 3] ⟨[], 0⟩).entries =
              e :: q2.entries ∧
          ∀ e' ∈ q2.entries, e.prio < e'.prio ∨ (e.prio = e'.prio ∧ e.id < e'.id) :=
  ⟨by decide,
    (prioqueue_extractMinimum_returns_unique_minimum
      [QOp.ins 5, QOp.ins 3, QOp.ins 3]).2.2 (by decide)⟩

/-! ## DFS supporting lemmas -/

theorem lookupD_setVal_self {α β : Type} [LinearOrder α] (m : List (α × β))
    (a : α) (b d : β) : lookupD (setVal m a b) a d = b := by
  unfold lookupD
  rw [findVal_setVal_self]
  rfl

theorem lookupD_setVal_ne {α β : Type} [LinearOrder α] (m : List (α × β))
    {a a' : α} (b d : β) (h : a' ≠ a) :
    lookupD (setVal m a b) a' d = lookupD m a' d := by
  unfold lookupD
  rw [findVal_setVal_ne m a a' b h]

theorem countP_le_countP {α : Type} {l : List α} {p q : α → Bool}
    (h : ∀ a ∈ l, q a = true → p a = true) : l.countP q ≤ l.countP p := by
  induction l with
  | nil => simp
  | cons x xs ih =>
      rw [List.countP_cons, List.countP_cons]
      have hx := h x (List.mem_cons_self x xs)
      have hxs := ih fun a ha => h a (List.mem_cons_of_mem x ha)
      by_cases hq : q x = true
      · simp [hq, hx hq]
        omega
      · simp only [Bool.not_eq_true] at hq
        simp [hq]
        omega

theorem countP_lt_countP {α : Type} {l : List α} {p q : α → Bool}
    (h : ∀ a ∈ l, q a = true → p a = true) {x : α} (hx : x ∈ l)
    (hp : p x = true) (hq : q x = false) : l.countP q < l.countP p := by
  induction l with
  | nil => simp at hx
  | cons y ys ih =>
      rw [List.countP_cons, List.countP_cons]
      have hys := countP_le_countP fun a ha => h a (List.mem_cons_of_mem y ha)
      rcases List.mem_cons.mp hx with rfl | hxs
      · simp [hp, hq]
        omega
      · have := ih (fun a ha => h a (List.mem_cons_of_mem y ha)) hxs
        have hy := h y (List.mem_cons_self y ys)
        by_cases hqy : q y = true
        · simp [hqy, hy hqy]
          omega
        · simp only [Bool.not_eq_true] at hqy
          simp [hqy]
          omega

theorem whites_le {g : Graph V} {r r' : DFSRes V}
    (h : ∀ u, colorOf r u ≠ Color.white → colorOf r' u ≠ Color.white) :
    whites g r' ≤ whites g r := by
  refine countP_le_countP fun a _ hq => ?_
  simp only [decide_eq_true_eq] at *
  by_contra hc
  exact h a hc hq

theorem whites_lt {g : Graph V} {r r' : DFSRes V}
    (h : ∀ u, colorOf r u ≠ Color.white → colorOf r' u ≠ Color.white)
    {v : V} (hv : v ∈ allVerts g) (h1 : colorOf r v = Color.white)
    (h2 : colorOf r' v ≠ Color.white) : whites g r' < whites g r := by
  refine countP_lt_countP (fun a _ hq => ?_) hv (by simpa using h1) (by simpa using h2)
  simp only [decide_eq_true_eq] at *
  by_contra hc
  exact h a hc hq

theorem whites_le_length (g : Graph V) (r : DFSRes V) :
    whites g r ≤ (allVerts g).length :=
  List.countP_le_length _

theorem whites_pos {g : Graph V} {r : DFSRes V} {v : V} (hv : v ∈ allVerts g)
    (hw : colorOf r v = Color.white) : 1 ≤ whites g r := by
  unfold whites
  obtain ⟨s, t, he⟩ := List.append_of_mem hv
  rw [he, List.countP_append, List.countP_cons]
  simp [hw]
  omega

theorem whites_congr {g : Graph V} {r r' : DFSRes V}
    (h : ∀ u, (colorOf r' u = Color.white) ↔ (colorOf r u = Color.white)) :
    whites g r' = whites g r :=
  le_antisymm (whites_le fun u hu hc => hu ((h u).mp hc))
    (whites_le fun u hu hc => hu ((h u).mpr hc))

theorem findVal_mem {α β : Type} [DecidableEq α] {m : List (α × β)} {a : α} {b : β}
    (h : findVal m a = some b) : (a, b) ∈ m := by
  induction m with
  | nil => simp [findVal] at h
  | cons p m ih =>
      obtain ⟨k, v⟩ := p
      simp only [findVal] at h
      by_cases hk : k = a
      · rw [if_pos hk] at h
        cases h
        simp [hk]
      · rw [if_neg hk] at h
        exact List.mem_cons_of_mem _ (ih h)

theorem mem_foldr_flatten {m : List (V × List V)} {u v : V} {l : List V}
    (hm : (u, l) ∈ m) (h : v ∈ l) :
    v ∈ m.foldr (fun p acc => p.2 ++ acc) [] := by
  induction m with
  | nil => simp at hm
  | cons p m ih =>
      rcases List.mem_cons.mp hm with rfl | hm'
      · exact List.mem_append_left _ h
      · exact List.mem_append_right _ (ih hm')

theorem mem_allVerts_of_succ {g : Graph V} {u v : V} (h : v ∈ g.succs u) :
    v ∈ allVerts g := by
  unfold Graph.succs lookupD at h
  cases hf : findVal g.adj u with
  | none => rw [hf] at h; simp at h
  | some l =>
      rw [hf] at h
      simp only [Option.getD_some] at h
      unfold allVerts
      rw [List.mem_dedup]
      exact List.mem_append_right _ (mem_foldr_flatten (findVal_mem hf) h)

theorem mem_allVerts_of_vertex {g : Graph V} {u : V} (h : u ∈ g.vertices) :
    u ∈ allVerts g := by
  unfold allVerts
  rw [List.mem_dedup]
  exact List.mem_append_left _ h

/-- The successor-loop specification follows from the visitor
specification at the same fuel (induction along the successor list). -/
theorem loop_spec_of_visit (g : Graph V) (fuel : ℕ) (hv : VisitSpec g fuel) :
    LoopSpec g fuel := by
  intro us
  induction us with
  | nil =>
      intro t r hall hinv hW
      refine ⟨t, r, rfl, le_refl t, hinv, ?_, ?_, le_refl _, ?_⟩
      · exact fun u _ => ⟨rfl, rfl, rfl⟩
      · intro u hu
        exact Or.inl ⟨hu, (hinv.white_unstamped u hu).1, (hinv.white_unstamped u hu).2⟩
      · simp
  | cons u us ih =>
      intro t r hall hinv hW
      have hu_all : u ∈ allVerts g := hall u (List.mem_cons_self u us)
      have hall' : ∀ w ∈ us, w ∈ allVerts g :=
        fun w hw => hall w (List.mem_cons_of_mem u hw)
      by_cases hw : colorOf r u = Color.white
      · have hf : whites g r < fuel ∨ (u ∈ allVerts g ∧ whites g r = fuel) := by
          rcases lt_or_eq_of_le hW with h | h
          · exact Or.inl h
          · exact Or.inr ⟨hu_all, h⟩
        obtain ⟨t1, r1, heq, ht1, hinv1, hcb, hdet, hfin, hpres, hwcls, hwle, hwlt⟩ :=
          hv u t r hw hinv hf
        have hwlt1 : whites g r1 < whites g r := hwlt hu_all
        obtain ⟨t', r', heq', ht', hinv', hpres', hwcls', hwle', hlast'⟩ :=
          ih t1 r1 hall' hinv1 (le_of_lt (lt_of_lt_of_le hwlt1 hW))
        have hnotgray : ¬(lookupD r1.color_map u Color.white = Color.gray ∧
            r1.sorted = true) := by
          rintro ⟨h1, _⟩
          rw [show lookupD r1.color_map u Color.white = colorOf r1 u from rfl, hcb] at h1
          exact Color.noConfusion h1
        have hcomp : dfsSuccLoop (DFSVisit g fuel) (u :: us) t r =
            dfsSuccLoop (DFSVisit g fuel) us t1 r1 := by
          simp only [dfsSuccLoop]
          rw [if_pos hw, heq]
          simp only [if_neg hnotgray]
        refine ⟨t', r', hcomp.trans heq', by omega, hinv', ?_, ?_, ?_, ?_⟩
        · intro w hwne
          have h1 := hpres w hwne
          have h2 := hpres' w (by rw [h1.1]; exact hwne)
          exact ⟨h2.1.trans h1.1, h2.2.1.trans h1.2.1, h2.2.2.trans h1.2.2⟩
        · intro w hww
          by_cases hwv : w = u
          · subst hwv
            have h2 := hpres' w (by rw [hcb]; exact fun h => Color.noConfusion h)
            refine Or.inr ⟨h2.1.trans hcb, ?_, ?_, ?_⟩
            · rw [h2.2.1, hdet]; omega
            · rw [h2.2.1, h2.2.2, hdet, hfin]; omega
            · rw [h2.2.2, hfin]; exact ht'
          · rcases hwcls w hww hwv with ⟨hc1, hd1, hf1⟩ | ⟨hc1, hd1, hf1, hf2⟩
            · rcases hwcls' w hc1 with ⟨hc2, hd2, hf2'⟩ | ⟨hc2, hd2, hf2', hf3⟩
              · exact Or.inl ⟨hc2, hd2, hf2'⟩
              · exact Or.inr ⟨hc2, by omega, hf2', hf3⟩
            · have h2 := hpres' w (by rw [hc1]; exact fun h => Color.noConfusion h)
              refine Or.inr ⟨h2.1.trans hc1, ?_, ?_, ?_⟩
              · rw [h2.2.1]; omega
              · rw [h2.2.1, h2.2.2]; exact hf1
              · rw [h2.2.2]; omega
        · exact le_trans hwle' (le_of_lt hwlt1)
        · intro w hwm
          rcases List.mem_cons.mp hwm with rfl | hwm'
          · have h2 := hpres' w (by rw [hcb]; exact fun h => Color.noConfusion h)
            rw [h2.1, hcb]
            exact fun h => Color.noConfusion h
          · exact hlast' w hwm'
      · have hnotgray : ¬(lookupD r.color_map u Color.white = Color.gray ∧
            r.sorted = true) := by
          rintro ⟨_, h2⟩
          rw [hinv.sorted_false] at h2
          exact Bool.noConfusion h2
        obtain ⟨t', r', heq', ht', hinv', hpres', hwcls', hwle', hlast'⟩ :=
          ih t r hall' hinv hW
        have hcomp : dfsSuccLoop (DFSVisit g fuel) (u :: us) t r =
            dfsSuccLoop (DFSVisit g fuel) us t r := by
          simp only [dfsSuccLoop]
          rw [if_neg hw]
          simp only [if_neg hnotgray]
        refine ⟨t', r', hcomp.trans heq', ht', hinv', hpres', hwcls', hwle', ?_⟩
        intro w hwm
        rcases List.mem_cons.mp hwm with rfl | hwm'
        · have h2 := hpres' w hw
          rw [h2.1]
          exact hw
        · exact hlast' w hwm'

theorem countP_congr_mem {α : Type} {l : List α} {p q : α → Bool}
    (h : ∀ a ∈ l, p a = q a) : l.countP p = l.countP q := by
  induction l with
  | nil => rfl
  | cons x xs ih =>
      rw [List.countP_cons, List.countP_cons, h x (List.mem_cons_self x xs),
        ih fun a ha => h a (List.mem_cons_of_mem x ha)]

theorem whites_congr_mem {g : Graph V} {r r' : DFSRes V}
    (h : ∀ u ∈ allVerts g, (colorOf r' u = Color.white ↔ colorOf r u = Color.white)) :
    whites g r' = whites g r :=
  countP_congr_mem fun a ha => by
    have := h a ha
    by_cases hc : colorOf r' a = Color.white
    · simp [hc, this.mp hc]
    · have : ¬ colorOf r a = Color.white := fun hx => hc (this.mpr hx)
      simp [hc, this]

/-- The visitor specification, by induction on fuel. -/
theorem visit_spec (g : Graph V) : ∀ fuel, VisitSpec g fuel := by
  intro fuel
  induction fuel with
  | zero =>
      intro v t0 r0 hw hinv hf
      rcases hf with hf | ⟨hmem, hf⟩
      · exact absurd hf (Nat.not_lt_zero _)
      · have := whites_pos hmem hw
        omega
  | succ fuel ih =>
      intro v t0 r0 hw hinv hf
      have hdv0 : detOf r0 v = 0 := (hinv.white_unstamped v hw).1
      have hfv0 : finOf r0 v = 0 := (hinv.white_unstamped v hw).2
      set rg : DFSRes V :=
        { r0 with
          color_map := setVal r0.color_map v Color.gray
          det := setVal r0.det v (t0 + 1) } with hrgdef
      have hcg : colorOf rg v = Color.gray := by
        simp [hrgdef, colorOf, lookupD_setVal_self]
      have hdg : detOf rg v = t0 + 1 := by
        simp [hrgdef, detOf, lookupD_setVal_self]
      have hfg : ∀ u, finOf rg u = finOf r0 u := fun _ => rfl
      have hcne : ∀ u, u ≠ v → colorOf rg u = colorOf r0 u := fun u hu => by
        simp [hrgdef, colorOf, lookupD_setVal_ne _ _ _ hu]
      have hdne : ∀ u, u ≠ v → detOf rg u = detOf r0 u := fun u hu => by
        simp [hrgdef, detOf, lookupD_setVal_ne _ _ _ hu]
      have hgnw : colorOf rg v ≠ Color.white := by
        rw [hcg]; exact fun h => Color.noConfusion h
      have hinv_g : DInv g (t0 + 1) rg := by
        refine ⟨hinv.sorted_false, ?_, ?_, ?_, ?_, ?_, ?_, ?_, ?_⟩
        · intro u hu
          by_cases huv : u = v
          · subst huv
            rw [hcg] at hu
            exact absurd hu (fun h => Color.noConfusion h)
          · rw [hcne u huv] at hu
            have h0 := hinv.white_unstamped u hu
            rw [hdne u huv, hfg u]
            exact h0
        · intro u hu
          by_cases huv : u = v
          · subst huv
            rw [hdg, hfg u, hfv0]
            omega
          · rw [hcne u huv] at hu
            have h0 := hinv.gray_open u hu
            rw [hdne u huv, hfg u]
            exact ⟨h0.1, by omega, h0.2.2⟩
        · intro u hu
          by_cases huv : u = v
          · subst huv
            rw [hcg] at hu
            exact absurd hu (fun h => Color.noConfusion h)
          · rw [hcne u huv] at hu
            have h0 := hinv.black_closed u hu
            rw [hdne u huv, hfg u]
            exact ⟨h0.1, h0.2.1, by omega⟩
        · intro u w hu hw' hne
          have huv : u ≠ v := fun h => by
            rw [h, hcg] at hu; exact Color.noConfusion hu
          have hwv : w ≠ v := fun h => by
            rw [h, hcg] at hw'; exact Color.noConfusion hw'
          rw [hcne u huv] at hu
          rw [hcne w hwv] at hw'
          have h0 := hinv.black_paren u w hu hw' hne
          unfold IntervalsND at *
          rw [hdne u huv, hdne w hwv, hfg u, hfg w]
          exact h0
        · intro u w hu hw'
          have huv : u ≠ v := fun h => by
            rw [h, hcg] at hu; exact Color.noConfusion hu
          rw [hcne u huv] at hu
          by_cases hwv : w = v
          · subst hwv
            rw [hdg, hdne u huv, hfg u]
            have h0 := hinv.black_closed u hu
            omega
          · rw [hcne w hwv] at hw'
            have h0 := hinv.black_gray u w hu hw'
            rw [hdne u huv, hdne w hwv, hfg u]
            exact h0
        · intro u hu w hwsucc
          have huv : u ≠ v := fun h => by
            rw [h, hcg] at hu; exact Color.noConfusion hu
          rw [hcne u huv] at hu
          by_cases hwv : w = v
          · subst hwv
            rw [hcg]
            exact fun h => Color.noConfusion h
          · rw [hcne w hwv]
            exact hinv.black_no_white_succ u hu w hwsucc
        · intro u
          have hseq : rg.seq = r0.seq := rfl
          rw [hseq, hinv.seq_mem u]
          by_cases huv : u = v
          · subst huv
            rw [hcg]
            constructor
            · intro h; rw [hw] at h; exact absurd h (fun h => Color.noConfusion h)
            · intro h; exact absurd h (fun h => Color.noConfusion h)
          · rw [hcne u huv]
        · exact hinv.seq_sorted
      have hwle_g : whites g rg ≤ fuel := by
        have hmono : ∀ u, colorOf r0 u ≠ Color.white → colorOf rg u ≠ Color.white := by
          intro u hu
          by_cases huv : u = v
          · subst huv; exact hgnw
          · rw [hcne u huv]; exact hu
        by_cases hm : v ∈ allVerts g
        · have hlt : whites g rg < whites g r0 := whites_lt hmono hm hw hgnw
          rcases hf with hf | ⟨_, hf⟩ <;> omega
        · have heqw : whites g rg = whites g r0 := by
            refine whites_congr_mem fun u hu => ?_
            have huv : u ≠ v := fun h => hm (h ▸ hu)
            rw [hcne u huv]
          rcases hf with hf | ⟨hmem, _⟩
          · omega
          · exact absurd hmem hm
      obtain ⟨t1, r', heq, ht', hinv', hpres', hwcls', hwle', hlast'⟩ :=
        loop_spec_of_visit g fuel ih (g.succs v) (t0 + 1) rg
          (fun u hu => mem_allVerts_of_succ hu) hinv_g hwle_g
      have hvp := hpres' v hgnw
      have hcv' : colorOf r' v = Color.gray := hvp.1.trans hcg
      have hdv' : detOf r' v = t0 + 1 := hvp.2.1.trans hdg
      set rf : DFSRes V :=
        { r' with
          color_map := setVal r'.color_map v Color.black
          fin := setVal r'.fin v (t1 + 1)
          seq := r'.seq ++ [v] } with hrfdef
      have hcf : colorOf rf v = Color.black := by
        simp [hrfdef, colorOf, lookupD_setVal_self]
      have hff : finOf rf v = t1 + 1 := by
        simp [hrfdef, finOf, lookupD_setVal_self]
      have hdf : ∀ u, detOf rf u = detOf r' u := fun _ => rfl
      have hcne2 : ∀ u, u ≠ v → colorOf rf u = colorOf r' u := fun u hu => by
        simp [hrfdef, colorOf, lookupD_setVal_ne _ _ _ hu]
      have hfne2 : ∀ u, u ≠ v → finOf rf u = finOf r' u := fun u hu => by
        simp [hrfdef, finOf, lookupD_setVal_ne _ _ _ hu]
      have hcomp : DFSVisit g (fuel + 1) v t0 r0 = DRes.ok (t1 + 1) rf := by
        show (match dfsSuccLoop (DFSVisit g fuel) (g.succs v) (t0 + 1) rg with
          | DRes.ok t r =>
              DRes.ok (t + 1)
                { r with
                  color_map := setVal r.color_map v Color.black
                  fin := setVal r.fin v (t + 1)
                  seq := r.seq ++ [v] }
          | DRes.cyc => DRes.cyc
          | DRes.out => DRes.out) = DRes.ok (t1 + 1) rf
        rw [heq]
      refine ⟨t1 + 1, rf, hcomp, by omega, ?_, hcf, (hdf v).trans hdv', hff,
        ?_, ?_, ?_, ?_⟩
      · -- the invariant at the end of the visit
        refine ⟨hinv'.sorted_false, ?_, ?_, ?_, ?_, ?_, ?_, ?_, ?_⟩
        · intro u hu
          have huv : u ≠ v := fun h => by
            rw [h, hcf] at hu; exact Color.noConfusion hu
          rw [hcne2 u huv] at hu
          have h0 := hinv'.white_unstamped u hu
          rw [hdf u, hfne2 u huv]
          exact h0
        · intro u hu
          have huv : u ≠ v := fun h => by
            rw [h, hcf] at hu; exact Color.noConfusion hu
          rw [hcne2 u huv] at hu
          have h0 := hinv'.gray_open u hu
          rw [hdf u, hfne2 u huv]
          exact ⟨h0.1, by omega, h0.2.2⟩
        · intro u hu
          by_cases huv : u = v
          · subst huv
            rw [hdf u, hdv', hff]
            omega
          · rw [hcne2 u huv] at hu
            have h0 := hinv'.black_closed u hu
            rw [hdf u, hfne2 u huv]
            exact ⟨h0.1, h0.2.1, by omega⟩
        · intro u w hu hw' hne
          unfold IntervalsND
          by_cases huv : u = v
          · subst huv
            have hwv : w ≠ u := fun h => hne h.symm
            rw [hcne2 w hwv] at hw'
            rw [hdf u, hdf w, hff, hfne2 w hwv, hdv']
            -- provenance of w
            cases hcw : colorOf rg w with
            | white =>
                rcases hwcls' w hcw with ⟨hc2, _, _⟩ | ⟨_, hd2, hd3, hf3⟩
                · rw [hc2] at hw'; exact absurd hw' (fun h => Color.noConfusion h)
                · -- nested inside v
                  exact Or.inr (Or.inr (Or.inr ⟨by omega, by omega⟩))
            | gray =>
                have := (hpres' w (by rw [hcw]; exact fun h => Color.noConfusion h)).1
                rw [this, hcw] at hw'
                exact absurd hw' (fun h => Color.noConfusion h)
            | black =>
                -- already black before the visit: entirely earlier
                have hpw := hpres' w (by rw [hcw]; exact fun h => Color.noConfusion h)
                have hwv2 : colorOf r0 w = Color.black := by rw [← hcne w hwv]; exact hcw
                have h0 := hinv.black_closed w hwv2
                have : finOf r' w = finOf r0 w := by
                  rw [hpw.2.2, hfg w]
                rw [this]
                -- fin w ≤ t0 < t0+1 = det v
                exact Or.inr (Or.inl (by omega))
          · by_cases hwv : w = v
            · subst hwv
              rw [hcne2 u huv] at hu
              rw [hdf u, hdf w, hff, hfne2 u huv, hdv']
              cases hcu : colorOf rg u with
              | white =>
                  rcases hwcls' u hcu with ⟨hc2, _, _⟩ | ⟨_, hd2, hd3, hf3⟩
                  · rw [hc2] at hu; exact absurd hu (fun h => Color.noConfusion h)
                  · exact Or.inr (Or.inr (Or.inl ⟨by omega, by omega⟩))
              | gray =>
                  have := (hpres' u (by rw [hcu]; exact fun h => Color.noConfusion h)).1
                  rw [this, hcu] at hu
                  exact absurd hu (fun h => Color.noConfusion h)
              | black =>
                  have hpu := hpres' u (by rw [hcu]; exact fun h => Color.noConfusion h)
                  have hu2 : colorOf r0 u = Color.black := by rw [← hcne u huv]; exact hcu
                  have h0 := hinv.black_closed u hu2
                  have : finOf r' u = finOf r0 u := by rw [hpu.2.2, hfg u]
                  rw [this]
                  exact Or.inl (by omega)
            · rw [hcne2 u huv] at hu
              rw [hcne2 w hwv] at hw'
              have h0 := hinv'.black_paren u w hu hw' hne
              unfold IntervalsND at h0
              rw [hdf u, hdf w, hfne2 u huv, hfne2 w hwv]
              exact h0
        · intro u w hu hw'
          have hwv : w ≠ v := fun h => by
            rw [h, hcf] at hw'; exact Color.noConfusion hw'
          rw [hcne2 w hwv] at hw'
          by_cases huv : u = v
          · subst huv
            rw [hdf u, hdf w, hdv']
            -- w gray in r' means gray already before the loop
            cases hcw : colorOf rg w with
            | white =>
                rcases hwcls' w hcw with ⟨hc2, _, _⟩ | ⟨hc2, _, _, _⟩ <;>
                  rw [hc2] at hw' <;> exact absurd hw' (fun h => Color.noConfusion h)
            | gray =>
                have hw0 : colorOf r0 w = Color.gray := by rw [← hcne w hwv]; exact hcw
                have h0 := hinv.gray_open w hw0
                have : detOf r' w = detOf r0 w := by
                  rw [(hpres' w (by rw [hcw]; exact fun h => Color.noConfusion h)).2.1,
                    hdne w hwv]
                rw [this]
                exact Or.inl (by omega)
            | black =>
                have := (hpres' w (by rw [hcw]; exact fun h => Color.noConfusion h)).1
                rw [this, hcw] at hw'
                exact absurd hw' (fun h => Color.noConfusion h)
          · rw [hcne2 u huv] at hu
            have h0 := hinv'.black_gray u w hu hw'
            rw [hdf u, hdf w, hfne2 u huv]
            exact h0
        · intro u hu w hwsucc
          by_cases hwv : w = v
          · subst hwv
            rw [hcf]
            exact fun h => Color.noConfusion h
          · rw [hcne2 w hwv]
            by_cases huv : u = v
            · subst huv
              exact hlast' w hwsucc
            · rw [hcne2 u huv] at hu
              exact hinv'.black_no_white_succ u hu w hwsucc
        · intro u
          have hseq : rf.seq = r'.seq ++ [v] := rfl
          rw [hseq, List.mem_append, List.mem_singleton, hinv'.seq_mem u]
          by_cases huv : u = v
          · subst huv
            rw [hcf, hcv']
            simp
          · rw [hcne2 u huv]
            simp [huv]
        · have hseq : rf.seq = r'.seq ++ [v] := rfl
          rw [hseq]
          rw [List.pairwise_append]
          refine ⟨?_, List.pairwise_singleton _ _, ?_⟩
          · refine hinv'.seq_sorted.imp_of_mem ?_
            intro a b ha hb hab
            have hav : a ≠ v := fun h => by
              have := (hinv'.seq_mem a).mp ha
              rw [h, hcv'] at this
              exact Color.noConfusion this
            have hbv : b ≠ v := fun h => by
              have := (hinv'.seq_mem b).mp hb
              rw [h, hcv'] at this
              exact Color.noConfusion this
            rw [hfne2 a hav, hfne2 b hbv]
            exact hab
          · intro a ha b hb
            rw [List.mem_singleton] at hb
            subst hb
            have hab : colorOf r' a = Color.black := (hinv'.seq_mem a).mp ha
            have hav : a ≠ b := fun h => by
              rw [h, hcv'] at hab; exact Color.noConfusion hab
            have h0 := hinv'.black_closed a hab
            rw [hfne2 a hav, hff]
            omega
      · -- preservation of non-white states
        intro u hu
        have huv : u ≠ v := fun h => (h ▸ hu) hw
        have h1 : colorOf rg u = colorOf r0 u := hcne u huv
        have h2 := hpres' u (by rw [h1]; exact hu)
        refine ⟨?_, ?_, ?_⟩
        · rw [hcne2 u huv, h2.1, h1]
        · rw [hdf u, h2.2.1, hdne u huv]
        · rw [hfne2 u huv, h2.2.2, hfg u]
      · -- classification of formerly-white vertices
        intro u hu huv
        have h1 : colorOf rg u = Color.white := by rw [hcne u huv]; exact hu
        rcases hwcls' u h1 with ⟨hc2, hd2, hf2⟩ | ⟨hc2, hd2, hf2, hf3⟩
        · exact Or.inl ⟨by rw [hcne2 u huv]; exact hc2, by rw [hdf u]; exact hd2,
            by rw [hfne2 u huv]; exact hf2⟩
        · exact Or.inr ⟨by rw [hcne2 u huv]; exact hc2, by rw [hdf u]; omega,
            by rw [hdf u, hfne2 u huv]; exact hf2, by rw [hfne2 u huv]; omega⟩
      · -- whites never increase
        have he1 : whites g rf = whites g r' := by
          refine whites_congr fun u => ?_
          by_cases huv : u = v
          · subst huv
            rw [hcf, hcv']
            constructor <;> intro h <;> exact absurd h (fun h => Color.noConfusion h)
          · rw [hcne2 u huv]
        have he2 : whites g rg ≤ whites g r0 := by
          refine whites_le fun u hu => ?_
          by_cases huv : u = v
          · subst huv; exact hgnw
          · rw [hcne u huv]; exact hu
        omega
      · -- strict decrease when the vertex is touchable
        intro hm
        have he1 : whites g rf = whites g r' := by
          refine whites_congr fun u => ?_
          by_cases huv : u = v
          · subst huv
            rw [hcf, hcv']
            constructor <;> intro h <;> exact absurd h (fun h => Color.noConfusion h)
          · rw [hcne2 u huv]
        have hmono : ∀ u, colorOf r0 u ≠ Color.white → colorOf rg u ≠ Color.white := by
          intro u hu
          by_cases huv : u = v
          · subst huv; exact hgnw
          · rw [hcne u huv]; exact hu
        have hlt : whites g rg < whites g r0 := whites_lt hmono hm hw hgnw
        omega

/-- The `dfs` initialisation loop leaves every vertex white and
unstamped, the sequence empty and the flag untouched. -/
theorem initFold_spec (b : Bool) (vs : List V) : ∀ r : DFSRes V,
    (∀ u, colorOf r u = Color.white ∧ detOf r u = 0 ∧ finOf r u = 0) →
    r.seq = [] → r.sorted = b →
    (∀ u, colorOf (vs.foldl
        (fun r v =>
          { r with
            color_map := setVal r.color_map v Color.white
            det := setVal r.det v 0
            fin := setVal r.fin v 0 }) r) u = Color.white ∧
      detOf (vs.foldl
        (fun r v =>
          { r with
            color_map := setVal r.color_map v Color.white
            det := setVal r.det v 0
            fin := setVal r.fin v 0 }) r) u = 0 ∧
      finOf (vs.foldl
        (fun r v =>
          { r with
            color_map := setVal r.color_map v Color.white
            det := setVal r.det v 0
            fin := setVal r.fin v 0 }) r) u = 0) ∧
    (vs.foldl
        (fun r v =>
          { r with
            color_map := setVal r.color_map v Color.white
            det := setVal r.det v 0
            fin := setVal r.fin v 0 }) r).seq = [] ∧
    (vs.foldl
        (fun r v =>
          { r with
            color_map := setVal r.color_map v Color.white
            det := setVal r.det v 0
            fin := setVal r.fin v 0 }) r).sorted = b := by
  induction vs with
  | nil => exact fun r h hs hb => ⟨h, hs, hb⟩
  | cons v vs ih =>
      intro r h hs hb
      simp only [List.foldl_cons]
      refine ih _ ?_ hs hb
      intro u
      by_cases huv : u = v
      · subst huv
        refine ⟨?_, ?_, ?_⟩ <;> simp [colorOf, detOf, finOf, lookupD_setVal_self]
      · have h0 := h u
        refine ⟨?_, ?_, ?_⟩ <;>
          simp only [colorOf, detOf, finOf, lookupD_setVal_ne _ _ _ huv] <;>
          exact (by tauto)

theorem dfsInit_DInv (g : Graph V) : DInv g 0 (dfsInitRes g false) := by
  have h0 : ∀ u, colorOf (⟨false, [], [], [], []⟩ : DFSRes V) u = Color.white ∧
      detOf (⟨false, [], [], [], []⟩ : DFSRes V) u = 0 ∧
      finOf (⟨false, [], [], [], []⟩ : DFSRes V) u = 0 := by
    intro u
    refine ⟨rfl, rfl, rfl⟩
  obtain ⟨hall, hseq, hsorted⟩ :=
    initFold_spec false g.vertices ⟨false, [], [], [], []⟩ h0 rfl rfl
  unfold dfsInitRes
  refine ⟨hsorted, ?_, ?_, ?_, ?_, ?_, ?_, ?_, ?_⟩
  · exact fun u _ => ⟨(hall u).2.1, (hall u).2.2⟩
  · intro u hu
    rw [(hall u).1] at hu
    exact absurd hu (fun h => Color.noConfusion h)
  · intro u hu
    rw [(hall u).1] at hu
    exact absurd hu (fun h => Color.noConfusion h)
  · intro u w hu _ _
    rw [(hall u).1] at hu
    exact absurd hu (fun h => Color.noConfusion h)
  · intro u w hu _
    rw [(hall u).1] at hu
    exact absurd hu (fun h => Color.noConfusion h)
  · intro u hu
    rw [(hall u).1] at hu
    exact absurd hu (fun h => Color.noConfusion h)
  · intro u
    rw [hseq]
    simp only [List.not_mem_nil, false_iff]
    rw [(hall u).1]
    exact fun h => Color.noConfusion h
  · rw [hseq]
    exact List.Pairwise.nil

/-- The main loop completes, restores the invariant and never turns a
vertex white. -/
theorem dfsMain_spec (g : Graph V) (vs : List V) : ∀ t r, DInv g t r →
    ∃ t' r', dfsMain g vs t r = DRes.ok t' r' ∧ DInv g t' r' ∧
      (∀ u, colorOf r u ≠ Color.white → colorOf r' u = colorOf r u) ∧
      (∀ u, colorOf r u = Color.white →
        colorOf r' u = Color.white ∨ colorOf r' u = Color.black) := by
  induction vs with
  | nil =>
      intro t r h
      exact ⟨t, r, rfl, h, fun u _ => rfl, fun u hu => Or.inl hu⟩
  | cons v vs ih =>
      intro t r h
      by_cases hw : colorOf r v = Color.white
      · have hf : whites g r < dfsFuel g ∨ (v ∈ allVerts g ∧ whites g r = dfsFuel g) := by
          refine Or.inl (lt_of_le_of_lt (whites_le_length g r) ?_)
          unfold dfsFuel
          omega
        obtain ⟨t1, r1, heq, _, hinv1, hcb, _, _, hpres, hwcls, _, _⟩ :=
          visit_spec g (dfsFuel g) v t r hw h hf
        obtain ⟨t', r', heq', hinv', hpres', hwcls'⟩ := ih t1 r1 hinv1
        refine ⟨t', r', ?_, hinv', ?_, ?_⟩
        · simp only [dfsMain]
          rw [if_pos hw, heq]
          exact heq'
        · intro u hu
          have h1 := hpres u hu
          have h2 := hpres' u (by rw [h1.1]; exact hu)
          rw [h2, h1.1]
        · intro u hu
          by_cases huv : u = v
          · subst huv
            right
            rw [hpres' u (by rw [hcb]; exact fun h => Color.noConfusion h), hcb]
          · rcases hwcls u hu huv with ⟨hc1, _, _⟩ | ⟨hc1, _, _, _⟩
            · exact hwcls' u hc1
            · right
              rw [hpres' u (by rw [hc1]; exact fun h => Color.noConfusion h), hc1]
      · obtain ⟨t', r', heq', hinv', hpres', hwcls'⟩ := ih t r h
        refine ⟨t', r', ?_, hinv', hpres', hwcls'⟩
        simp only [dfsMain]
        rw [if_neg hw]
        exact heq'

/-- C9.  After a completed run of either `dfs` overload with the
cycle-detection flag unset (`dfs(g, res)` is `dfsFrom` driven by the key
order, so both entry points are covered), the discovery/finish intervals
of any two distinct stamped vertices are nested or disjoint, never
partially overlapping. -/
theorem dfs_stamp_intervals_nested_or_disjoint (g : Graph V) (vs : List V)
    (t : ℕ) (r : DFSRes V)
    (h : dfs g false = DRes.ok t r ∨ dfsFrom g vs false = DRes.ok t r) :
    ∀ u w, u ≠ w → Stamped r u → Stamped r w → IntervalsND r u w := by
  have hmain : ∀ vs' : List V, dfsMain g vs' 0 (dfsInitRes g false) = DRes.ok t r →
      ∀ u w, u ≠ w → Stamped r u → Stamped r w → IntervalsND r u w := by
    intro vs' heq u w hne hsu hsw
    obtain ⟨t', r', heq', hinv', _, _⟩ :=
      dfsMain_spec g vs' 0 (dfsInitRes g false) (dfsInit_DInv g)
    rw [heq] at heq'
    injection heq' with h1 h2
    subst h1
    subst h2
    have hblack : ∀ x, Stamped r x → colorOf r x = Color.black := by
      intro x hx
      cases hcx : colorOf r x with
      | white => exact absurd (hinv'.white_unstamped x hcx).1 hx.1
      | gray => exact absurd (hinv'.gray_open x hcx).2.2 hx.2
      | black => rfl
    exact hinv'.black_paren u w (hblack u hsu) (hblack w hsw) hne
  rcases h with h | h
  · exact hmain g.vertices h
  · exact hmain vs h

/-- C9 witnessed on the four-vertex example graph: the completed run is
computed literally, and the parenthesis relation is checked for the
stamped pair `0, 1`. -/
theorem dfs_stamp_intervals_nested_or_disjoint_witness :
    (dfs exScc false = DRes.ok 8
        (⟨false, [(0, 1), (1, 2), (2, 3), (3, 4)],
          [(0, 8), (1, 7), (2, 6), (3, 5)],
          [(0, Color.black), (1, Color.black), (2, Color.black), (3, Color.black)],
          [3, 2, 1, 0]⟩ : DFSRes ℕ) ∨
      dfsFrom exScc [] false = DRes.ok 8
        (⟨false, [(0, 1), (1, 2), (2, 3), (3, 4)],
          [(0, 8), (1, 7), (2, 6), (3, 5)],
          [(0, Color.black), (1, Color.black), (2, Color.black), (3, Color.black)],
          [3, 2, 1, 0]⟩ : DFSRes ℕ)) ∧
    IntervalsND
      (⟨false, [(0, 1), (1, 2), (2, 3), (3, 4)],
        [(0, 8), (1, 7), (2, 6), (3, 5)],
        [(0, Color.black), (1, Color.black), (2, Color.black), (3, Color.black)],
        [3, 2, 1, 0]⟩ : DFSRes ℕ) 0 1 :=
  ⟨Or.inl rfl,
    dfs_stamp_intervals_nested_or_disjoint exScc [] 8
      (⟨false, [(0, 1), (1, 2), (2, 3), (3, 4)],
        [(0, 8), (1, 7), (2, 6), (3, 5)],
        [(0, Color.black), (1, Color.black), (2, Color.black), (3, Color.black)],
        [3, 2, 1, 0]⟩ : DFSRes ℕ) (Or.inl rfl) 0 1 (by decide) ⟨by decide, by decide⟩
      ⟨by decide, by decide⟩⟩

/-! ## BFS lemmas -/

theorem walk_snoc {g : Graph V} {s u v : V} {n : ℕ} (h : Walk g s u n)
    (he : v ∈ g.succs u) : Walk g s v (n + 1) := by
  induction h with
  | refl w => exact Walk.step he (Walk.refl v)
  | step he' _ ih => exact Walk.step he' (ih he)

theorem walk_mem {g : Graph V} (hc : g.Closed) :
    ∀ {a b : V} {n : ℕ}, Walk g a b n → a ∈ g.vertices → b ∈ g.vertices := by
  intro a b n h
  induction h with
  | refl w => exact id
  | step he _ ih => exact fun ha => ih (hc _ ha _ he)

theorem countP_pos_of_mem {α : Type} {l : List α} {p : α → Bool} {x : α}
    (hx : x ∈ l) (hp : p x = true) : 1 ≤ l.countP p := by
  obtain ⟨s, t, he⟩ := List.append_of_mem hx
  rw [he, List.countP_append, List.countP_cons]
  simp [hp]
  omega

theorem countP_sub_of_flips {α : Type} [DecidableEq α] {l pushed : List α}
    {p q : α → Bool} (hnl : l.Nodup) (hnp : pushed.Nodup)
    (hsub : ∀ v ∈ pushed, v ∈ l)
    (hflip : ∀ v ∈ pushed, p v = true ∧ q v = false)
    (hsame : ∀ a ∈ l, a ∉ pushed → q a = p a) :
    l.countP q + pushed.length = l.countP p := by
  induction l generalizing pushed with
  | nil =>
      cases pushed with
      | nil => rfl
      | cons v ps => exact absurd (hsub v (List.mem_cons_self v ps)) (by simp)
  | cons x xs ih =>
      rcases List.nodup_cons.mp hnl with ⟨hx, hxs⟩
      rw [List.countP_cons, List.countP_cons]
      by_cases hmem : x ∈ pushed
      · have hflx := hflip x hmem
        have hih := ih hxs (hnp.erase x)
          (fun v hv => by
            have hvx : v ≠ x := (List.Nodup.mem_erase_iff hnp).mp hv |>.1
            rcases List.mem_cons.mp (hsub v (List.mem_of_mem_erase hv)) with he | he
            · exact absurd he hvx
            · exact he)
          (fun v hv => hflip v (List.mem_of_mem_erase hv))
          (fun a ha hae => by
            refine hsame a (List.mem_cons_of_mem x ha) fun hap => ?_
            have hax : a ≠ x := fun he => hx (he ▸ ha)
            exact hae ((List.Nodup.mem_erase_iff hnp).mpr ⟨hax, hap⟩))
        have hlen := List.length_erase_of_mem hmem
        have hpos := List.length_pos_of_mem hmem
        rw [hflx.1, hflx.2]
        simp only [if_true, Bool.false_eq_true, if_false]
        omega
      · have hq := hsame x (List.mem_cons_self x xs) hmem
        have hih := ih hxs hnp
          (fun v hv => by
            rcases List.mem_cons.mp (hsub v hv) with he | he
            · exact absurd (he ▸ hv) hmem
            · exact he)
          hflip
          (fun a ha hap => hsame a (List.mem_cons_of_mem x ha) hap)
        rw [hq]
        cases hpx : p x <;> simp <;> omega

/-- Behaviour of the successor scan of one dequeued vertex `u`: it
appends to the queue exactly the formerly-undiscovered scanned vertices,
stamps them `dist[u] + 1` with predecessor `u`, and touches nothing
else. -/
theorem bfsScan_spec (u nil : V) : ∀ (vs : List V) (st : BFSRes V) (q : List V),
    lookupD st.dist u 0 ≠ uintINF →
    (∀ w ∈ vs, lookupD st.dist w 0 = uintINF →
      lookupD st.dist u 0 + 1 ≠ uintINF) →
    ∃ pushed : List V,
      (bfsScan u vs st q).2 = q ++ pushed ∧
      pushed.Nodup ∧
      (∀ w ∈ pushed, w ∈ vs) ∧
      (∀ w ∈ pushed, lookupD st.dist w 0 = uintINF ∧
        lookupD (bfsScan u vs st q).1.dist w 0 = lookupD st.dist u 0 + 1 ∧
        lookupD (bfsScan u vs st q).1.pred w nil = u) ∧
      (∀ w, w ∉ pushed →
        lookupD (bfsScan u vs st q).1.dist w 0 = lookupD st.dist w 0 ∧
        lookupD (bfsScan u vs st q).1.pred w nil = lookupD st.pred w nil) ∧
      (∀ w ∈ vs, lookupD st.dist w 0 = uintINF → w ∈ pushed) := by
  intro vs
  induction vs with
  | nil =>
      intro st q _ _
      exact ⟨[], by simp [bfsScan], List.nodup_nil, by simp, by simp,
        fun w _ => ⟨rfl, rfl⟩, by simp⟩
  | cons v vs ih =>
      intro st q hu hno
      by_cases hv : lookupD st.dist v 0 = uintINF
      · have huv : u ≠ v := fun he => (he ▸ hu) hv
        set st' : BFSRes V :=
          ⟨setVal st.pred v u, setVal st.dist v (lookupD st.dist u 0 + 1)⟩ with hst'
        have hdu' : lookupD st'.dist u 0 = lookupD st.dist u 0 := by
          simp [hst', lookupD_setVal_ne _ _ _ huv]
        have hdv' : lookupD st'.dist v 0 = lookupD st.dist u 0 + 1 := by
          simp [hst', lookupD_setVal_self]
        have hpv' : lookupD st'.pred v nil = u := by
          simp [hst', lookupD_setVal_self]
        have hd_ne : ∀ w, w ≠ v → lookupD st'.dist w 0 = lookupD st.dist w 0 :=
          fun w hw => by simp [hst', lookupD_setVal_ne _ _ _ hw]
        have hp_ne : ∀ w, w ≠ v → lookupD st'.pred w nil = lookupD st.pred w nil :=
          fun w hw => by simp [hst', lookupD_setVal_ne _ _ _ hw]
        have hscan : bfsScan u (v :: vs) st q = bfsScan u vs st' (q ++ [v]) := by
          unfold bfsScan
          simp only [List.foldl_cons, if_pos hv]
        have hnov : lookupD st.dist u 0 + 1 ≠ uintINF :=
          hno v (List.mem_cons_self v vs) hv
        obtain ⟨pushed, hq, hnd, hsub, hnew, hold, hcov⟩ :=
          ih st' (q ++ [v]) (by rw [hdu']; exact hu)
            (by
              intro w hw hwi
              rw [hdu']
              by_cases hwv : w = v
              · subst hwv
                rw [hdv'] at hwi
                exact absurd hwi hnov
              · rw [hd_ne w hwv] at hwi
                exact hno w (List.mem_cons_of_mem v hw) hwi)
        have hvnp : v ∉ pushed := by
          intro hvp
          have := (hnew v hvp).1
          rw [hdv'] at this
          exact hnov this
        refine ⟨v :: pushed, ?_, List.nodup_cons.mpr ⟨hvnp, hnd⟩, ?_, ?_, ?_, ?_⟩
        · rw [hscan, hq]
          simp
        · intro w hw
          rcases List.mem_cons.mp hw with rfl | hw'
          · exact List.mem_cons_self w vs
          · exact List.mem_cons_of_mem v (hsub w hw')
        · intro w hw
          rcases List.mem_cons.mp hw with rfl | hw'
          · refine ⟨hv, ?_, ?_⟩
            · rw [hscan]
              rw [(hold w hvnp).1, hdv']
            · rw [hscan]
              rw [(hold w hvnp).2, hpv']
          · have h1 := hnew w hw'
            have hwv : w ≠ v := fun he => hvnp (he ▸ hw')
            refine ⟨by rw [← hd_ne w hwv]; exact h1.1, ?_, ?_⟩
            · rw [hscan, h1.2.1, hdu']
            · rw [hscan]
              exact h1.2.2
        · intro w hw
          have hwv : w ≠ v := fun he => hw (he ▸ List.mem_cons_self v pushed)
          have hwp : w ∉ pushed := fun he => hw (List.mem_cons_of_mem v he)
          have h1 := hold w hwp
          rw [hscan]
          exact ⟨h1.1.trans (hd_ne w hwv), h1.2.trans (hp_ne w hwv)⟩
        · intro w hw hwi
          rcases List.mem_cons.mp hw with rfl | hw'
          · exact List.mem_cons_self w pushed
          · by_cases hwv : w = v
            · subst hwv
              exact List.mem_cons_self w pushed
            · refine List.mem_cons_of_mem v (hcov w hw' ?_)
              rw [hd_ne w hwv]
              exact hwi
      · have hscan : bfsScan u (v :: vs) st q = bfsScan u vs st q := by
          unfold bfsScan
          simp only [List.foldl_cons, if_neg hv]
        obtain ⟨pushed, hq, hnd, hsub, hnew, hold, hcov⟩ :=
          ih st q hu (fun w hw hwi => hno w (List.mem_cons_of_mem v hw) hwi)
        refine ⟨pushed, by rw [hscan]; exact hq, hnd,
          fun w hw => List.mem_cons_of_mem v (hsub w hw), ?_, ?_, ?_⟩
        · intro w hw
          rw [hscan]
          exact hnew w hw
        · intro w hw
          rw [hscan]
          exact hold w hw
        · intro w hw hwi
          rcases List.mem_cons.mp hw with rfl | hw'
          · exact absurd hwi hv
          · exact hcov w hw' hwi

theorem pairwise_of_all {α : Type} {l : List α} {r : α → α → Prop}
    (h : ∀ a ∈ l, ∀ b ∈ l, r a b) : l.Pairwise r := by
  induction l with
  | nil => exact List.Pairwise.nil
  | cons x xs ih =>
      exact List.Pairwise.cons
        (fun b hb => h x (List.mem_cons_self x xs) b (List.mem_cons_of_mem x hb))
        (ih fun a ha b hb =>
          h a (List.mem_cons_of_mem x ha) b (List.mem_cons_of_mem x hb))

/-- The BFS loop preserves the invariant and drains the queue; the fuel
bound `(#undiscovered) + |queue|` shrinks by exactly one per
iteration. -/
theorem bfsLoop_spec (g : Graph V) (s nil : V) (hsk : SortedKeys g.adj)
    (hc : g.Closed) (hcard : g.vertices.length < uintINF) :
    ∀ (fuel : ℕ) (q : List V) (st : BFSRes V), BInv g s nil q st →
      (g.vertices.countP fun w => decide (lookupD st.dist w 0 = uintINF)) +
          q.length < fuel →
      BInv g s nil [] (bfsLoop g fuel q st) := by
  intro fuel
  induction fuel with
  | zero => intro q st _ h; omega
  | succ fuel ih =>
      intro q st hinv hm
      cases q with
      | nil => exact hinv
      | cons u tail =>
          have hu_mem : u ∈ g.vertices := hinv.q_sub u (List.mem_cons_self u tail)
          have hu_fin := hinv.q_fin u (List.mem_cons_self u tail)
          have hvnodup : g.vertices.Nodup := sortedKeys_nodup hsk
          have hu_tail : u ∉ tail := (List.nodup_cons.mp hinv.q_nodup).1
          have htail_nd := (List.nodup_cons.mp hinv.q_nodup).2
          have head_min : ∀ a ∈ tail,
              lookupD st.dist u 0 ≤ lookupD st.dist a 0 :=
            (List.pairwise_cons.mp hinv.q_sorted).1
          have hno : ∀ w ∈ g.succs u, lookupD st.dist w 0 = uintINF →
              lookupD st.dist u 0 + 1 ≠ uintINF := by
            intro w hw hwi
            have hw_mem : w ∈ g.vertices := hc u hu_mem w hw
            have hic : 1 ≤ g.vertices.countP
                fun w => decide (lookupD st.dist w 0 = uintINF) :=
              countP_pos_of_mem hw_mem (by simp [hwi])
            have hb := hinv.bound u hu_mem hu_fin
            omega
          obtain ⟨pushed, hq2, hpnd, hpsub, hnew, hold, hcov⟩ :=
            bfsScan_spec u nil (g.succs u) st tail hu_fin hno
          have hpsubV : ∀ w ∈ pushed, w ∈ g.vertices :=
            fun w hw => hc u hu_mem w (hpsub w hw)
          have hDnew : ∀ w ∈ pushed,
              lookupD (bfsScan u (g.succs u) st tail).1.dist w 0 =
                lookupD st.dist u 0 + 1 := fun w hw => (hnew w hw).2.1
          have hDold : ∀ w, w ∉ pushed →
              lookupD (bfsScan u (g.succs u) st tail).1.dist w 0 =
                lookupD st.dist w 0 := fun w hw => (hold w hw).1
          have hPnew : ∀ w ∈ pushed,
              lookupD (bfsScan u (g.succs u) st tail).1.pred w nil = u :=
            fun w hw => (hnew w hw).2.2
          have hPold : ∀ w, w ∉ pushed →
              lookupD (bfsScan u (g.succs u) st tail).1.pred w nil =
                lookupD st.pred w nil := fun w hw => (hold w hw).2
          have hnewfin : ∀ w ∈ pushed,
              lookupD st.dist u 0 + 1 ≠ uintINF :=
            fun w hw => hno w (hpsub w hw) (hnew w hw).1
          have hs_pushed : s ∉ pushed := by
            intro hp
            have h1 := (hnew s hp).1
            rw [hinv.ds] at h1
            exact absurd h1.symm (by unfold uintINF; omega)
          have hu_pushed : u ∉ pushed := fun hp => hu_fin (hnew u hp).1
          have htail_pushed : ∀ a ∈ tail, a ∉ pushed := fun a ha hp =>
            hinv.q_fin a (List.mem_cons_of_mem u ha) (hnew a hp).1
          have hIC :
              (g.vertices.countP fun w =>
                decide (lookupD (bfsScan u (g.succs u) st tail).1.dist w 0 = uintINF)) +
                  pushed.length =
              (g.vertices.countP fun w =>
                decide (lookupD st.dist w 0 = uintINF)) := by
            refine countP_sub_of_flips hvnodup hpnd hpsubV ?_ ?_
            · intro v hv
              constructor
              · simp [(hnew v hv).1]
              · simp only [decide_eq_false_iff_not]
                rw [hDnew v hv]
                exact hnewfin v hv
            · intro a _ hap
              rw [hDold a hap]
          have hinv1 : BInv g s nil (tail ++ pushed)
              (bfsScan u (g.succs u) st tail).1 := by
            refine ⟨?_, ?_, ?_, ?_, ?_, ?_, ?_, ?_, ?_, ?_, ?_, ?_, ?_⟩
            · exact (hold s hs_pushed).1.trans hinv.ds
            · intro v hv hfin
              by_cases hp : v ∈ pushed
              · rw [hDnew v hp]
                exact walk_snoc (hinv.sound u hu_mem hu_fin) (hpsub v hp)
              · rw [hDold v hp] at hfin ⊢
                exact hinv.sound v hv hfin
            · intro v hv hvs hfin
              by_cases hp : v ∈ pushed
              · rw [hPnew v hp]
                refine ⟨hu_mem, ?_, hpsub v hp, ?_⟩
                · rw [hDold u hu_pushed]; exact hu_fin
                · rw [hDnew v hp, hDold u hu_pushed]
              · have hfin0 : lookupD st.dist v 0 ≠ uintINF := by
                  rw [← hDold v hp]; exact hfin
                have h0 := hinv.pred_tight v hv hvs hfin0
                have hpp : lookupD st.pred v nil ∉ pushed :=
                  fun hq => h0.2.1 (hnew _ hq).1
                rw [hPold v hp]
                refine ⟨h0.1, ?_, h0.2.2.1, ?_⟩
                · rw [hDold _ hpp]; exact h0.2.1
                · rw [hDold v hp, hDold _ hpp]; exact h0.2.2.2
            · intro v hv hfin
              have hp : v ∉ pushed := by
                intro hq
                rw [hDnew v hq] at hfin
                exact hnewfin v hq hfin
              rw [hPold v hp]
              exact hinv.pred_nil v hv (by rw [← hDold v hp]; exact hfin)
            · exact (hPold s hs_pushed).trans hinv.pred_s
            · intro v hv hfin
              by_cases hp : v ∈ pushed
              · rw [hDnew v hp]
                have hb := hinv.bound u hu_mem hu_fin
                have hk := List.length_pos_of_mem hp
                omega
              · rw [hDold v hp]
                have hb := hinv.bound v hv (by rw [← hDold v hp]; exact hfin)
                omega
            · intro a ha
              rcases List.mem_append.mp ha with h | h
              · exact hinv.q_sub a (List.mem_cons_of_mem u h)
              · exact hpsubV a h
            · exact List.Nodup.append htail_nd hpnd htail_pushed
            · intro a ha
              rcases List.mem_append.mp ha with h | h
              · rw [hDold a (htail_pushed a h)]
                exact hinv.q_fin a (List.mem_cons_of_mem u h)
              · rw [hDnew a h]
                exact hnewfin a h
            · rw [List.pairwise_append]
              refine ⟨?_, ?_, ?_⟩
              · refine ((List.pairwise_cons.mp hinv.q_sorted).2).imp_of_mem ?_
                intro a b ha hb hab
                rw [hDold a (htail_pushed a ha), hDold b (htail_pushed b hb)]
                exact hab
              · refine pairwise_of_all ?_
                intro a ha b hb
                rw [hDnew a ha, hDnew b hb]
              · intro a ha b hb
                rw [hDold a (htail_pushed a ha), hDnew b hb]
                exact hinv.q_close a (List.mem_cons_of_mem u ha) u
                  (List.mem_cons_self u tail)
            · intro a ha b hb
              rcases List.mem_append.mp ha with h1 | h1 <;>
                rcases List.mem_append.mp hb with h2 | h2
              · rw [hDold a (htail_pushed a h1), hDold b (htail_pushed b h2)]
                exact hinv.q_close a (List.mem_cons_of_mem u h1) b
                  (List.mem_cons_of_mem u h2)
              · rw [hDold a (htail_pushed a h1), hDnew b h2]
                have := hinv.q_close a (List.mem_cons_of_mem u h1) u
                  (List.mem_cons_self u tail)
                omega
              · rw [hDnew a h1, hDold b (htail_pushed b h2)]
                have := head_min b h2
                omega
              · rw [hDnew a h1, hDnew b h2]
                omega
            · intro v hv hfin hq w hw
              have hvp : v ∉ pushed := fun h => hq (List.mem_append_right tail h)
              have hvt : v ∉ tail := fun h => hq (List.mem_append_left pushed h)
              have hfin0 : lookupD st.dist v 0 ≠ uintINF := by
                rw [← hDold v hvp]; exact hfin
              have hw_mem : w ∈ g.vertices := hc v hv w hw
              by_cases hvu : v = u
              · subst hvu
                by_cases hwp : w ∈ pushed
                · rw [hDnew w hwp, hDold v hvp]
                  exact ⟨hnewfin w hwp, le_refl _⟩
                · rw [hDold w hwp, hDold v hvp]
                  have hwfin : lookupD st.dist w 0 ≠ uintINF :=
                    fun hwi => hwp (hcov w hw hwi)
                  refine ⟨hwfin, ?_⟩
                  by_cases hwq : w ∈ v :: tail
                  · exact hinv.q_close w hwq v (List.mem_cons_self v tail)
                  · have := hinv.done_le_q w hw_mem hwfin hwq v
                      (List.mem_cons_self v tail)
                    omega
              · have hvq : v ∉ u :: tail := by
                  intro hin
                  rcases List.mem_cons.mp hin with h | h
                  · exact hvu h
                  · exact hvt h
                have h1 := hinv.done_succ v hv hfin0 hvq w hw
                by_cases hwp : w ∈ pushed
                · exact absurd (hnew w hwp).1 h1.1
                · rw [hDold w hwp, hDold v hvp]
                  exact h1
            · intro v hv hfin hq a ha
              have hvp : v ∉ pushed := fun h => hq (List.mem_append_right tail h)
              have hvt : v ∉ tail := fun h => hq (List.mem_append_left pushed h)
              have hfin0 : lookupD st.dist v 0 ≠ uintINF := by
                rw [← hDold v hvp]; exact hfin
              by_cases hvu : v = u
              · subst hvu
                rcases List.mem_append.mp ha with h | h
                · rw [hDold v hvp, hDold a (htail_pushed a h)]
                  exact head_min a h
                · rw [hDold v hvp, hDnew a h]
                  omega
              · have hvq : v ∉ u :: tail := by
                  intro hin
                  rcases List.mem_cons.mp hin with h | h
                  · exact hvu h
                  · exact hvt h
                rcases List.mem_append.mp ha with h | h
                · rw [hDold v hvp, hDold a (htail_pushed a h)]
                  exact hinv.done_le_q v hv hfin0 hvq a (List.mem_cons_of_mem u h)
                · rw [hDold v hvp, hDnew a h]
                  have := hinv.done_le_q v hv hfin0 hvq u (List.mem_cons_self u tail)
                  omega
          show BInv g s nil []
            (bfsLoop g fuel (bfsScan u (g.succs u) st tail).2
              (bfsScan u (g.succs u) st tail).1)
          rw [hq2]
          refine ih (tail ++ pushed) (bfsScan u (g.succs u) st tail).1 hinv1 ?_
          rw [List.length_append]
          simp only [List.length_cons] at hm
          omega

theorem walk_last {g : Graph V} : ∀ (n : ℕ) {s v : V}, Walk g s v (n + 1) →
    ∃ u, Walk g s u n ∧ v ∈ g.succs u := by
  intro n
  induction n with
  | zero =>
      intro s v h
      cases h with
      | step hv w => cases w with | refl => exact ⟨s, Walk.refl s, hv⟩
  | succ k ih =>
      intro s v h
      cases h with
      | step hv w =>
          obtain ⟨u, hu1, hu2⟩ := ih w
          exact ⟨u, Walk.step hv hu1, hu2⟩

theorem bfsInit_fold (nil : V) : ∀ (l : List V) (st : BFSRes V),
    (∀ v ∈ l,
      lookupD (l.foldl (fun (st : BFSRes V) v =>
        ⟨setVal st.pred v nil, setVal st.dist v uintINF⟩) st).dist v 0 = uintINF ∧
      lookupD (l.foldl (fun (st : BFSRes V) v =>
        ⟨setVal st.pred v nil, setVal st.dist v uintINF⟩) st).pred v nil = nil) ∧
    (∀ v, v ∉ l →
      lookupD (l.foldl (fun (st : BFSRes V) v =>
        ⟨setVal st.pred v nil, setVal st.dist v uintINF⟩) st).dist v 0 =
        lookupD st.dist v 0 ∧
      lookupD (l.foldl (fun (st : BFSRes V) v =>
        ⟨setVal st.pred v nil, setVal st.dist v uintINF⟩) st).pred v nil =
        lookupD st.pred v nil) := by
  intro l
  induction l with
  | nil => exact fun st => ⟨fun v hv => absurd hv (by simp), fun v _ => ⟨rfl, rfl⟩⟩
  | cons a l ih =>
      intro st
      rw [List.foldl_cons]
      obtain ⟨ih1, ih2⟩ :=
        ih ⟨setVal st.pred a nil, setVal st.dist a uintINF⟩
      constructor
      · intro v hv
        rcases List.mem_cons.mp hv with h | h
        · subst h
          by_cases hvl : v ∈ l
          · exact ih1 v hvl
          · obtain ⟨hd, hp⟩ := ih2 v hvl
            rw [hd, hp]
            exact ⟨lookupD_setVal_self _ _ _ _, lookupD_setVal_self _ _ _ _⟩
        · exact ih1 v h
      · intro v hv
        have hva : v ≠ a := fun he => hv (he ▸ List.mem_cons_self a l)
        have hvl : v ∉ l := fun he => hv (List.mem_cons_of_mem a he)
        obtain ⟨hd, hp⟩ := ih2 v hvl
        rw [hd, hp]
        exact ⟨lookupD_setVal_ne _ _ _ hva, lookupD_setVal_ne _ _ _ hva⟩

/-- The state `bfs` hands to the queue loop (all vertices `INF`/`NIL`,
then `dist[s] = 0`, queue `[s]`) satisfies the loop invariant. -/
theorem bfs_init_BInv (g : Graph V) (s nil : V) (hsv : s ∈ g.vertices) :
    BInv g s nil [s]
      ⟨(g.vertices.foldl (fun (st : BFSRes V) v =>
          ⟨setVal st.pred v nil, setVal st.dist v uintINF⟩) ⟨[], []⟩).pred,
        setVal (g.vertices.foldl (fun (st : BFSRes V) v =>
          ⟨setVal st.pred v nil, setVal st.dist v uintINF⟩) ⟨[], []⟩).dist s 0⟩ := by
  obtain ⟨h1, _⟩ := bfsInit_fold nil g.vertices ⟨[], []⟩
  have hD : ∀ v ∈ g.vertices, v ≠ s →
      lookupD (setVal (g.vertices.foldl (fun (st : BFSRes V) v =>
        ⟨setVal st.pred v nil, setVal st.dist v uintINF⟩) ⟨[], []⟩).dist s 0) v 0 =
        uintINF := by
    intro v hv hvs
    rw [lookupD_setVal_ne _ _ _ hvs]
    exact (h1 v hv).1
  have hDs : lookupD (setVal (g.vertices.foldl (fun (st : BFSRes V) v =>
      ⟨setVal st.pred v nil, setVal st.dist v uintINF⟩) ⟨[], []⟩).dist s 0) s 0 =
        0 := lookupD_setVal_self _ _ _ _
  have hINF0 : uintINF ≠ 0 := by unfold uintINF; omega
  refine ⟨hDs, ?_, ?_, ?_, (h1 s hsv).2, ?_, ?_, ?_, ?_, ?_, ?_, ?_, ?_⟩
  · intro v hv hfin
    by_cases hvs : v = s
    · subst hvs
      rw [hDs]
      exact Walk.refl v
    · exact absurd (hD v hv hvs) hfin
  · intro v hv hvs hfin
    exact absurd (hD v hv hvs) hfin
  · intro v hv _
    exact (h1 v hv).2
  · intro v hv hfin
    by_cases hvs : v = s
    · subst hvs
      rw [hDs]
      rw [zero_add]
      exact List.countP_le_length _
    · exact absurd (hD v hv hvs) hfin
  · intro a ha
    rw [List.mem_singleton.mp ha]
    exact hsv
  · exact List.nodup_singleton s
  · intro a ha
    rw [List.mem_singleton.mp ha, hDs]
    exact fun he => hINF0 he.symm
  · exact List.pairwise_singleton _ s
  · intro a ha b hb
    rw [List.mem_singleton.mp ha, List.mem_singleton.mp hb]
    omega
  · intro v hv hfin hq
    by_cases hvs : v = s
    · exact absurd (hvs ▸ List.mem_singleton_self s) hq
    · exact absurd (hD v hv hvs) hfin
  · intro v hv hfin hq
    by_cases hvs : v = s
    · exact absurd (hvs ▸ List.mem_singleton_self s) hq
    · exact absurd (hD v hv hvs) hfin

/-- The full run of `bfs` satisfies the invariant with an empty queue. -/
theorem bfs_BInv (g : Graph V) (s nil : V) (hsk : SortedKeys g.adj)
    (hc : g.Closed) (hsv : s ∈ g.vertices) (hcard : g.vertices.length < uintINF) :
    BInv g s nil [] (bfs g s nil) := by
  have hinit := bfs_init_BInv g s nil hsv
  have hcnt : (g.vertices.countP
      fun w => decide (lookupD (setVal (g.vertices.foldl
        (fun (st : BFSRes V) v =>
          ⟨setVal st.pred v nil, setVal st.dist v uintINF⟩) ⟨[], []⟩).dist s 0)
        w 0 = uintINF)) ≤ g.vertices.length := List.countP_le_length _
  exact bfsLoop_spec g s nil hsk hc hcard (g.vertices.length + 2) [s] _ hinit
    (by simp only [List.length_singleton]; omega)

/-- With the queue drained, every vertex at walk distance `n` from `s`
has a finite recorded distance of at most `n` (completeness plus
minimality of the table). -/
theorem bfs_complete (g : Graph V) (s nil : V) {st : BFSRes V}
    (hc : g.Closed) (hsv : s ∈ g.vertices) (hinv : BInv g s nil [] st) :
    ∀ (n : ℕ) (v : V), Walk g s v n →
      lookupD st.dist v 0 ≠ uintINF ∧ lookupD st.dist v 0 ≤ n := by
  intro n
  induction n with
  | zero =>
      intro v h
      cases h with
      | refl =>
          rw [hinv.ds]
          exact ⟨fun he => by unfold uintINF at he; omega, le_refl 0⟩
  | succ k ih =>
      intro v h
      obtain ⟨u, hu1, hu2⟩ := walk_last k h
      have hum : u ∈ g.vertices := walk_mem hc hu1 hsv
      obtain ⟨hufin, hule⟩ := ih u hu1
      have := hinv.done_succ u hum hufin (List.not_mem_nil u) v hu2
      exact ⟨this.1, le_trans this.2 (by omega)⟩

/-- Following the predecessor chain from any discovered vertex reaches
`s` in exactly `dist[v]` steps. -/
theorem bfs_pred_iter (g : Graph V) (s nil : V) {st : BFSRes V}
    (hinv : BInv g s nil [] st) :
    ∀ (k : ℕ) (v : V), v ∈ g.vertices → lookupD st.dist v 0 ≠ uintINF →
      lookupD st.dist v 0 = k →
      (fun x => lookupD st.pred x nil)^[k] v = s := by
  intro k
  induction k with
  | zero =>
      intro v hv hfin hk
      by_cases hvs : v = s
      · exact hvs
      · have := (hinv.pred_tight v hv hvs hfin).2.2.2
        omega
  | succ k ih =>
      intro v hv hfin hk
      have hvs : v ≠ s := fun he => by rw [he, hinv.ds] at hk; omega
      obtain ⟨hpm, hpfin, _, hpd⟩ := hinv.pred_tight v hv hvs hfin
      rw [Function.iterate_succ_apply]
      exact ih (lookupD st.pred v nil) hpm hpfin (by omega)

/-- C6.  BFS correctness: for a well-formed (`SortedKeys`), closed graph
whose vertex count fits below `INF`, with source `s` a vertex, `bfs`
gives every vertex reachable from `s` a finite distance equal to the
minimum number of edges of any walk from `s` (witnessed by a walk of
exactly that length and a lower bound on all walks), the predecessor
chain from any reachable vertex steps along edges with distances
decreasing by one and reaches `s` after exactly `dist[v]` steps (a
shortest path back to `s`), and every unreachable vertex keeps
`dist = INF` and `pred = NIL`. -/
theorem bfs_computes_shortest_hop_distances (g : Graph V) (s nil : V)
    (hsk : SortedKeys g.adj) (hc : g.Closed) (hsv : s ∈ g.vertices)
    (hcard : g.vertices.length < uintINF) :
    (∀ v ∈ g.vertices, Reachable g s v →
      lookupD (bfs g s nil).dist v 0 ≠ uintINF ∧
      Walk g s v (lookupD (bfs g s nil).dist v 0) ∧
      (∀ n, Walk g s v n → lookupD (bfs g s nil).dist v 0 ≤ n) ∧
      (fun x => lookupD (bfs g s nil).pred x nil)^[lookupD (bfs g s nil).dist v 0]
          v = s ∧
      (v ≠ s →
        lookupD (bfs g s nil).pred v nil ∈ g.vertices ∧
        v ∈ g.succs (lookupD (bfs g s nil).pred v nil) ∧
        lookupD (bfs g s nil).dist v 0 =
          lookupD (bfs g s nil).dist (lookupD (bfs g s nil).pred v nil) 0 + 1)) ∧
    (∀ v ∈ g.vertices, ¬ Reachable g s v →
      lookupD (bfs g s nil).dist v 0 = uintINF ∧
      lookupD (bfs g s nil).pred v nil = nil) := by
  have hinv := bfs_BInv g s nil hsk hc hsv hcard
  constructor
  · intro v hv hr
    obtain ⟨n, hw⟩ := hr
    obtain ⟨hfin, _⟩ := bfs_complete g s nil hc hsv hinv n v hw
    refine ⟨hfin, hinv.sound v hv hfin, ?_, ?_, ?_⟩
    · intro m hm
      exact (bfs_complete g s nil hc hsv hinv m v hm).2
    · exact bfs_pred_iter g s nil hinv _ v hv hfin rfl
    · intro hvs
      obtain ⟨h1, h2, h3, h4⟩ := hinv.pred_tight v hv hvs hfin
      exact ⟨h1, h3, h4⟩
  · intro v hv hr
    have hfin : lookupD (bfs g s nil).dist v 0 = uintINF := by
      by_contra hne
      exact hr ⟨_, hinv.sound v hv hne⟩
    exact ⟨hfin, hinv.pred_nil v hv hfin⟩

theorem bfs_computes_shortest_hop_distances_witness :
    SortedKeys exScc.adj ∧ exScc.Closed ∧ 0 ∈ exScc.vertices ∧
      exScc.vertices.length < uintINF ∧
      ((∀ v ∈ exScc.vertices, Reachable exScc 0 v →
        lookupD (bfs exScc 0 99).dist v 0 ≠ uintINF ∧
        Walk exScc 0 v (lookupD (bfs exScc 0 99).dist v 0) ∧
        (∀ n, Walk exScc 0 v n → lookupD (bfs exScc 0 99).dist v 0 ≤ n) ∧
        (fun x => lookupD (bfs exScc 0 99).pred x 99)^[lookupD
            (bfs exScc 0 99).dist v 0] v = 0 ∧
        (v ≠ 0 →
          lookupD (bfs exScc 0 99).pred v 99 ∈ exScc.vertices ∧
          v ∈ exScc.succs (lookupD (bfs exScc 0 99).pred v 99) ∧
          lookupD (bfs exScc 0 99).dist v 0 =
            lookupD (bfs exScc 0 99).dist (lookupD (bfs exScc 0 99).pred v 99)
              0 + 1)) ∧
      (∀ v ∈ exScc.vertices, ¬ Reachable exScc 0 v →
        lookupD (bfs exScc 0 99).dist v 0 = uintINF ∧
        lookupD (bfs exScc 0 99).pred v 99 = 99)) := by
  have h1 : SortedKeys exScc.adj := by
    unfold SortedKeys exScc keysOf
    simp [List.chain'_cons]
  have h2 : exScc.Closed := by
    unfold Graph.Closed Graph.vertices Graph.succs
    decide
  have h3 : (0 : ℕ) ∈ exScc.vertices := by decide
  have h4 : exScc.vertices.length < uintINF := by decide
  exact ⟨h1, h2, h3, h4,
    bfs_computes_shortest_hop_distances exScc 0 99 h1 h2 h3 h4⟩

theorem dlt_eq_false_iff {a b : DVal} : dlt a b = false ↔ dle b a := by
  cases a <;> cases b <;> simp [dlt, dle]

theorem dle_refl (a : DVal) : dle a a := by
  cases a <;> simp [dle]

theorem dle_trans {a b c : DVal} (h1 : dle a b) (h2 : dle b c) : dle a c := by
  cases a <;> cases b <;> cases c <;> simp_all [dle] <;> linarith

theorem dle_antisymm {a b : DVal} (h1 : dle a b) (h2 : dle b a) : a = b := by
  cases a <;> cases b <;> simp_all [dle]
  linarith

theorem dle_of_dlt {a b : DVal} (h : dlt a b = true) : dle a b := by
  cases a <;> cases b <;> simp_all [dlt, dle]
  linarith

theorem dle_some {a : DVal} {c : ℚ} (h : dle a (some c)) :
    ∃ q, a = some q ∧ q ≤ c := by
  cases a with
  | none => exact absurd h (by simp [dle])
  | some q => exact ⟨q, rfl, h⟩

theorem dplus_mono {a b : DVal} (w : ℚ) (h : dle a b) :
    dle (dplus a w) (dplus b w) := by
  cases a <;> cases b <;> simp_all [dle, dplus]

theorem dplus_assoc (a : DVal) (w1 w2 : ℚ) :
    dplus (dplus a w1) w2 = dplus a (w1 + w2) := by
  cases a <;> simp [dplus]
  ring

theorem dplus_zero (a : DVal) : dplus a 0 = a := by
  cases a <;> simp [dplus]

theorem dlt_of_dlt_of_dle {a b c : DVal} (h1 : dlt a b = true) (h2 : dle b c) :
    dlt a c = true := by
  cases a <;> cases b <;> cases c <;> simp_all [dlt, dle]
  linarith

theorem endOf_append (x : V) (l1 l2 : List V) :
    endOf x (l1 ++ l2) = endOf (endOf x l1) l2 := by
  induction l1 generalizing x with
  | nil => rfl
  | cons a l1 ih => simp only [List.cons_append, endOf]; exact ih a

theorem endOf_concat (x a : V) (l : List V) : endOf x (l ++ [a]) = a := by
  rw [endOf_append]
  rfl

theorem chainOk_append (g : WGraph V) (x : V) (l1 l2 : List V) :
    chainOk g x (l1 ++ l2) =
      (chainOk g x l1 && chainOk g (endOf x l1) l2) := by
  induction l1 generalizing x with
  | nil => simp [chainOk, endOf]
  | cons a l1 ih =>
      simp only [List.cons_append, chainOk, endOf, List.append_eq, ih a,
        Bool.and_assoc]

theorem wOf_append (g : WGraph V) (x : V) (l1 l2 : List V) :
    wOf g x (l1 ++ l2) = wOf g x l1 + wOf g (endOf x l1) l2 := by
  induction l1 generalizing x with
  | nil => simp [wOf, endOf]
  | cons a l1 ih =>
      simp only [List.cons_append, wOf, endOf, List.append_eq, ih a]
      ring

theorem chain_mem {g : WGraph V} (hc : g.Closed) :
    ∀ (l : List V) (x : V), x ∈ g.vertices → chainOk g x l = true →
      ∀ z ∈ l, z ∈ g.vertices := by
  intro l
  induction l with
  | nil => intro x _ _ z hz; exact absurd hz (by simp)
  | cons a l ih =>
      intro x hx hok z hz
      simp only [chainOk, Bool.and_eq_true, decide_eq_true_eq] at hok
      have ham : a ∈ g.vertices := hc x hx a hok.1
      rcases List.mem_cons.mp hz with h | h
      · exact h ▸ ham
      · exact ih a ham hok.2 z h

theorem endOf_mem_cons : ∀ (l : List V) (a x : V), endOf x (a :: l) ∈ a :: l := by
  intro l
  induction l with
  | nil => intro a x; simp [endOf]
  | cons b l ih =>
      intro a x
      simp only [endOf]
      exact List.mem_cons_of_mem a (ih b a)

theorem endOf_mem {g : WGraph V} (hc : g.Closed) {l : List V} {x : V}
    (hx : x ∈ g.vertices) (hok : chainOk g x l = true) :
    endOf x l ∈ g.vertices := by
  cases l with
  | nil => exact hx
  | cons a l => exact chain_mem hc (a :: l) x hx hok _ (endOf_mem_cons l a x)

theorem mem_first_split {α : Type} {a : α} {l : List α} (h : a ∈ l) :
    ∃ l1 l2, l = l1 ++ a :: l2 ∧ a ∉ l1 := by
  induction l with
  | nil => exact absurd h (by simp)
  | cons x xs ih =>
      by_cases hxa : x = a
      · exact ⟨[], xs, by simp [hxa], by simp⟩
      · rcases List.mem_cons.mp h with he | he
        · exact absurd he.symm hxa
        · obtain ⟨l1, l2, hsp, hna⟩ := ih he
          refine ⟨x :: l1, l2, by rw [hsp]; rfl, ?_⟩
          simp only [List.mem_cons]
          push_neg
          exact ⟨fun he => hxa he.symm, hna⟩

theorem not_nodup_split {α : Type} :
    ∀ {l : List α}, ¬ l.Nodup →
      ∃ (l1 : List α) (a : α) (l2 l3 : List α),
        l = l1 ++ a :: l2 ++ a :: l3 := by
  intro l
  induction l with
  | nil => intro h; exact absurd List.nodup_nil h
  | cons x xs ih =>
      intro h
      rw [List.nodup_cons] at h
      push_neg at h
      by_cases hx : x ∈ xs
      · obtain ⟨m1, m2, hm⟩ := List.append_of_mem hx
        exact ⟨[], x, m1, m2, by rw [hm]; rfl⟩
      · obtain ⟨l1, a, l2, l3, hs⟩ := ih (h hx)
        exact ⟨x :: l1, a, l2, l3, by rw [hs]; rfl⟩

theorem walk_cut {g : WGraph V} (hsk : SortedKeys g.adj) (hc : g.Closed)
    {x : V} {l : List V} (hx : x ∈ g.vertices) (hok : chainOk g x l = true)
    (hlong : g.vertices.length ≤ l.length) :
    ∃ (l' : List V) (a : V) (cl : List V),
      chainOk g x l' = true ∧ endOf x l' = endOf x l ∧
      l'.length < l.length ∧
      (∃ p, chainOk g x p = true ∧ endOf x p = a) ∧
      cl ≠ [] ∧ chainOk g a cl = true ∧ endOf a cl = a ∧
      wOf g x l = wOf g x l' + wOf g a cl := by
  have hmem : ∀ z ∈ x :: l, z ∈ g.vertices := by
    intro z hz
    rcases List.mem_cons.mp hz with h | h
    · exact h ▸ hx
    · exact chain_mem hc l x hx hok z h
  have hnd : ¬ (x :: l).Nodup := by
    intro hnd
    have hsub := (List.subperm_of_subset hnd fun z hz => hmem z hz).length_le
    simp only [List.length_cons] at hsub
    omega
  obtain ⟨p1, a, p2, p3, hsplit⟩ := not_nodup_split hnd
  cases p1 with
  | nil =>
      rw [List.nil_append] at hsplit
      injection hsplit with hxa hl
      subst hxa
      have hl2 : l = (p2 ++ [x]) ++ p3 := by simp [hl]
      have hok2 : chainOk g x (p2 ++ [x]) = true ∧ chainOk g x p3 = true := by
        rw [hl2, chainOk_append, endOf_concat, Bool.and_eq_true] at hok
        exact hok
      refine ⟨p3, x, p2 ++ [x], hok2.2, ?_, ?_, ⟨[], rfl, rfl⟩, by simp,
        hok2.1, endOf_concat x x p2, ?_⟩
      · rw [hl2, endOf_append, endOf_concat]
      · rw [hl2]
        simp only [List.length_append, List.length_cons, List.length_nil]
        omega
      · rw [hl2, wOf_append, endOf_concat]
        ring
  | cons x0 q1 =>
      rw [List.cons_append] at hsplit
      injection hsplit with hxx hl
      subst hxx
      have hl2 : l = (q1 ++ [a]) ++ ((p2 ++ [a]) ++ p3) := by simp [hl]
      have hok2 : chainOk g x (q1 ++ [a]) = true ∧
          chainOk g a ((p2 ++ [a]) ++ p3) = true := by
        rw [hl2, chainOk_append, endOf_concat, Bool.and_eq_true] at hok
        exact hok
      obtain ⟨c1, hrest⟩ := hok2
      have hok3 : chainOk g a (p2 ++ [a]) = true ∧ chainOk g a p3 = true := by
        rw [chainOk_append, endOf_concat, Bool.and_eq_true] at hrest
        exact hrest
      obtain ⟨c2, c3⟩ := hok3
      have e1 : wOf g a ((p2 ++ [a]) ++ p3) =
          wOf g a (p2 ++ [a]) + wOf g a p3 := by
        rw [wOf_append, endOf_concat]
      have e2 : wOf g x ((q1 ++ [a]) ++ ((p2 ++ [a]) ++ p3)) =
          wOf g x (q1 ++ [a]) + wOf g a ((p2 ++ [a]) ++ p3) := by
        rw [wOf_append, endOf_concat]
      have e3 : wOf g x ((q1 ++ [a]) ++ p3) =
          wOf g x (q1 ++ [a]) + wOf g a p3 := by
        rw [wOf_append, endOf_concat]
      have hend1 : endOf x ((q1 ++ [a]) ++ p3) = endOf a p3 := by
        rw [endOf_append, endOf_concat]
      have hend2 : endOf x ((q1 ++ [a]) ++ ((p2 ++ [a]) ++ p3)) =
          endOf a p3 := by
        rw [endOf_append, endOf_concat, endOf_append, endOf_concat]
      refine ⟨(q1 ++ [a]) ++ p3, a, p2 ++ [a], ?_, ?_, ?_,
        ⟨q1 ++ [a], c1, endOf_concat x a q1⟩, by simp, c2,
        endOf_concat a a p2, ?_⟩
      · rw [chainOk_append, endOf_concat, c1, c3]
        rfl
      · rw [hl2, hend1, hend2]
      · rw [hl2]
        simp only [List.length_append, List.length_cons, List.length_nil]
        omega
      · rw [hl2, e2, e1, e3]
        ring

theorem walk_shorten {g : WGraph V} (hsk : SortedKeys g.adj) (hc : g.Closed)
    {x : V} (hx : x ∈ g.vertices) :
    ∀ (l : List V), chainOk g x l = true →
      ∃ l', chainOk g x l' = true ∧ endOf x l' = endOf x l ∧
        l'.length ≤ g.vertices.length - 1 := by
  suffices h : ∀ (n : ℕ) (l : List V), l.length ≤ n → chainOk g x l = true →
      ∃ l', chainOk g x l' = true ∧ endOf x l' = endOf x l ∧
        l'.length ≤ g.vertices.length - 1 by
    exact fun l hok => h l.length l (le_refl _) hok
  intro n
  induction n with
  | zero =>
      intro l hlen hok
      exact ⟨l, hok, rfl, by omega⟩
  | succ n ih =>
      intro l hlen hok
      by_cases hshort : l.length ≤ g.vertices.length - 1
      · exact ⟨l, hok, rfl, hshort⟩
      · have hpos : 0 < g.vertices.length := List.length_pos_of_mem hx
        have hlong : g.vertices.length ≤ l.length := by omega
        obtain ⟨l1, a, cl, hok1, hend1, hlt, _, _, _, _, _⟩ :=
          walk_cut hsk hc hx hok hlong
        obtain ⟨l2, h1, h2, h3⟩ := ih l1 (by omega) hok1
        exact ⟨l2, h1, h2.trans hend1, h3⟩

theorem walk_shorten_w {g : WGraph V} (hsk : SortedKeys g.adj)
    (hc : g.Closed) {s : V} (hsv : s ∈ g.vertices)
    (hnc : ¬ HasNegCycle g s) :
    ∀ (l : List V), chainOk g s l = true →
      ∃ l', chainOk g s l' = true ∧ endOf s l' = endOf s l ∧
        l'.length ≤ g.vertices.length - 1 ∧ wOf g s l' ≤ wOf g s l := by
  suffices h : ∀ (n : ℕ) (l : List V), l.length ≤ n → chainOk g s l = true →
      ∃ l', chainOk g s l' = true ∧ endOf s l' = endOf s l ∧
        l'.length ≤ g.vertices.length - 1 ∧ wOf g s l' ≤ wOf g s l by
    exact fun l hok => h l.length l (le_refl _) hok
  intro n
  induction n with
  | zero =>
      intro l hlen hok
      exact ⟨l, hok, rfl, by omega, le_refl _⟩
  | succ n ih =>
      intro l hlen hok
      by_cases hshort : l.length ≤ g.vertices.length - 1
      · exact ⟨l, hok, rfl, hshort, le_refl _⟩
      · have hpos : 0 < g.vertices.length := List.length_pos_of_mem hsv
        have hlong : g.vertices.length ≤ l.length := by omega
        obtain ⟨l1, a, cl, hok1, hend1, hlt, hreach, hne, hclok, hclend, hw⟩ :=
          walk_cut hsk hc hsv hok hlong
        have hcl_nonneg : 0 ≤ wOf g a cl := by
          by_contra hneg
          push_neg at hneg
          exact hnc ⟨a, cl, hreach, hne, hclok, hclend, hneg⟩
        obtain ⟨l2, h1, h2, h3, h4⟩ := ih l1 (by omega) hok1
        refine ⟨l2, h1, h2.trans hend1, h3, ?_⟩
        rw [hw]
        linarith

theorem hilfs_dist_ne (g : WGraph V) (res : SPRes V) {v x : V} (u : V)
    (hx : x ≠ v) :
    lookupD (hilfsfunktion res v u g).dist x (some 0) =
      lookupD res.dist x (some 0) := by
  unfold hilfsfunktion
  by_cases h : dlt (dplus (lookupD res.dist u (some 0)) (g.weight u v))
      (lookupD res.dist v (some 0)) = true
  · rw [if_pos h]
    exact lookupD_setVal_ne _ _ _ hx
  · rw [if_neg h]

theorem hilfs_pred_ne (g : WGraph V) (res : SPRes V) {v x : V} (u nil : V)
    (hx : x ≠ v) :
    lookupD (hilfsfunktion res v u g).pred x nil =
      lookupD res.pred x nil := by
  unfold hilfsfunktion
  by_cases h : dlt (dplus (lookupD res.dist u (some 0)) (g.weight u v))
      (lookupD res.dist v (some 0)) = true
  · rw [if_pos h]
    exact lookupD_setVal_ne _ _ _ hx
  · rw [if_neg h]

theorem hilfs_mono (g : WGraph V) (res : SPRes V) (v u x : V) :
    dle (lookupD (hilfsfunktion res v u g).dist x (some 0))
      (lookupD res.dist x (some 0)) := by
  by_cases hx : x = v
  · subst hx
    unfold hilfsfunktion
    by_cases h : dlt (dplus (lookupD res.dist u (some 0)) (g.weight u x))
        (lookupD res.dist x (some 0)) = true
    · rw [if_pos h]
      simp only
      rw [lookupD_setVal_self]
      exact dle_of_dlt h
    · rw [if_neg h]
      exact dle_refl _
  · rw [hilfs_dist_ne g res u hx]
    exact dle_refl _

theorem hilfs_edge (g : WGraph V) (res : SPRes V) (v u : V) :
    dle (lookupD (hilfsfunktion res v u g).dist v (some 0))
      (dplus (lookupD res.dist u (some 0)) (g.weight u v)) := by
  unfold hilfsfunktion
  by_cases h : dlt (dplus (lookupD res.dist u (some 0)) (g.weight u v))
      (lookupD res.dist v (some 0)) = true
  · rw [if_pos h]
    simp only
    rw [lookupD_setVal_self]
    exact dle_refl _
  · rw [if_neg h]
    exact dlt_eq_false_iff.mp (by simpa using h)

theorem foldl_preserve {α β : Type} {P : β → Prop} {f : β → α → β} :
    ∀ (l : List α), (∀ st a, a ∈ l → P st → P (f st a)) →
      ∀ st, P st → P (l.foldl f st) := by
  intro l
  induction l with
  | nil => intro _ st h; exact h
  | cons x xs ih =>
      intro hf st h
      exact ih (fun st a ha => hf st a (List.mem_cons_of_mem x ha)) (f st x)
        (hf st x (List.mem_cons_self x xs) h)

theorem foldl_dist_mono (g : WGraph V) (u : V) :
    ∀ (m : List V) (res : SPRes V) (x : V),
      dle (lookupD ((m.foldl (fun r w => hilfsfunktion r w u g)) res).dist x
        (some 0)) (lookupD res.dist x (some 0)) := by
  intro m
  induction m with
  | nil => intro res x; exact dle_refl _
  | cons a m ih =>
      intro res x
      exact dle_trans (ih (hilfsfunktion res a u g) x) (hilfs_mono g res a u x)

theorem outer_fold_mono (g : WGraph V) :
    ∀ (l : List V) (res : SPRes V) (x : V),
      dle (lookupD ((l.foldl (fun r u =>
          (g.succs u).foldl (fun r2 w => hilfsfunktion r2 w u g) r)) res).dist
        x (some 0)) (lookupD res.dist x (some 0)) := by
  intro l
  induction l with
  | nil => intro res x; exact dle_refl _
  | cons a l ih =>
      intro res x
      exact dle_trans
        (ih ((g.succs a).foldl (fun r2 w => hilfsfunktion r2 w a g) res) x)
        (foldl_dist_mono g a (g.succs a) res x)

theorem bfRound_mono (g : WGraph V) (res : SPRes V) (x : V) :
    dle (lookupD (bfRound g res).dist x (some 0))
      (lookupD res.dist x (some 0)) := by
  unfold bfRound
  exact outer_fold_mono g g.vertices res x

theorem inner_edge (g : WGraph V) (u : V) (st : SPRes V) {v : V}
    (hv : v ∈ g.succs u) :
    dle (lookupD ((g.succs u).foldl (fun r w => hilfsfunktion r w u g)
        st).dist v (some 0))
      (dplus (lookupD st.dist u (some 0)) (g.weight u v)) := by
  obtain ⟨m1, m2, hsm⟩ := List.append_of_mem hv
  rw [hsm, List.foldl_append, List.foldl_cons]
  have h1 := foldl_dist_mono g u m1 st u
  have h2 := hilfs_edge g (m1.foldl (fun r w => hilfsfunktion r w u g) st) v u
  have h3 := foldl_dist_mono g u m2
    (hilfsfunktion (m1.foldl (fun r w => hilfsfunktion r w u g) st) v u g) v
  exact dle_trans h3 (dle_trans h2 (dplus_mono _ h1))

theorem bfRound_edge (g : WGraph V) (res : SPRes V) {u v : V}
    (hu : u ∈ g.vertices) (hv : v ∈ g.succs u) :
    dle (lookupD (bfRound g res).dist v (some 0))
      (dplus (lookupD res.dist u (some 0)) (g.weight u v)) := by
  obtain ⟨l1, l2, hsp⟩ := List.append_of_mem hu
  unfold bfRound
  rw [hsp, List.foldl_append, List.foldl_cons]
  have h1 := outer_fold_mono g l1 res u
  have h2 := inner_edge g u (l1.foldl (fun r u =>
    (g.succs u).foldl (fun r2 w => hilfsfunktion r2 w u g) r) res) hv
  have h3 := outer_fold_mono g l2
    ((g.succs u).foldl (fun r2 w => hilfsfunktion r2 w u g)
      (l1.foldl (fun r u =>
        (g.succs u).foldl (fun r2 w => hilfsfunktion r2 w u g) r) res)) v
  exact dle_trans h3 (dle_trans h2 (dplus_mono _ h1))

theorem ub_round {g : WGraph V} (hc : g.Closed) {s : V}
    (hsv : s ∈ g.vertices) {k : ℕ} {st : SPRes V} (h : UBnd g s k st) :
    UBnd g s (k + 1) (bfRound g st) := by
  intro l hok hlen
  by_cases hsh : l.length ≤ k
  · exact dle_trans (bfRound_mono g st (endOf s l)) (h l hok hsh)
  · have hlen1 : l.length = k + 1 := by omega
    have hne : l ≠ [] := by
      intro he
      rw [he] at hlen1
      simp at hlen1
    obtain ⟨l0, a, hconcat⟩ : ∃ l0 a, l = l0 ++ [a] :=
      ⟨l.dropLast, l.getLast hne, (List.dropLast_append_getLast hne).symm⟩
    subst hconcat
    have hok2 : chainOk g s l0 = true ∧
        chainOk g (endOf s l0) [a] = true := by
      rw [chainOk_append, Bool.and_eq_true] at hok
      exact hok
    have hedge : a ∈ g.succs (endOf s l0) := by
      have h2 := hok2.2
      simp [chainOk] at h2
      exact h2
    have hu_mem : endOf s l0 ∈ g.vertices := endOf_mem hc hsv hok2.1
    have hlen0 : l0.length ≤ k := by
      rw [List.length_append] at hlen1
      simp only [List.length_cons, List.length_nil] at hlen1
      omega
    have h0 := h l0 hok2.1 hlen0
    have he := bfRound_edge g st hu_mem hedge
    rw [endOf_concat, wOf_append]
    refine dle_trans he ?_
    have hm := dplus_mono (g.weight (endOf s l0) a) h0
    have hval : dplus (some (wOf g s l0)) (g.weight (endOf s l0) a) =
        some (wOf g s l0 + wOf g (endOf s l0) [a]) := by
      simp [dplus, wOf]
    rw [← hval]
    exact hm

theorem ub_rounds {g : WGraph V} (hc : g.Closed) {s : V}
    (hsv : s ∈ g.vertices) :
    ∀ (j k : ℕ) (st : SPRes V), UBnd g s k st →
      UBnd g s (k + j) (bfRounds g j st) := by
  intro j
  induction j with
  | zero => intro k st h; exact h
  | succ j ih =>
      intro k st h
      have h2 := ih (k + 1) (bfRound g st) (ub_round hc hsv h)
      rw [show k + 1 + j = k + (j + 1) by omega] at h2
      exact h2

theorem hilfs_BFInv1 {g : WGraph V} {s nil : V} {st : SPRes V} (hc : g.Closed)
    {u v : V} (hu : u ∈ g.vertices) (hv : v ∈ g.succs u)
    (h : BFInv1 g s nil st) : BFInv1 g s nil (hilfsfunktion st v u g) := by
  by_cases hrel : dlt (dplus (lookupD st.dist u (some 0)) (g.weight u v))
      (lookupD st.dist v (some 0)) = true
  · have hvV : v ∈ g.vertices := hc u hu v hv
    have hDu : ∃ cu, lookupD st.dist u (some 0) = some cu := by
      cases hDu0 : lookupD st.dist u (some 0) with
      | none => rw [hDu0] at hrel; simp [dplus, dlt] at hrel
      | some cu => exact ⟨cu, rfl⟩
    obtain ⟨cu, hcu⟩ := hDu
    unfold hilfsfunktion
    rw [if_pos hrel]
    refine ⟨?_, ?_, ?_, ?_⟩
    · simp only
      by_cases hsv2 : s = v
      · rw [hsv2, lookupD_setVal_self]
        refine dle_trans (dle_of_dlt ?_) h.ds_le
        have hds : lookupD st.dist v (some 0) = lookupD st.dist s (some 0) := by
          rw [hsv2]
        rw [hds] at hrel
        exact hrel
      · rw [lookupD_setVal_ne _ _ _ hsv2]
        exact h.ds_le
    · intro x hx c hcx
      simp only at hcx
      by_cases hxv : x = v
      · subst hxv
        rw [lookupD_setVal_self, hcu] at hcx
        simp only [dplus, Option.some.injEq] at hcx
        obtain ⟨l, hok, hend, hw⟩ := h.sound u hu cu hcu
        refine ⟨l ++ [x], ?_, endOf_concat s x l, ?_⟩
        · rw [chainOk_append, hend, Bool.and_eq_true]
          exact ⟨hok, by simp [chainOk, hv]⟩
        · rw [wOf_append, hend]
          simp only [wOf]
          rw [hw, ← hcx]
          ring
      · rw [lookupD_setVal_ne _ _ _ hxv] at hcx
        exact h.sound x hx c hcx
    · intro x hx hxs hnone
      simp only at hnone ⊢
      by_cases hxv : x = v
      · subst hxv
        rw [lookupD_setVal_self, hcu] at hnone
        simp [dplus] at hnone
      · rw [lookupD_setVal_ne _ _ _ hxv] at hnone
        rw [lookupD_setVal_ne _ _ _ hxv]
        exact h.inf_nil x hx hxs hnone
    · simp only
      by_cases hsv2 : s = v
      · left
        rw [hsv2, lookupD_setVal_self]
        refine dlt_of_dlt_of_dle ?_ h.ds_le
        have hds : lookupD st.dist v (some 0) = lookupD st.dist s (some 0) := by
          rw [hsv2]
        rw [hds] at hrel
        exact hrel
      · rcases h.ps with hl | hr
        · left
          rw [lookupD_setVal_ne _ _ _ hsv2]
          exact hl
        · right
          rw [lookupD_setVal_ne _ _ _ hsv2]
          exact hr
  · unfold hilfsfunktion
    rw [if_neg hrel]
    exact h

theorem bfRound_BFInv1 {g : WGraph V} {s nil : V} {st : SPRes V}
    (hc : g.Closed) (h : BFInv1 g s nil st) : BFInv1 g s nil (bfRound g st) := by
  unfold bfRound
  exact foldl_preserve g.vertices
    (fun st2 u hu hP => foldl_preserve (g.succs u)
      (fun st3 a ha hP2 => hilfs_BFInv1 hc hu ha hP2) st2 hP)
    st h

theorem bfRounds_BFInv1 {g : WGraph V} {s nil : V} (hc : g.Closed) :
    ∀ (k : ℕ) (st : SPRes V), BFInv1 g s nil st →
      BFInv1 g s nil (bfRounds g k st) := by
  intro k
  induction k with
  | zero => intro st h; exact h
  | succ k ih =>
      intro st h
      exact ih (bfRound g st) (bfRound_BFInv1 hc h)

theorem spInit_fold (nil : V) : ∀ (l : List V) (st : SPRes V),
    (∀ v ∈ l,
      lookupD (l.foldl (fun (st : SPRes V) v =>
        ⟨setVal st.pred v nil, setVal st.dist v none⟩) st).dist v (some 0) =
        none ∧
      lookupD (l.foldl (fun (st : SPRes V) v =>
        ⟨setVal st.pred v nil, setVal st.dist v none⟩) st).pred v nil = nil) ∧
    (∀ v, v ∉ l →
      lookupD (l.foldl (fun (st : SPRes V) v =>
        ⟨setVal st.pred v nil, setVal st.dist v none⟩) st).dist v (some 0) =
        lookupD st.dist v (some 0) ∧
      lookupD (l.foldl (fun (st : SPRes V) v =>
        ⟨setVal st.pred v nil, setVal st.dist v none⟩) st).pred v nil =
        lookupD st.pred v nil) := by
  intro l
  induction l with
  | nil => exact fun st => ⟨fun v hv => absurd hv (by simp), fun v _ => ⟨rfl, rfl⟩⟩
  | cons a l ih =>
      intro st
      rw [List.foldl_cons]
      obtain ⟨ih1, ih2⟩ := ih ⟨setVal st.pred a nil, setVal st.dist a none⟩
      constructor
      · intro v hv
        rcases List.mem_cons.mp hv with h | h
        · subst h
          by_cases hvl : v ∈ l
          · exact ih1 v hvl
          · obtain ⟨hd, hp⟩ := ih2 v hvl
            rw [hd, hp]
            exact ⟨lookupD_setVal_self _ _ _ _, lookupD_setVal_self _ _ _ _⟩
        · exact ih1 v h
      · intro v hv
        have hva : v ≠ a := fun he => hv (he ▸ List.mem_cons_self a l)
        have hvl : v ∉ l := fun he => hv (List.mem_cons_of_mem a he)
        obtain ⟨hd, hp⟩ := ih2 v hvl
        rw [hd, hp]
        exact ⟨lookupD_setVal_ne _ _ _ hva, lookupD_setVal_ne _ _ _ hva⟩

theorem predLinks_append {g : WGraph V} {st : SPRes V} {s nil : V} :
    ∀ (p1 : List V) (x : V) (p2 : List V),
      predLinks g st s nil x (p1 ++ p2) ↔
        predLinks g st s nil x p1 ∧ predLinks g st s nil (endOf x p1) p2 := by
  intro p1
  induction p1 with
  | nil =>
      intro x p2
      simp only [List.nil_append, endOf]
      exact ⟨fun h => ⟨trivial, h⟩, fun h => h.2⟩
  | cons y p1 ih =>
      intro x p2
      simp only [List.cons_append, predLinks, endOf, List.append_eq, ih y p2,
        and_assoc]

theorem predLinks_sources_ne {g : WGraph V} {st : SPRes V} {s nil : V} :
    ∀ (p : List V) (x : V), predLinks g st s nil x p →
      ∀ z ∈ p.dropLast, z ≠ s := by
  intro p
  induction p with
  | nil => intro x _ z hz; exact absurd hz (by simp)
  | cons y p2 ih =>
      intro x hl z hz
      cases p2 with
      | nil => exact absurd hz (by simp)
      | cons y2 p3 =>
          rw [List.dropLast_cons₂] at hz
          rcases List.mem_cons.mp hz with he | he
          · subst he
            exact hl.2.2.2.2.2.2.1
          · exact ih y hl.2.2.2.2.2.2 z he

theorem predLinks_transfer {g : WGraph V} {st st2 : SPRes V} {s nil v : V}
    (hpred : ∀ z, z ≠ v → lookupD st2.pred z nil = lookupD st.pred z nil)
    (hdeq : ∀ z, z ≠ v →
      lookupD st2.dist z (some 0) = lookupD st.dist z (some 0))
    (hdle : ∀ z, dle (lookupD st2.dist z (some 0))
      (lookupD st.dist z (some 0))) :
    ∀ (p : List V) (x : V), predLinks g st s nil x p → x ≠ v →
      (∀ z ∈ p.dropLast, z ≠ v) → predLinks g st2 s nil x p := by
  intro p
  induction p with
  | nil => intro x _ _ _; trivial
  | cons y p2 ih =>
      intro x hl hxv hzs
      obtain ⟨h1, h2, h3, h4, h5, h6, h7⟩ := hl
      refine ⟨h1, h2, ?_, h4, h5, ?_, ?_⟩
      · rw [hpred x hxv]; exact h3
      · rw [hdeq x hxv]
        exact dle_trans (dplus_mono _ (hdle y)) h6
      · cases p2 with
        | nil => trivial
        | cons z2 p3 =>
            have hy : y ≠ v := by
              refine hzs y ?_
              rw [List.dropLast_cons₂]
              exact List.mem_cons_self _ _
            refine ih y h7 hy ?_
            intro t ht
            refine hzs t ?_
            rw [List.dropLast_cons₂]
            exact List.mem_cons_of_mem y ht

theorem predPath_telescope {g : WGraph V} {st : SPRes V} {s nil : V} :
    ∀ (p : List V) (x : V), predLinks g st s nil x p →
      ∀ y ∈ p, ∃ w0, chainOk g y w0 = true ∧ endOf y w0 = x ∧ w0 ≠ [] ∧
        dle (dplus (lookupD st.dist y (some 0)) (wOf g y w0))
          (lookupD st.dist x (some 0)) := by
  intro p
  induction p with
  | nil => intro x _ y hy; exact absurd hy (by simp)
  | cons z p2 ih =>
      intro x hl y hy
      obtain ⟨h1, h2, h3, h4, h5, h6, h7⟩ := hl
      rcases List.mem_cons.mp hy with he | he
      · subst he
        refine ⟨[x], by simp [chainOk, h5], rfl, by simp, ?_⟩
        simpa [wOf] using h6
      · obtain ⟨w0, hok, hend, hne, hdle0⟩ := ih z h7 y he
        refine ⟨w0 ++ [x], ?_, endOf_concat y x w0, by simp, ?_⟩
        · rw [chainOk_append, hend, Bool.and_eq_true]
          exact ⟨hok, by simp [chainOk, h5]⟩
        · rw [wOf_append, hend]
          simp only [wOf, add_zero]
          rw [← dplus_assoc]
          exact dle_trans (dplus_mono _ hdle0) h6

theorem relax_chain {g : WGraph V} {s nil : V} {st : SPRes V} (hc : g.Closed)
    {u v : V} (hu : u ∈ g.vertices) (hv : v ∈ g.succs u)
    (hnc : ¬ HasNegCycle g s) (h1 : BFInv1 g s nil st)
    (hch : BFChain g s nil st)
    (hrel : dlt (dplus (lookupD st.dist u (some 0)) (g.weight u v))
      (lookupD st.dist v (some 0)) = true) :
    BFChain g s nil
      (SPRes.mk (setVal st.pred v u)
      (setVal st.dist v (dplus (lookupD st.dist u (some 0)) (g.weight u v)))) := by
  have hvV : v ∈ g.vertices := hc u hu v hv
  have hDu : ∃ cu, lookupD st.dist u (some 0) = some cu := by
    cases hDu0 : lookupD st.dist u (some 0) with
    | none => rw [hDu0] at hrel; simp [dplus, dlt] at hrel
    | some cu => exact ⟨cu, rfl⟩
  obtain ⟨cu, hcu⟩ := hDu
  have hD2v : lookupD
      (SPRes.mk (setVal st.pred v u)
      (setVal st.dist v (dplus (lookupD st.dist u (some 0)) (g.weight u v)))).dist v (some 0) =
      dplus (lookupD st.dist u (some 0)) (g.weight u v) :=
    lookupD_setVal_self _ _ _ _
  have hD2ne : ∀ z, z ≠ v → lookupD
      (SPRes.mk (setVal st.pred v u)
      (setVal st.dist v (dplus (lookupD st.dist u (some 0)) (g.weight u v)))).dist z (some 0) =
      lookupD st.dist z (some 0) := fun z hz => lookupD_setVal_ne _ _ _ hz
  have hP2v : lookupD
      (SPRes.mk (setVal st.pred v u)
      (setVal st.dist v (dplus (lookupD st.dist u (some 0)) (g.weight u v)))).pred v nil = u :=
    lookupD_setVal_self _ _ _ _
  have hP2ne : ∀ z, z ≠ v → lookupD
      (SPRes.mk (setVal st.pred v u)
      (setVal st.dist v (dplus (lookupD st.dist u (some 0)) (g.weight u v)))).pred z nil =
      lookupD st.pred z nil := fun z hz => lookupD_setVal_ne _ _ _ hz
  have hdle : ∀ z, dle (lookupD
      (SPRes.mk (setVal st.pred v u)
      (setVal st.dist v (dplus (lookupD st.dist u (some 0)) (g.weight u v)))).dist z (some 0))
      (lookupD st.dist z (some 0)) := by
    intro z
    by_cases hz : z = v
    · rw [hz, hD2v]
      exact dle_of_dlt hrel
    · rw [hD2ne z hz]
      exact dle_refl _
  intro x hx hxfin
  by_cases hvs : v = s
  · by_cases hxv : x = v
    · exact ⟨[], trivial, by simp [hxv, hvs, endOf]⟩
    · have hxfin0 : lookupD st.dist x (some 0) ≠ none := by
        rw [← hD2ne x hxv]
        exact hxfin
      obtain ⟨px, hlkx, hendx⟩ := hch x hx hxfin0
      refine ⟨px, predLinks_transfer hP2ne hD2ne hdle px x hlkx hxv ?_, hendx⟩
      intro z hz he
      exact predLinks_sources_ne px x hlkx z hz (he.trans hvs)
  · have hufin : lookupD st.dist u (some 0) ≠ none := by rw [hcu]; simp
    obtain ⟨pu, hlku, hendu⟩ := hch u hu hufin
    have hvu : v ≠ u := by
      intro he
      rw [he, hcu] at hrel
      simp only [dplus, dlt, decide_eq_true_eq] at hrel
      obtain ⟨l, hok, hend, hw⟩ := h1.sound u hu cu hcu
      refine hnc ⟨u, [u], ⟨l, hok, hend⟩, by simp, ?_, rfl, ?_⟩
      · have hself : u ∈ g.succs u := he ▸ hv
        simp [chainOk, hself]
      · simp only [wOf, add_zero]
        linarith
    have hvpu : v ∉ pu := by
      intro hmem
      obtain ⟨W, hokW, hendW, hneW, hdleW⟩ := predPath_telescope pu u hlku v hmem
      have hDv : ∃ cv, lookupD st.dist v (some 0) = some cv := by
        cases hDv0 : lookupD st.dist v (some 0) with
        | none =>
            rw [hDv0, hcu] at hdleW
            simp [dplus, dle] at hdleW
        | some cv => exact ⟨cv, rfl⟩
      obtain ⟨cv, hcv⟩ := hDv
      rw [hcv, hcu] at hdleW
      simp only [dplus, dle] at hdleW
      rw [hcu, hcv] at hrel
      simp only [dplus, dlt, decide_eq_true_eq] at hrel
      obtain ⟨l, hok, hend, hw⟩ := h1.sound v hvV cv hcv
      refine hnc ⟨v, W ++ [v], ⟨l, hok, hend⟩, by simp, ?_,
        endOf_concat v v W, ?_⟩
      · rw [chainOk_append, hendW, Bool.and_eq_true]
        exact ⟨hokW, by simp [chainOk, hv]⟩
      · rw [wOf_append, hendW]
        simp only [wOf, add_zero]
        linarith
    have hlinks_v : predLinks g
        (SPRes.mk (setVal st.pred v u)
      (setVal st.dist v (dplus (lookupD st.dist u (some 0)) (g.weight u v)))) s nil v (u :: pu) := by
      refine ⟨hvs, hvV, hP2v.symm, hu, hv, ?_, ?_⟩
      · rw [hD2ne u (fun he => hvu he.symm), hD2v]
        exact dle_refl _
      · refine predLinks_transfer hP2ne hD2ne hdle pu u hlku
          (fun he => hvu he.symm) ?_
        intro z hz he
        exact hvpu (he ▸ (List.dropLast_sublist pu).subset hz)
    by_cases hxv : x = v
    · refine ⟨u :: pu, ?_, hendu⟩
      rw [hxv]
      exact hlinks_v
    · have hxfin0 : lookupD st.dist x (some 0) ≠ none := by
        rw [← hD2ne x hxv]
        exact hxfin
      obtain ⟨px, hlkx, hendx⟩ := hch x hx hxfin0
      by_cases hvpx : v ∈ px
      · obtain ⟨q1, q2, hsplit, hvq1⟩ := mem_first_split hvpx
        have hpx2 : px = (q1 ++ [v]) ++ q2 := by simp [hsplit]
        rw [hpx2, predLinks_append] at hlkx
        obtain ⟨hpre, _⟩ := hlkx
        have hpre2 : predLinks g
            (SPRes.mk (setVal st.pred v u)
      (setVal st.dist v (dplus (lookupD st.dist u (some 0)) (g.weight u v)))) s nil x (q1 ++ [v]) := by
          refine predLinks_transfer hP2ne hD2ne hdle (q1 ++ [v]) x hpre hxv ?_
          intro z hz
          have hq1d : (q1 ++ [v]).dropLast = q1 := by simp
          rw [hq1d] at hz
          exact fun he => hvq1 (he ▸ hz)
        refine ⟨(q1 ++ [v]) ++ (u :: pu), ?_, ?_⟩
        · rw [predLinks_append]
          refine ⟨hpre2, ?_⟩
          rw [endOf_concat]
          exact hlinks_v
        · rw [endOf_append, endOf_concat]
          exact hendu
      · refine ⟨px, predLinks_transfer hP2ne hD2ne hdle px x hlkx hxv ?_, hendx⟩
        intro z hz he
        exact hvpx (he ▸ (List.dropLast_sublist px).subset hz)

theorem hilfs_chain {g : WGraph V} {s nil : V} {st : SPRes V} (hc : g.Closed)
    {u v : V} (hu : u ∈ g.vertices) (hv : v ∈ g.succs u)
    (hnc : ¬ HasNegCycle g s) (h1 : BFInv1 g s nil st)
    (hch : BFChain g s nil st) : BFChain g s nil (hilfsfunktion st v u g) := by
  by_cases hrel : dlt (dplus (lookupD st.dist u (some 0)) (g.weight u v))
      (lookupD st.dist v (some 0)) = true
  · unfold hilfsfunktion
    rw [if_pos hrel]
    exact relax_chain hc hu hv hnc h1 hch hrel
  · unfold hilfsfunktion
    rw [if_neg hrel]
    exact hch

theorem bfRound_full {g : WGraph V} {s nil : V} {st : SPRes V}
    (hc : g.Closed) (hnc : ¬ HasNegCycle g s)
    (h : BFInv1 g s nil st ∧ BFChain g s nil st) :
    BFInv1 g s nil (bfRound g st) ∧ BFChain g s nil (bfRound g st) := by
  unfold bfRound
  exact @foldl_preserve V (SPRes V)
    (fun st2 => BFInv1 g s nil st2 ∧ BFChain g s nil st2)
    (fun r u => (g.succs u).foldl (fun r2 w => hilfsfunktion r2 w u g) r)
    g.vertices
    (fun st2 u hu hP =>
      @foldl_preserve V (SPRes V)
        (fun st3 => BFInv1 g s nil st3 ∧ BFChain g s nil st3)
        (fun r2 w => hilfsfunktion r2 w u g)
        (g.succs u)
        (fun st3 a ha hP2 =>
          ⟨hilfs_BFInv1 hc hu ha hP2.1, hilfs_chain hc hu ha hnc hP2.1 hP2.2⟩)
        st2 hP)
    st h

theorem bfRounds_full {g : WGraph V} {s nil : V} (hc : g.Closed)
    (hnc : ¬ HasNegCycle g s) :
    ∀ (k : ℕ) (st : SPRes V),
      BFInv1 g s nil st ∧ BFChain g s nil st →
      BFInv1 g s nil (bfRounds g k st) ∧ BFChain g s nil (bfRounds g k st) := by
  intro k
  induction k with
  | zero => intro st h; exact h
  | succ k ih => intro st h; exact ih (bfRound g st) (bfRound_full hc hnc h)

theorem bf_init_inv (g : WGraph V) (s nil : V) (hsv : s ∈ g.vertices) :
    BFInv1 g s nil (SPRes.mk
      (g.vertices.foldl (fun (st : SPRes V) v =>
      ⟨setVal st.pred v nil, setVal st.dist v none⟩) ⟨[], []⟩).pred
      (setVal (g.vertices.foldl (fun (st : SPRes V) v =>
      ⟨setVal st.pred v nil, setVal st.dist v none⟩) ⟨[], []⟩).dist s (some 0))) ∧
    BFChain g s nil (SPRes.mk
      (g.vertices.foldl (fun (st : SPRes V) v =>
      ⟨setVal st.pred v nil, setVal st.dist v none⟩) ⟨[], []⟩).pred
      (setVal (g.vertices.foldl (fun (st : SPRes V) v =>
      ⟨setVal st.pred v nil, setVal st.dist v none⟩) ⟨[], []⟩).dist s (some 0))) ∧
    UBnd g s 0 (SPRes.mk
      (g.vertices.foldl (fun (st : SPRes V) v =>
      ⟨setVal st.pred v nil, setVal st.dist v none⟩) ⟨[], []⟩).pred
      (setVal (g.vertices.foldl (fun (st : SPRes V) v =>
      ⟨setVal st.pred v nil, setVal st.dist v none⟩) ⟨[], []⟩).dist s (some 0))) := by
  obtain ⟨h1, _⟩ := spInit_fold nil g.vertices ⟨[], []⟩
  have hDs : lookupD (SPRes.mk
      (g.vertices.foldl (fun (st : SPRes V) v =>
      ⟨setVal st.pred v nil, setVal st.dist v none⟩) ⟨[], []⟩).pred
      (setVal (g.vertices.foldl (fun (st : SPRes V) v =>
      ⟨setVal st.pred v nil, setVal st.dist v none⟩) ⟨[], []⟩).dist s (some 0))).dist s (some 0) = some 0 :=
    lookupD_setVal_self _ _ _ _
  have hDne : ∀ v ∈ g.vertices, v ≠ s →
      lookupD (SPRes.mk
      (g.vertices.foldl (fun (st : SPRes V) v =>
      ⟨setVal st.pred v nil, setVal st.dist v none⟩) ⟨[], []⟩).pred
      (setVal (g.vertices.foldl (fun (st : SPRes V) v =>
      ⟨setVal st.pred v nil, setVal st.dist v none⟩) ⟨[], []⟩).dist s (some 0))).dist v (some 0) = none := by
    intro v hv hvs
    have := (h1 v hv).1
    calc lookupD (SPRes.mk
      (g.vertices.foldl (fun (st : SPRes V) v =>
      ⟨setVal st.pred v nil, setVal st.dist v none⟩) ⟨[], []⟩).pred
      (setVal (g.vertices.foldl (fun (st : SPRes V) v =>
      ⟨setVal st.pred v nil, setVal st.dist v none⟩) ⟨[], []⟩).dist s (some 0))).dist v (some 0)
        = lookupD (g.vertices.foldl (fun (st : SPRes V) v =>
      ⟨setVal st.pred v nil, setVal st.dist v none⟩) ⟨[], []⟩).dist v (some 0) := lookupD_setVal_ne _ _ _ hvs
      _ = none := this
  have hPred : ∀ v ∈ g.vertices, lookupD (SPRes.mk
      (g.vertices.foldl (fun (st : SPRes V) v =>
      ⟨setVal st.pred v nil, setVal st.dist v none⟩) ⟨[], []⟩).pred
      (setVal (g.vertices.foldl (fun (st : SPRes V) v =>
      ⟨setVal st.pred v nil, setVal st.dist v none⟩) ⟨[], []⟩).dist s (some 0))).pred v nil = nil := by
    intro v hv
    exact (h1 v hv).2
  refine ⟨⟨?_, ?_, ?_, ?_⟩, ?_, ?_⟩
  · rw [hDs]
    exact dle_refl _
  · intro v hv c hcx
    by_cases hvs : v = s
    · subst hvs
      rw [hDs] at hcx
      refine ⟨[], rfl, rfl, ?_⟩
      have hc0 : (0 : ℚ) = c := by injection hcx
      rw [← hc0]
      rfl
    · rw [hDne v hv hvs] at hcx
      exact absurd hcx (by simp)
  · intro v hv _ _
    exact hPred v hv
  · right
    exact hPred s hsv
  · intro x hx hxfin
    by_cases hxs : x = s
    · exact ⟨[], trivial, by simp [hxs, endOf]⟩
    · exact absurd (hDne x hx hxs) hxfin
  · intro l hok hlen
    have hl0 : l = [] := List.length_eq_zero.mp (by omega)
    subst hl0
    show dle (lookupD (SPRes.mk
      (g.vertices.foldl (fun (st : SPRes V) v =>
      ⟨setVal st.pred v nil, setVal st.dist v none⟩) ⟨[], []⟩).pred
      (setVal (g.vertices.foldl (fun (st : SPRes V) v =>
      ⟨setVal st.pred v nil, setVal st.dist v none⟩) ⟨[], []⟩).dist s (some 0))).dist s (some 0)) (some (wOf g s []))
    rw [hDs]
    simp [wOf, dle]

theorem bfImprovable_false_iff {g : WGraph V} {st : SPRes V} :
    bfImprovable g st = false ↔
      ∀ u ∈ g.vertices, ∀ v ∈ g.succs u,
        dlt (dplus (lookupD st.dist u (some 0)) (g.weight u v))
          (lookupD st.dist v (some 0)) = false := by
  unfold bfImprovable
  simp only [List.any_eq_false, Bool.not_eq_true]

theorem nonimp_walk {g : WGraph V} {st : SPRes V} (hc : g.Closed)
    (hni : ∀ u ∈ g.vertices, ∀ v ∈ g.succs u,
      dlt (dplus (lookupD st.dist u (some 0)) (g.weight u v))
        (lookupD st.dist v (some 0)) = false) :
    ∀ (l : List V) (x : V), x ∈ g.vertices → chainOk g x l = true →
      dle (lookupD st.dist (endOf x l) (some 0))
        (dplus (lookupD st.dist x (some 0)) (wOf g x l)) := by
  intro l
  induction l with
  | nil =>
      intro x _ _
      simp only [endOf, wOf, dplus_zero]
      exact dle_refl _
  | cons a l ih =>
      intro x hx hok
      simp only [chainOk, Bool.and_eq_true, decide_eq_true_eq] at hok
      have haV : a ∈ g.vertices := hc x hx a hok.1
      have h1 := ih a haV hok.2
      have h2 := dlt_eq_false_iff.mp (hni x hx a hok.1)
      simp only [endOf, wOf]
      rw [← dplus_assoc]
      exact dle_trans h1 (dle_trans (dplus_mono _ h2) (dle_refl _))

theorem predPath_iterate {g : WGraph V} {st : SPRes V} {s nil : V} :
    ∀ (p : List V) (x : V), predPathOk g st s nil x p →
      (fun z => lookupD st.pred z nil)^[p.length] x = s := by
  intro p
  induction p with
  | nil => intro x h; exact h.2
  | cons y p2 ih =>
      intro x h
      obtain ⟨⟨h1, h2, h3, h4, h5, h6, h7⟩, hend⟩ := h
      rw [List.length_cons, Function.iterate_succ_apply]
      show (fun z => lookupD st.pred z nil)^[p2.length]
        (lookupD st.pred x nil) = s
      rw [← h3]
      exact ih y ⟨h7, hend⟩

/-- The full Bellman-Ford correctness statement, phrased over the
unfolded final table (the `let`-reduced body of `bellmanFord`). -/
theorem bf_core (g : WGraph V) (s nil : V) (hsk : SortedKeys g.adj)
    (hc : g.Closed) (hsv : s ∈ g.vertices) :
    ((!bfImprovable g (bfRounds g (g.vertices.length - 1)
      (SPRes.mk (g.vertices.foldl (fun (st : SPRes V) v =>
      ⟨setVal st.pred v nil, setVal st.dist v none⟩) ⟨[], []⟩).pred
      (setVal (g.vertices.foldl (fun (st : SPRes V) v =>
      ⟨setVal st.pred v nil, setVal st.dist v none⟩) ⟨[], []⟩).dist s (some 0))))) = false ↔ HasNegCycle g s) ∧
    ((!bfImprovable g (bfRounds g (g.vertices.length - 1)
      (SPRes.mk (g.vertices.foldl (fun (st : SPRes V) v =>
      ⟨setVal st.pred v nil, setVal st.dist v none⟩) ⟨[], []⟩).pred
      (setVal (g.vertices.foldl (fun (st : SPRes V) v =>
      ⟨setVal st.pred v nil, setVal st.dist v none⟩) ⟨[], []⟩).dist s (some 0))))) = true →
      (∀ v ∈ g.vertices,
        (WReach g s v →
          ∃ c, lookupD (bfRounds g (g.vertices.length - 1)
      (SPRes.mk (g.vertices.foldl (fun (st : SPRes V) v =>
      ⟨setVal st.pred v nil, setVal st.dist v none⟩) ⟨[], []⟩).pred
      (setVal (g.vertices.foldl (fun (st : SPRes V) v =>
      ⟨setVal st.pred v nil, setVal st.dist v none⟩) ⟨[], []⟩).dist s (some 0)))).dist v (some 0) = some c ∧
            (∃ l, chainOk g s l = true ∧ endOf s l = v ∧ wOf g s l = c) ∧
            (∀ l, chainOk g s l = true → endOf s l = v → c ≤ wOf g s l)) ∧
        (¬ WReach g s v →
          lookupD (bfRounds g (g.vertices.length - 1)
      (SPRes.mk (g.vertices.foldl (fun (st : SPRes V) v =>
      ⟨setVal st.pred v nil, setVal st.dist v none⟩) ⟨[], []⟩).pred
      (setVal (g.vertices.foldl (fun (st : SPRes V) v =>
      ⟨setVal st.pred v nil, setVal st.dist v none⟩) ⟨[], []⟩).dist s (some 0)))).dist v (some 0) = none ∧
          lookupD (bfRounds g (g.vertices.length - 1)
      (SPRes.mk (g.vertices.foldl (fun (st : SPRes V) v =>
      ⟨setVal st.pred v nil, setVal st.dist v none⟩) ⟨[], []⟩).pred
      (setVal (g.vertices.foldl (fun (st : SPRes V) v =>
      ⟨setVal st.pred v nil, setVal st.dist v none⟩) ⟨[], []⟩).dist s (some 0)))).pred v nil = nil)) ∧
      lookupD (bfRounds g (g.vertices.length - 1)
      (SPRes.mk (g.vertices.foldl (fun (st : SPRes V) v =>
      ⟨setVal st.pred v nil, setVal st.dist v none⟩) ⟨[], []⟩).pred
      (setVal (g.vertices.foldl (fun (st : SPRes V) v =>
      ⟨setVal st.pred v nil, setVal st.dist v none⟩) ⟨[], []⟩).dist s (some 0)))).dist s (some 0) = some 0 ∧
      lookupD (bfRounds g (g.vertices.length - 1)
      (SPRes.mk (g.vertices.foldl (fun (st : SPRes V) v =>
      ⟨setVal st.pred v nil, setVal st.dist v none⟩) ⟨[], []⟩).pred
      (setVal (g.vertices.foldl (fun (st : SPRes V) v =>
      ⟨setVal st.pred v nil, setVal st.dist v none⟩) ⟨[], []⟩).dist s (some 0)))).pred s nil = nil ∧
      (∀ v ∈ g.vertices, v ≠ s →
        lookupD (bfRounds g (g.vertices.length - 1)
      (SPRes.mk (g.vertices.foldl (fun (st : SPRes V) v =>
      ⟨setVal st.pred v nil, setVal st.dist v none⟩) ⟨[], []⟩).pred
      (setVal (g.vertices.foldl (fun (st : SPRes V) v =>
      ⟨setVal st.pred v nil, setVal st.dist v none⟩) ⟨[], []⟩).dist s (some 0)))).dist v (some 0) ≠ none →
        lookupD (bfRounds g (g.vertices.length - 1)
      (SPRes.mk (g.vertices.foldl (fun (st : SPRes V) v =>
      ⟨setVal st.pred v nil, setVal st.dist v none⟩) ⟨[], []⟩).pred
      (setVal (g.vertices.foldl (fun (st : SPRes V) v =>
      ⟨setVal st.pred v nil, setVal st.dist v none⟩) ⟨[], []⟩).dist s (some 0)))).pred v nil ∈ g.vertices ∧
        v ∈ g.succs (lookupD (bfRounds g (g.vertices.length - 1)
      (SPRes.mk (g.vertices.foldl (fun (st : SPRes V) v =>
      ⟨setVal st.pred v nil, setVal st.dist v none⟩) ⟨[], []⟩).pred
      (setVal (g.vertices.foldl (fun (st : SPRes V) v =>
      ⟨setVal st.pred v nil, setVal st.dist v none⟩) ⟨[], []⟩).dist s (some 0)))).pred v nil) ∧
        lookupD (bfRounds g (g.vertices.length - 1)
      (SPRes.mk (g.vertices.foldl (fun (st : SPRes V) v =>
      ⟨setVal st.pred v nil, setVal st.dist v none⟩) ⟨[], []⟩).pred
      (setVal (g.vertices.foldl (fun (st : SPRes V) v =>
      ⟨setVal st.pred v nil, setVal st.dist v none⟩) ⟨[], []⟩).dist s (some 0)))).dist v (some 0) =
          dplus (lookupD (bfRounds g (g.vertices.length - 1)
      (SPRes.mk (g.vertices.foldl (fun (st : SPRes V) v =>
      ⟨setVal st.pred v nil, setVal st.dist v none⟩) ⟨[], []⟩).pred
      (setVal (g.vertices.foldl (fun (st : SPRes V) v =>
      ⟨setVal st.pred v nil, setVal st.dist v none⟩) ⟨[], []⟩).dist s (some 0)))).dist (lookupD (bfRounds g (g.vertices.length - 1)
      (SPRes.mk (g.vertices.foldl (fun (st : SPRes V) v =>
      ⟨setVal st.pred v nil, setVal st.dist v none⟩) ⟨[], []⟩).pred
      (setVal (g.vertices.foldl (fun (st : SPRes V) v =>
      ⟨setVal st.pred v nil, setVal st.dist v none⟩) ⟨[], []⟩).dist s (some 0)))).pred v nil) (some 0))
            (g.weight (lookupD (bfRounds g (g.vertices.length - 1)
      (SPRes.mk (g.vertices.foldl (fun (st : SPRes V) v =>
      ⟨setVal st.pred v nil, setVal st.dist v none⟩) ⟨[], []⟩).pred
      (setVal (g.vertices.foldl (fun (st : SPRes V) v =>
      ⟨setVal st.pred v nil, setVal st.dist v none⟩) ⟨[], []⟩).dist s (some 0)))).pred v nil) v) ∧
        (∃ k, (fun x => lookupD (bfRounds g (g.vertices.length - 1)
      (SPRes.mk (g.vertices.foldl (fun (st : SPRes V) v =>
      ⟨setVal st.pred v nil, setVal st.dist v none⟩) ⟨[], []⟩).pred
      (setVal (g.vertices.foldl (fun (st : SPRes V) v =>
      ⟨setVal st.pred v nil, setVal st.dist v none⟩) ⟨[], []⟩).dist s (some 0)))).pred x nil)^[k] v = s))) := by
  obtain ⟨hI1, hCh, hUB0⟩ := bf_init_inv g s nil hsv
  have hI1F : BFInv1 g s nil (bfRounds g (g.vertices.length - 1)
      (SPRes.mk (g.vertices.foldl (fun (st : SPRes V) v =>
      ⟨setVal st.pred v nil, setVal st.dist v none⟩) ⟨[], []⟩).pred
      (setVal (g.vertices.foldl (fun (st : SPRes V) v =>
      ⟨setVal st.pred v nil, setVal st.dist v none⟩) ⟨[], []⟩).dist s (some 0)))) :=
    bfRounds_BFInv1 hc _ _ hI1
  have hUBF : UBnd g s (g.vertices.length - 1) (bfRounds g (g.vertices.length - 1)
      (SPRes.mk (g.vertices.foldl (fun (st : SPRes V) v =>
      ⟨setVal st.pred v nil, setVal st.dist v none⟩) ⟨[], []⟩).pred
      (setVal (g.vertices.foldl (fun (st : SPRes V) v =>
      ⟨setVal st.pred v nil, setVal st.dist v none⟩) ⟨[], []⟩).dist s (some 0)))) := by
    have h2 := ub_rounds hc hsv (g.vertices.length - 1) 0 (SPRes.mk (g.vertices.foldl (fun (st : SPRes V) v =>
      ⟨setVal st.pred v nil, setVal st.dist v none⟩) ⟨[], []⟩).pred
      (setVal (g.vertices.foldl (fun (st : SPRes V) v =>
      ⟨setVal st.pred v nil, setVal st.dist v none⟩) ⟨[], []⟩).dist s (some 0))) hUB0
    rw [Nat.zero_add] at h2
    exact h2
  have hA : ¬ HasNegCycle g s → bfImprovable g (bfRounds g (g.vertices.length - 1)
      (SPRes.mk (g.vertices.foldl (fun (st : SPRes V) v =>
      ⟨setVal st.pred v nil, setVal st.dist v none⟩) ⟨[], []⟩).pred
      (setVal (g.vertices.foldl (fun (st : SPRes V) v =>
      ⟨setVal st.pred v nil, setVal st.dist v none⟩) ⟨[], []⟩).dist s (some 0)))) = false := by
    intro hnc
    rw [bfImprovable_false_iff]
    intro u hu v hv
    cases hDu : lookupD (bfRounds g (g.vertices.length - 1)
      (SPRes.mk (g.vertices.foldl (fun (st : SPRes V) v =>
      ⟨setVal st.pred v nil, setVal st.dist v none⟩) ⟨[], []⟩).pred
      (setVal (g.vertices.foldl (fun (st : SPRes V) v =>
      ⟨setVal st.pred v nil, setVal st.dist v none⟩) ⟨[], []⟩).dist s (some 0)))).dist u (some 0) with
    | none => rfl
    | some cu =>
        obtain ⟨l, hok, hend, hw⟩ := hI1F.sound u hu cu hDu
        have hok2 : chainOk g s (l ++ [v]) = true := by
          rw [chainOk_append, hend, Bool.and_eq_true]
          exact ⟨hok, by simp [chainOk, hv]⟩
        obtain ⟨l2, hok3, hend3, hlen3, hw3⟩ :=
          walk_shorten_w hsk hc hsv hnc (l ++ [v]) hok2
        rw [endOf_concat] at hend3
        have hub := hUBF l2 hok3 hlen3
        rw [hend3] at hub
        rw [dlt_eq_false_iff]
        have hwv : wOf g s (l ++ [v]) = cu + g.weight u v := by
          rw [wOf_append, hend, hw]
          simp [wOf]
        rw [hwv] at hw3
        refine dle_trans hub ?_
        simp only [dplus, dle]
        exact hw3
  have hB : HasNegCycle g s → bfImprovable g (bfRounds g (g.vertices.length - 1)
      (SPRes.mk (g.vertices.foldl (fun (st : SPRes V) v =>
      ⟨setVal st.pred v nil, setVal st.dist v none⟩) ⟨[], []⟩).pred
      (setVal (g.vertices.foldl (fun (st : SPRes V) v =>
      ⟨setVal st.pred v nil, setVal st.dist v none⟩) ⟨[], []⟩).dist s (some 0)))) = true := by
    intro hnc
    cases himp : bfImprovable g (bfRounds g (g.vertices.length - 1)
      (SPRes.mk (g.vertices.foldl (fun (st : SPRes V) v =>
      ⟨setVal st.pred v nil, setVal st.dist v none⟩) ⟨[], []⟩).pred
      (setVal (g.vertices.foldl (fun (st : SPRes V) v =>
      ⟨setVal st.pred v nil, setVal st.dist v none⟩) ⟨[], []⟩).dist s (some 0)))) with
    | true => rfl
    | false =>
        exfalso
        have hni := bfImprovable_false_iff.mp himp
        obtain ⟨v0, cl, ⟨lr, hokr, hendr⟩, hne, hokc, hendc, hwneg⟩ := hnc
        have hv0 : v0 ∈ g.vertices := hendr ▸ endOf_mem hc hsv hokr
        obtain ⟨l2, hok2, hend2, hlen2⟩ := walk_shorten hsk hc hsv lr hokr
        have hub := hUBF l2 hok2 hlen2
        rw [hend2, hendr] at hub
        obtain ⟨d, hd, _⟩ := dle_some hub
        have hwalk := nonimp_walk hc hni cl v0 hv0 hokc
        rw [hendc, hd] at hwalk
        simp only [dplus, dle] at hwalk
        linarith
  have hiff : (!bfImprovable g (bfRounds g (g.vertices.length - 1)
      (SPRes.mk (g.vertices.foldl (fun (st : SPRes V) v =>
      ⟨setVal st.pred v nil, setVal st.dist v none⟩) ⟨[], []⟩).pred
      (setVal (g.vertices.foldl (fun (st : SPRes V) v =>
      ⟨setVal st.pred v nil, setVal st.dist v none⟩) ⟨[], []⟩).dist s (some 0))))) = false ↔ HasNegCycle g s := by
    constructor
    · intro h
      by_contra hnc
      rw [hA hnc] at h
      simp at h
    · intro h
      rw [hB h]
      rfl
  refine ⟨hiff, ?_⟩
  intro htrue
  have hnc : ¬ HasNegCycle g s := by
    intro h
    have h2 := hiff.mpr h
    rw [h2] at htrue
    exact Bool.noConfusion htrue
  have himp : bfImprovable g (bfRounds g (g.vertices.length - 1)
      (SPRes.mk (g.vertices.foldl (fun (st : SPRes V) v =>
      ⟨setVal st.pred v nil, setVal st.dist v none⟩) ⟨[], []⟩).pred
      (setVal (g.vertices.foldl (fun (st : SPRes V) v =>
      ⟨setVal st.pred v nil, setVal st.dist v none⟩) ⟨[], []⟩).dist s (some 0)))) = false := hA hnc
  have hni := bfImprovable_false_iff.mp himp
  have hChF : BFChain g s nil (bfRounds g (g.vertices.length - 1)
      (SPRes.mk (g.vertices.foldl (fun (st : SPRes V) v =>
      ⟨setVal st.pred v nil, setVal st.dist v none⟩) ⟨[], []⟩).pred
      (setVal (g.vertices.foldl (fun (st : SPRes V) v =>
      ⟨setVal st.pred v nil, setVal st.dist v none⟩) ⟨[], []⟩).dist s (some 0)))) :=
    (bfRounds_full hc hnc (g.vertices.length - 1) (SPRes.mk (g.vertices.foldl (fun (st : SPRes V) v =>
      ⟨setVal st.pred v nil, setVal st.dist v none⟩) ⟨[], []⟩).pred
      (setVal (g.vertices.foldl (fun (st : SPRes V) v =>
      ⟨setVal st.pred v nil, setVal st.dist v none⟩) ⟨[], []⟩).dist s (some 0))) ⟨hI1, hCh⟩).2
  have hDs0 : lookupD (bfRounds g (g.vertices.length - 1)
      (SPRes.mk (g.vertices.foldl (fun (st : SPRes V) v =>
      ⟨setVal st.pred v nil, setVal st.dist v none⟩) ⟨[], []⟩).pred
      (setVal (g.vertices.foldl (fun (st : SPRes V) v =>
      ⟨setVal st.pred v nil, setVal st.dist v none⟩) ⟨[], []⟩).dist s (some 0)))).dist s (some 0) = some 0 := by
    obtain ⟨c, hcc, hcle⟩ := dle_some hI1F.ds_le
    obtain ⟨l, hok, hend, hw⟩ := hI1F.sound s hsv c hcc
    have hge : 0 ≤ c := by
      by_contra hlt
      push_neg at hlt
      have hlne : l ≠ [] := by
        intro he
        rw [he] at hw
        simp only [wOf] at hw
        linarith
      exact hnc ⟨s, l, ⟨[], rfl, rfl⟩, hlne, hok, hend, by rw [hw]; exact hlt⟩
    rw [hcc]
    have hc0 : c = 0 := le_antisymm hcle hge
    rw [hc0]
  have hPs : lookupD (bfRounds g (g.vertices.length - 1)
      (SPRes.mk (g.vertices.foldl (fun (st : SPRes V) v =>
      ⟨setVal st.pred v nil, setVal st.dist v none⟩) ⟨[], []⟩).pred
      (setVal (g.vertices.foldl (fun (st : SPRes V) v =>
      ⟨setVal st.pred v nil, setVal st.dist v none⟩) ⟨[], []⟩).dist s (some 0)))).pred s nil = nil := by
    rcases hI1F.ps with hl | hr
    · rw [hDs0] at hl
      simp [dlt] at hl
    · exact hr
  refine ⟨?_, hDs0, hPs, ?_⟩
  · intro v hv
    constructor
    · intro hre
      obtain ⟨lr, hokr, hendr⟩ := hre
      obtain ⟨l2, hok2, hend2, hlen2, _⟩ :=
        walk_shorten_w hsk hc hsv hnc lr hokr
      have hub := hUBF l2 hok2 hlen2
      rw [hend2, hendr] at hub
      obtain ⟨c, hcc, _⟩ := dle_some hub
      refine ⟨c, hcc, hI1F.sound v hv c hcc, ?_⟩
      intro l hok hend
      obtain ⟨l3, hok3, hend3, hlen3, hw3⟩ :=
        walk_shorten_w hsk hc hsv hnc l hok
      have hub3 := hUBF l3 hok3 hlen3
      rw [hend3, hend, hcc] at hub3
      simp only [dle] at hub3
      linarith
    · intro hnr
      have hvfin : lookupD (bfRounds g (g.vertices.length - 1)
      (SPRes.mk (g.vertices.foldl (fun (st : SPRes V) v =>
      ⟨setVal st.pred v nil, setVal st.dist v none⟩) ⟨[], []⟩).pred
      (setVal (g.vertices.foldl (fun (st : SPRes V) v =>
      ⟨setVal st.pred v nil, setVal st.dist v none⟩) ⟨[], []⟩).dist s (some 0)))).dist v (some 0) = none := by
        cases hDv : lookupD (bfRounds g (g.vertices.length - 1)
      (SPRes.mk (g.vertices.foldl (fun (st : SPRes V) v =>
      ⟨setVal st.pred v nil, setVal st.dist v none⟩) ⟨[], []⟩).pred
      (setVal (g.vertices.foldl (fun (st : SPRes V) v =>
      ⟨setVal st.pred v nil, setVal st.dist v none⟩) ⟨[], []⟩).dist s (some 0)))).dist v (some 0) with
        | none => rfl
        | some c =>
            obtain ⟨l, hok, hend, _⟩ := hI1F.sound v hv c hDv
            exact absurd ⟨l, hok, hend⟩ hnr
      have hvs : v ≠ s := by
        intro he
        exact hnr ⟨[], rfl, he.symm⟩
      exact ⟨hvfin, hI1F.inf_nil v hv hvs hvfin⟩
  · intro v hv hvs hfin
    obtain ⟨p, hlk, hend⟩ := hChF v hv hfin
    cases p with
    | nil => exact absurd hend hvs
    | cons y p2 =>
        obtain ⟨h1, h2, h3, h4, h5, h6, h7⟩ := hlk
        have hni2 := dlt_eq_false_iff.mp (hni y h4 v h5)
        have heq : lookupD (bfRounds g (g.vertices.length - 1)
      (SPRes.mk (g.vertices.foldl (fun (st : SPRes V) v =>
      ⟨setVal st.pred v nil, setVal st.dist v none⟩) ⟨[], []⟩).pred
      (setVal (g.vertices.foldl (fun (st : SPRes V) v =>
      ⟨setVal st.pred v nil, setVal st.dist v none⟩) ⟨[], []⟩).dist s (some 0)))).dist v (some 0) =
            dplus (lookupD (bfRounds g (g.vertices.length - 1)
      (SPRes.mk (g.vertices.foldl (fun (st : SPRes V) v =>
      ⟨setVal st.pred v nil, setVal st.dist v none⟩) ⟨[], []⟩).pred
      (setVal (g.vertices.foldl (fun (st : SPRes V) v =>
      ⟨setVal st.pred v nil, setVal st.dist v none⟩) ⟨[], []⟩).dist s (some 0)))).dist y (some 0)) (g.weight y v) :=
          dle_antisymm hni2 h6
        rw [← h3]
        refine ⟨h4, h5, heq, ?_⟩
        exact ⟨(y :: p2).length,
          predPath_iterate (y :: p2) v ⟨⟨h1, h2, h3, h4, h5, h6, h7⟩, hend⟩⟩

/-- C5.  Bellman-Ford correctness: for a well-formed, closed weighted
graph with source `s` a vertex, `bellmanFord` returns `false` exactly
when a negative-weight cycle (equivalently, a negative nonempty closed
walk) is reachable from `s`; and when it returns `true`, the result
table holds the exact shortest-path distances (each reachable vertex
gets a finite value equal to the minimum weight over all walks from
`s`, each unreachable vertex keeps `INF` and the `NIL` predecessor),
`dist[s] = 0` with `pred[s] = NIL`, and every other discovered vertex's
predecessor is a real edge source satisfying the tight relaxation
equality whose `pred` chain reaches `s`. -/
theorem bellmanFord_detects_negative_cycles_and_computes_shortest_paths
    (g : WGraph V) (s nil : V) (hsk : SortedKeys g.adj)
    (hc : g.Closed) (hsv : s ∈ g.vertices) :
    ((bellmanFord g s nil).1 = false ↔ HasNegCycle g s) ∧
    ((bellmanFord g s nil).1 = true →
      (∀ v ∈ g.vertices,
        (WReach g s v →
          ∃ c, lookupD (bellmanFord g s nil).2.dist v (some 0) = some c ∧
            (∃ l, chainOk g s l = true ∧ endOf s l = v ∧ wOf g s l = c) ∧
            (∀ l, chainOk g s l = true → endOf s l = v → c ≤ wOf g s l)) ∧
        (¬ WReach g s v →
          lookupD (bellmanFord g s nil).2.dist v (some 0) = none ∧
          lookupD (bellmanFord g s nil).2.pred v nil = nil)) ∧
      lookupD (bellmanFord g s nil).2.dist s (some 0) = some 0 ∧
      lookupD (bellmanFord g s nil).2.pred s nil = nil ∧
      (∀ v ∈ g.vertices, v ≠ s →
        lookupD (bellmanFord g s nil).2.dist v (some 0) ≠ none →
        lookupD (bellmanFord g s nil).2.pred v nil ∈ g.vertices ∧
        v ∈ g.succs (lookupD (bellmanFord g s nil).2.pred v nil) ∧
        lookupD (bellmanFord g s nil).2.dist v (some 0) =
          dplus (lookupD (bellmanFord g s nil).2.dist
              (lookupD (bellmanFord g s nil).2.pred v nil) (some 0))
            (g.weight (lookupD (bellmanFord g s nil).2.pred v nil) v) ∧
        (∃ k, (fun x => lookupD (bellmanFord g s nil).2.pred x nil)^[k] v =
          s))) :=
  bf_core g s nil hsk hc hsv

theorem bellmanFord_detects_negative_cycles_witness :
    SortedKeys exBF.adj ∧ exBF.Closed ∧ (0 : ℕ) ∈ exBF.vertices ∧
      (((bellmanFord exBF 0 99).1 = false ↔ HasNegCycle exBF 0) ∧
      ((bellmanFord exBF 0 99).1 = true →
        (∀ v ∈ exBF.vertices,
          (WReach exBF 0 v →
            ∃ c, lookupD (bellmanFord exBF 0 99).2.dist v (some 0) = some c ∧
              (∃ l, chainOk exBF 0 l = true ∧ endOf 0 l = v ∧
                wOf exBF 0 l = c) ∧
              (∀ l, chainOk exBF 0 l = true → endOf 0 l = v →
                c ≤ wOf exBF 0 l)) ∧
          (¬ WReach exBF 0 v →
            lookupD (bellmanFord exBF 0 99).2.dist v (some 0) = none ∧
            lookupD (bellmanFord exBF 0 99).2.pred v 99 = 99)) ∧
        lookupD (bellmanFord exBF 0 99).2.dist 0 (some 0) = some 0 ∧
        lookupD (bellmanFord exBF 0 99).2.pred 0 99 = 99 ∧
        (∀ v ∈ exBF.vertices, v ≠ 0 →
          lookupD (bellmanFord exBF 0 99).2.dist v (some 0) ≠ none →
          lookupD (bellmanFord exBF 0 99).2.pred v 99 ∈ exBF.vertices ∧
          v ∈ exBF.succs (lookupD (bellmanFord exBF 0 99).2.pred v 99) ∧
          lookupD (bellmanFord exBF 0 99).2.dist v (some 0) =
            dplus (lookupD (bellmanFord exBF 0 99).2.dist
                (lookupD (bellmanFord exBF 0 99).2.pred v 99) (some 0))
              (exBF.weight (lookupD (bellmanFord exBF 0 99).2.pred v 99) v) ∧
          (∃ k, (fun x =>
            lookupD (bellmanFord exBF 0 99).2.pred x 99)^[k] v = 0)))) := by
  have h1 : SortedKeys exBF.adj := by
    unfold SortedKeys exBF keysOf
    simp [List.chain'_cons]
  have h2 : exBF.Closed := by
    unfold WGraph.Closed WGraph.vertices WGraph.succs
    decide
  have h3 : (0 : ℕ) ∈ exBF.vertices := by decide
  exact ⟨h1, h2, h3,
    bellmanFord_detects_negative_cycles_and_computes_shortest_paths
      exBF 0 99 h1 h2 h3⟩

theorem walk_in_closed_set {g : Graph V} {S : List V}
    (hS : ∀ u ∈ S, ∀ v ∈ g.succs u, v ∈ S) :
    ∀ {u v : V} {n : ℕ}, Walk g u v n → u ∈ S → v ∈ S := by
  intro u v n h
  induction h with
  | refl w => exact id
  | step he _ ih => exact fun hu => ih (hS _ hu _ he)

theorem gchain_append (g : Graph V) (x : V) (l1 l2 : List V) :
    gchain g x (l1 ++ l2) =
      (gchain g x l1 && gchain g (endOf x l1) l2) := by
  induction l1 generalizing x with
  | nil => simp [gchain, endOf]
  | cons a l1 ih =>
      simp only [List.cons_append, gchain, endOf, List.append_eq, ih a,
        Bool.and_assoc]

theorem gchain_reachable {g : Graph V} :
    ∀ (p : List V) (u : V), gchain g u p = true → Reachable g u (endOf u p) := by
  intro p
  induction p with
  | nil => intro u _; exact ⟨0, Walk.refl u⟩
  | cons a p ih =>
      intro u h
      simp only [gchain, Bool.and_eq_true, decide_eq_true_eq] at h
      obtain ⟨n, w⟩ := ih a h.2
      exact ⟨n + 1, Walk.step h.1 w⟩

theorem reachable_gchain {g : Graph V} {u v : V} (h : Reachable g u v) :
    ∃ p, gchain g u p = true ∧ endOf u p = v := by
  obtain ⟨n, w⟩ := h
  induction w with
  | refl x => exact ⟨[], rfl, rfl⟩
  | step he _ ih =>
      obtain ⟨p, hp, hend⟩ := ih
      refine ⟨_ :: p, ?_, hend⟩
      simp only [gchain, Bool.and_eq_true, decide_eq_true_eq]
      exact ⟨he, hp⟩

theorem reach_refl (g : Graph V) (u : V) : Reachable g u u := ⟨0, Walk.refl u⟩

theorem reach_trans {g : Graph V} {u v w : V} (h1 : Reachable g u v)
    (h2 : Reachable g v w) : Reachable g u w := by
  obtain ⟨p1, hp1, he1⟩ := reachable_gchain h1
  obtain ⟨p2, hp2, he2⟩ := reachable_gchain h2
  have hch : gchain g u (p1 ++ p2) = true := by
    rw [gchain_append, he1, Bool.and_eq_true]
    exact ⟨hp1, hp2⟩
  have h3 := gchain_reachable (p1 ++ p2) u hch
  rwa [endOf_append, he1, he2] at h3

theorem inscc_refl (g : Graph V) (u : V) : InSCC g u u :=
  ⟨reach_refl g u, reach_refl g u⟩

theorem inscc_symm {g : Graph V} {u v : V} (h : InSCC g u v) : InSCC g v u :=
  ⟨h.2, h.1⟩

theorem inscc_trans {g : Graph V} {u v w : V} (h1 : InSCC g u v)
    (h2 : InSCC g v w) : InSCC g u w :=
  ⟨reach_trans h1.1 h2.1, reach_trans h2.2 h1.2⟩

theorem gchain_split {g : Graph V} {x w : V} {q : List V}
    (hq : gchain g x q = true) (hw : w ∈ q) :
    Reachable g x w ∧ Reachable g w (endOf x q) := by
  obtain ⟨q1, q2, hsp⟩ := List.append_of_mem hw
  have hq2 : q = (q1 ++ [w]) ++ q2 := by simp [hsp]
  rw [hq2, gchain_append, endOf_concat, Bool.and_eq_true] at hq
  constructor
  · have := gchain_reachable (q1 ++ [w]) x hq.1
    rwa [endOf_concat] at this
  · rw [hq2, endOf_append, endOf_concat]
    exact gchain_reachable q2 w hq.2

theorem mem_last_split {α : Type} {a : α} {l : List α} (h : a ∈ l) :
    ∃ l1 l2, l = l1 ++ a :: l2 ∧ a ∉ l2 := by
  induction l with
  | nil => exact absurd h (by simp)
  | cons x xs ih =>
      by_cases hx : a ∈ xs
      · obtain ⟨l1, l2, hsp, hna⟩ := ih hx
        exact ⟨x :: l1, l2, by rw [hsp]; rfl, hna⟩
      · rcases List.mem_cons.mp h with he | he
        · exact ⟨[], xs, by simp [he], hx⟩
        · exact absurd he hx

theorem pairwise_elem {α : Type} {P : α → α → Prop} :
    ∀ {l : List α} {a b : α}, l.Pairwise P → a ∈ l → b ∈ l →
      a = b ∨ P a b ∨ P b a := by
  intro l
  induction l with
  | nil => intro a b _ ha; exact absurd ha (by simp)
  | cons x xs ih =>
      intro a b hp ha hb
      rcases List.mem_cons.mp ha with rfl | ha2
      · rcases List.mem_cons.mp hb with rfl | hb2
        · exact Or.inl rfl
        · exact Or.inr (Or.inl ((List.pairwise_cons.mp hp).1 b hb2))
      · rcases List.mem_cons.mp hb with rfl | hb2
        · exact Or.inr (Or.inr ((List.pairwise_cons.mp hp).1 a ha2))
        · exact ih (List.pairwise_cons.mp hp).2 ha2 hb2

theorem gchain_reverse {g1 g2 : Graph V}
    (hdual : ∀ a b : V, a ∈ g2.succs b ↔ b ∈ g1.succs a) :
    ∀ (p : List V) (u : V), gchain g2 u p = true →
      ∃ q, gchain g1 (endOf u p) q = true ∧ endOf (endOf u p) q = u ∧
        ∀ x ∈ q, x = u ∨ x ∈ p := by
  intro p
  induction p with
  | nil => intro u _; exact ⟨[], rfl, rfl, by simp⟩
  | cons a p ih =>
      intro u h
      simp only [gchain, Bool.and_eq_true, decide_eq_true_eq] at h
      obtain ⟨q, hq, hend, hmem⟩ := ih a h.2
      refine ⟨q ++ [u], ?_, ?_, ?_⟩
      · show gchain g1 (endOf a p) (q ++ [u]) = true
        rw [gchain_append, hend, Bool.and_eq_true]
        refine ⟨hq, ?_⟩
        simp only [gchain, Bool.and_true, decide_eq_true_eq]
        exact (hdual a u).mp h.1
      · show endOf (endOf a p) (q ++ [u]) = u
        rw [endOf_concat]
      · intro x hx
        rcases List.mem_append.mp hx with h1 | h1
        · rcases hmem x h1 with h2 | h2
          · exact Or.inr (by rw [h2]; exact List.mem_cons_self a p)
          · exact Or.inr (List.mem_cons_of_mem a h2)
        · rw [List.mem_singleton.mp h1]
          exact Or.inl rfl

theorem dfsInit_all_white (g : Graph V) (sorted : Bool) :
    ∀ u, colorOf (dfsInitRes g sorted) u = Color.white := by
  unfold dfsInitRes
  suffices h : ∀ (l : List V) (r : DFSRes V),
      (∀ u, colorOf r u = Color.white) →
      ∀ u, colorOf (l.foldl (fun r v =>
        { r with color_map := setVal r.color_map v Color.white,
                 det := setVal r.det v 0, fin := setVal r.fin v 0 }) r) u =
        Color.white by
    refine h g.vertices ⟨sorted, [], [], [], []⟩ ?_
    intro u
    rfl
  intro l
  induction l with
  | nil => intro r h u; exact h u
  | cons a l ih =>
      intro r h u
      rw [List.foldl_cons]
      refine ih _ ?_ u
      intro w
      show lookupD (setVal r.color_map a Color.white) w Color.white = Color.white
      by_cases hwa : w = a
      · rw [hwa, lookupD_setVal_self]
      · rw [lookupD_setVal_ne _ _ _ hwa]
        exact h w

theorem kinv_init (g : Graph V) (dom : List V) (sorted : Bool) :
    KInv g dom (dfsInitRes g sorted) := by
  refine ⟨?_, ?_, ?_⟩
  · intro u hu
    exact absurd (dfsInit_all_white g sorted u) hu
  · intro u hu
    rw [dfsInit_all_white g sorted u] at hu
    exact absurd hu (fun h => Color.noConfusion h)
  · intro u w hu
    exact absurd (dfsInit_all_white g sorted u) hu

theorem nonwhite_det_pos {g : Graph V} {t : ℕ} {r : DFSRes V} (h : DInv g t r)
    {u : V} (hu : colorOf r u ≠ Color.white) :
    1 ≤ detOf r u ∧ detOf r u ≤ t := by
  cases hc : colorOf r u with
  | white => exact absurd hc hu
  | gray =>
      have h0 := h.gray_open u hc
      exact ⟨h0.1, h0.2.1⟩
  | black =>
      have h0 := h.black_closed u hc
      exact ⟨h0.1, by omega⟩

theorem black_stamps_ne {g : Graph V} {t : ℕ} {r : DFSRes V} (h : DInv g t r)
    {u w : V} (hu : colorOf r u = Color.black) (hw : colorOf r w = Color.black)
    (hne : u ≠ w) :
    detOf r u ≠ detOf r w ∧ finOf r u ≠ finOf r w ∧ finOf r u ≠ detOf r w := by
  have hp := h.black_paren u w hu hw hne
  obtain ⟨a1, a2, a3⟩ := h.black_closed u hu
  obtain ⟨b1, b2, b3⟩ := h.black_closed w hw
  unfold IntervalsND at hp
  rcases hp with h3 | h3 | h3 | h3 <;> exact ⟨by omega, by omega, by omega⟩

/-- Colouring the visited vertex gray and stamping its discovery
preserves `DInv` (the first step of `DFSVisit`, factored out). -/
theorem dinv_gray {g : Graph V} {t0 : ℕ} {r0 : DFSRes V} {v : V}
    (hw : colorOf r0 v = Color.white) (hinv : DInv g t0 r0) :
    DInv g (t0 + 1)
      { r0 with color_map := setVal r0.color_map v Color.gray,
                det := setVal r0.det v (t0 + 1) } := by
  have hdv0 : detOf r0 v = 0 := (hinv.white_unstamped v hw).1
  have hfv0 : finOf r0 v = 0 := (hinv.white_unstamped v hw).2
  set rg : DFSRes V :=
    { r0 with
      color_map := setVal r0.color_map v Color.gray
      det := setVal r0.det v (t0 + 1) } with hrgdef
  have hcg : colorOf rg v = Color.gray := by
    simp [hrgdef, colorOf, lookupD_setVal_self]
  have hdg : detOf rg v = t0 + 1 := by
    simp [hrgdef, detOf, lookupD_setVal_self]
  have hfg : ∀ u, finOf rg u = finOf r0 u := fun _ => rfl
  have hcne : ∀ u, u ≠ v → colorOf rg u = colorOf r0 u := fun u hu => by
    simp [hrgdef, colorOf, lookupD_setVal_ne _ _ _ hu]
  have hdne : ∀ u, u ≠ v → detOf rg u = detOf r0 u := fun u hu => by
    simp [hrgdef, detOf, lookupD_setVal_ne _ _ _ hu]
  refine ⟨hinv.sorted_false, ?_, ?_, ?_, ?_, ?_, ?_, ?_, ?_⟩
  · intro u hu
    by_cases huv : u = v
    · subst huv
      rw [hcg] at hu
      exact absurd hu (fun h => Color.noConfusion h)
    · rw [hcne u huv] at hu
      have h0 := hinv.white_unstamped u hu
      rw [hdne u huv, hfg u]
      exact h0
  · intro u hu
    by_cases huv : u = v
    · subst huv
      rw [hdg, hfg u, hfv0]
      omega
    · rw [hcne u huv] at hu
      have h0 := hinv.gray_open u hu
      rw [hdne u huv, hfg u]
      exact ⟨h0.1, by omega, h0.2.2⟩
  · intro u hu
    by_cases huv : u = v
    · subst huv
      rw [hcg] at hu
      exact absurd hu (fun h => Color.noConfusion h)
    · rw [hcne u huv] at hu
      have h0 := hinv.black_closed u hu
      rw [hdne u huv, hfg u]
      exact ⟨h0.1, h0.2.1, by omega⟩
  · intro u w hu hw' hne
    have huv : u ≠ v := fun h => by
      rw [h, hcg] at hu; exact Color.noConfusion hu
    have hwv : w ≠ v := fun h => by
      rw [h, hcg] at hw'; exact Color.noConfusion hw'
    rw [hcne u huv] at hu
    rw [hcne w hwv] at hw'
    have h0 := hinv.black_paren u w hu hw' hne
    unfold IntervalsND at *
    rw [hdne u huv, hdne w hwv, hfg u, hfg w]
    exact h0
  · intro u w hu hw'
    have huv : u ≠ v := fun h => by
      rw [h, hcg] at hu; exact Color.noConfusion hu
    rw [hcne u huv] at hu
    by_cases hwv : w = v
    · subst hwv
      rw [hdg, hdne u huv, hfg u]
      have h0 := hinv.black_closed u hu
      omega
    · rw [hcne w hwv] at hw'
      have h0 := hinv.black_gray u w hu hw'
      rw [hdne u huv, hdne w hwv, hfg u]
      exact h0
  · intro u hu w hwsucc
    have huv : u ≠ v := fun h => by
      rw [h, hcg] at hu; exact Color.noConfusion hu
    rw [hcne u huv] at hu
    by_cases hwv : w = v
    · subst hwv
      rw [hcg]
      exact fun h => Color.noConfusion h
    · rw [hcne w hwv]
      exact hinv.black_no_white_succ u hu w hwsucc
  · intro u
    have hseq : rg.seq = r0.seq := rfl
    rw [hseq, hinv.seq_mem u]
    by_cases huv : u = v
    · subst huv
      rw [hcg]
      constructor
      · intro h; rw [hw] at h; exact absurd h (fun h => Color.noConfusion h)
      · intro h; exact absurd h (fun h => Color.noConfusion h)
    · rw [hcne u huv]
  · exact hinv.seq_sorted

/-- The whites bound after graying the visited vertex (factored out of
the visitor proof). -/
theorem whites_gray_le {g : Graph V} {t0 : ℕ} {r0 : DFSRes V} {v : V}
    {fuel : ℕ} (hw : colorOf r0 v = Color.white)
    (hf : whites g r0 < fuel + 1 ∨ (v ∈ allVerts g ∧ whites g r0 = fuel + 1)) :
    whites g
      { r0 with color_map := setVal r0.color_map v Color.gray,
                det := setVal r0.det v (t0 + 1) } ≤ fuel := by
  set rg : DFSRes V :=
    { r0 with
      color_map := setVal r0.color_map v Color.gray
      det := setVal r0.det v (t0 + 1) } with hrgdef
  have hcg : colorOf rg v = Color.gray := by
    simp [hrgdef, colorOf, lookupD_setVal_self]
  have hgnw : colorOf rg v ≠ Color.white := by
    rw [hcg]; exact fun h => Color.noConfusion h
  have hcne : ∀ u, u ≠ v → colorOf rg u = colorOf r0 u := fun u hu => by
    simp [hrgdef, colorOf, lookupD_setVal_ne _ _ _ hu]
  have hmono : ∀ u, colorOf r0 u ≠ Color.white → colorOf rg u ≠ Color.white := by
    intro u hu
    by_cases huv : u = v
    · subst huv; exact hgnw
    · rw [hcne u huv]; exact hu
  by_cases hm : v ∈ allVerts g
  · have hlt : whites g rg < whites g r0 := whites_lt hmono hm hw hgnw
    rcases hf with hf | ⟨_, hf⟩ <;> omega
  · have heqw : whites g rg = whites g r0 := by
      refine whites_congr_mem fun u hu => ?_
      have huv : u ≠ v := fun h => hm (h ▸ hu)
      rw [hcne u huv]
    rcases hf with hf | ⟨hmem, _⟩
    · omega
    · exact absurd hmem hm

/-- Colouring the visited vertex gray preserves the Kosaraju invariant,
provided every current gray vertex reaches it. -/
theorem kinv_gray {g : Graph V} {dom : List V} {t0 : ℕ} {r0 : DFSRes V} {v : V}
    (hw : colorOf r0 v = Color.white) (hinv : DInv g t0 r0) (hk : KInv g dom r0)
    (hvdom : v ∈ dom) (hgr : GraysReach g r0 v) :
    KInv g dom
      { r0 with color_map := setVal r0.color_map v Color.gray,
                det := setVal r0.det v (t0 + 1) } := by
  have hdv0 : detOf r0 v = 0 := (hinv.white_unstamped v hw).1
  have hfv0 : finOf r0 v = 0 := (hinv.white_unstamped v hw).2
  set rg : DFSRes V :=
    { r0 with
      color_map := setVal r0.color_map v Color.gray
      det := setVal r0.det v (t0 + 1) } with hrgdef
  have hcg : colorOf rg v = Color.gray := by
    simp [hrgdef, colorOf, lookupD_setVal_self]
  have hdg : detOf rg v = t0 + 1 := by
    simp [hrgdef, detOf, lookupD_setVal_self]
  have hfg : ∀ u, finOf rg u = finOf r0 u := fun _ => rfl
  have hcne : ∀ u, u ≠ v → colorOf rg u = colorOf r0 u := fun u hu => by
    simp [hrgdef, colorOf, lookupD_setVal_ne _ _ _ hu]
  have hdne : ∀ u, u ≠ v → detOf rg u = detOf r0 u := fun u hu => by
    simp [hrgdef, detOf, lookupD_setVal_ne _ _ _ hu]
  refine ⟨?_, ?_, ?_⟩
  · intro u hu
    by_cases huv : u = v
    · subst huv; exact hvdom
    · rw [hcne u huv] at hu
      exact hk.k_dom u hu
  · intro u hu w hwsucc
    have huv : u ≠ v := fun h => by
      rw [h, hcg] at hu; exact Color.noConfusion hu
    rw [hcne u huv] at hu
    obtain ⟨h1, h2⟩ := hk.k_edge u hu w hwsucc
    have hwv : w ≠ v := fun h => h1 (h ▸ hdv0)
    rw [hdne w hwv, hfg u]
    exact ⟨h1, h2⟩
  · intro u w hu hw2 hdet hfin
    by_cases hwv : w = v
    · subst hwv
      have huv : u ≠ w := fun h => by rw [h] at hdet; omega
      rw [hcne u huv] at hu
      have hfinu : finOf rg u = 0 := by
        rcases hfin with h | ⟨h, _⟩
        · exact h
        · rw [hfg w, hfv0] at h
          exact absurd rfl h
      rw [hfg u] at hfinu
      have hgray : colorOf r0 u = Color.gray := by
        cases hc : colorOf r0 u with
        | white => exact absurd hc hu
        | gray => rfl
        | black =>
            have h0 := hinv.black_closed u hc
            omega
      obtain ⟨p, hp1, hp2, hp3⟩ := hgr u hgray
      refine ⟨p, hp1, hp2, ?_⟩
      intro x hx
      have hnw0 : x ≠ w → colorOf r0 x ≠ Color.white ∧ detOf r0 u < detOf r0 x :=
        hp3 x hx
      have hdu : detOf rg u = detOf r0 u := hdne u huv
      have hdut : detOf r0 u ≤ t0 := (hinv.gray_open u hgray).2.1
      refine ⟨?_, ?_, ?_⟩
      · by_cases hxv : x = w
        · rw [hxv, hcg]; exact fun h => Color.noConfusion h
        · rw [hcne x hxv]; exact (hnw0 hxv).1
      · by_cases hxv : x = w
        · rw [hxv, hdg, hdu]; omega
        · rw [hdne x hxv, hdu]; exact (hnw0 hxv).2
      · intro h
        rw [hfg u] at h
        exact absurd hfinu h
    · by_cases huv : u = v
      · subst huv
        rw [hcne w hwv] at hw2
        have hwt : detOf r0 w ≤ t0 := (nonwhite_det_pos hinv hw2).2
        rw [hdg, hdne w hwv] at hdet
        omega
      · rw [hcne u huv] at hu
        rw [hcne w hwv] at hw2
        rw [hdne u huv, hdne w hwv] at hdet
        rw [hfg u, hfg w] at hfin
        obtain ⟨p, hp1, hp2, hp3⟩ := hk.k_reach u w hu hw2 hdet hfin
        refine ⟨p, hp1, hp2, ?_⟩
        intro x hx
        obtain ⟨hc0, hd0, hf0⟩ := hp3 x hx
        have hxv : x ≠ v := fun h => hc0 (h ▸ hw)
        refine ⟨?_, ?_, ?_⟩
        · rw [hcne x hxv]; exact hc0
        · rw [hdne x hxv, hdne u huv]; exact hd0
        · rw [hfg u, hfg x]; exact hf0

/-- The loop preserves the Kosaraju invariant whenever the visitor does. -/
theorem kloop_of_kvisit (g : Graph V) (dom : List V) (fuel : ℕ)
    (hv : VisitSpec g fuel) (hkv : KVisitSpec g dom fuel) :
    KLoopSpec g dom fuel := by
  intro us
  induction us with
  | nil =>
      intro t r _ _ _ hk _ _ t' r' heq
      cases heq
      exact hk
  | cons u us ih =>
      intro t r hall hdall hinv hk hgr hW t' r' heq
      have hu_all : u ∈ allVerts g := hall u (List.mem_cons_self u us)
      have hall' : ∀ w ∈ us, w ∈ allVerts g :=
        fun w hw => hall w (List.mem_cons_of_mem u hw)
      have hdall' : ∀ w ∈ us, w ∈ dom :=
        fun w hw => hdall w (List.mem_cons_of_mem u hw)
      by_cases hw : colorOf r u = Color.white
      · have hf : whites g r < fuel ∨ (u ∈ allVerts g ∧ whites g r = fuel) := by
          rcases lt_or_eq_of_le hW with h | h
          · exact Or.inl h
          · exact Or.inr ⟨hu_all, h⟩
        obtain ⟨t1, r1, heq1, ht1, hinv1, hcb, hdet, hfin, hpres, hwcls, hwle, hwlt⟩ :=
          hv u t r hw hinv hf
        have hk1 : KInv g dom r1 :=
          hkv u t r hw hinv hk (hdall u (List.mem_cons_self u us))
            (hgr u (List.mem_cons_self u us)) hf t1 r1 heq1
        have hnotgray : ¬(lookupD r1.color_map u Color.white = Color.gray ∧
            r1.sorted = true) := by
          rintro ⟨h1, _⟩
          rw [show lookupD r1.color_map u Color.white = colorOf r1 u from rfl, hcb] at h1
          exact Color.noConfusion h1
        have hcomp : dfsSuccLoop (DFSVisit g fuel) (u :: us) t r =
            dfsSuccLoop (DFSVisit g fuel) us t1 r1 := by
          simp only [dfsSuccLoop]
          rw [if_pos hw, heq1]
          simp only [if_neg hnotgray]
        rw [hcomp] at heq
        have hgray1 : ∀ z, colorOf r1 z = Color.gray → colorOf r z = Color.gray := by
          intro z hz
          cases hcz : colorOf r z with
          | white =>
              by_cases hzu : z = u
              · rw [hzu, hcb] at hz; exact Color.noConfusion hz
              · rcases hwcls z hcz hzu with ⟨h1, _, _⟩ | ⟨h1, _, _, _⟩ <;>
                  rw [h1] at hz <;> exact Color.noConfusion hz
          | gray => rfl
          | black =>
              have h1 := (hpres z (by rw [hcz]; exact fun h => Color.noConfusion h)).1
              rw [h1, hcz] at hz
              exact Color.noConfusion hz
        have hgr1 : ∀ w' ∈ us, GraysReach g r1 w' := by
          intro w' hw' z hz
          have hz0 : colorOf r z = Color.gray := hgray1 z hz
          obtain ⟨p, hp1, hp2, hp3⟩ := hgr w' (List.mem_cons_of_mem u hw') z hz0
          refine ⟨p, hp1, hp2, ?_⟩
          intro x hx hxv
          obtain ⟨hc0, hd0⟩ := hp3 x hx hxv
          have hpz := hpres z (by rw [hz0]; exact fun h => Color.noConfusion h)
          have hpx := hpres x hc0
          refine ⟨?_, ?_⟩
          · rw [hpx.1]; exact hc0
          · rw [hpx.2.1, hpz.2.1]; exact hd0
        exact ih t1 r1 hall' hdall' hinv1 hk1 hgr1
          (le_of_lt (lt_of_lt_of_le (hwlt hu_all) hW)) t' r' heq
      · have hnotgray : ¬(lookupD r.color_map u Color.white = Color.gray ∧
            r.sorted = true) := by
          rintro ⟨_, h2⟩
          rw [hinv.sorted_false] at h2
          exact Bool.noConfusion h2
        have hcomp : dfsSuccLoop (DFSVisit g fuel) (u :: us) t r =
            dfsSuccLoop (DFSVisit g fuel) us t r := by
          simp only [dfsSuccLoop]
          rw [if_neg hw]
          simp only [if_neg hnotgray]
        rw [hcomp] at heq
        exact ih t r hall' hdall' hinv hk
          (fun w hw' => hgr w (List.mem_cons_of_mem u hw')) hW t' r' heq

/-- `DFSVisit` preserves the Kosaraju invariant, by induction on fuel. -/
theorem kvisit_spec (g : Graph V) (dom : List V)
    (hdall : ∀ x ∈ allVerts g, x ∈ dom) :
    ∀ fuel, KVisitSpec g dom fuel := by
  intro fuel
  induction fuel with
  | zero =>
      intro v t0 r0 hw hinv hk hvdom hgr hf t1 r1 heq
      rcases hf with hf | ⟨hmem, hf⟩
      · exact absurd hf (Nat.not_lt_zero _)
      · have := whites_pos hmem hw
        omega
  | succ fuel ihf =>
      intro v t0 r0 hw hinv hk hvdom hgr hf t1 r1 heq
      have hdv0 : detOf r0 v = 0 := (hinv.white_unstamped v hw).1
      have hfv0 : finOf r0 v = 0 := (hinv.white_unstamped v hw).2
      set rg : DFSRes V :=
        { r0 with
          color_map := setVal r0.color_map v Color.gray
          det := setVal r0.det v (t0 + 1) } with hrgdef
      have hcg : colorOf rg v = Color.gray := by
        simp [hrgdef, colorOf, lookupD_setVal_self]
      have hdg : detOf rg v = t0 + 1 := by
        simp [hrgdef, detOf, lookupD_setVal_self]
      have hfg : ∀ u, finOf rg u = finOf r0 u := fun _ => rfl
      have hcne : ∀ u, u ≠ v → colorOf rg u = colorOf r0 u := fun u hu => by
        simp [hrgdef, colorOf, lookupD_setVal_ne _ _ _ hu]
      have hdne : ∀ u, u ≠ v → detOf rg u = detOf r0 u := fun u hu => by
        simp [hrgdef, detOf, lookupD_setVal_ne _ _ _ hu]
      have hgnw : colorOf rg v ≠ Color.white := by
        rw [hcg]; exact fun h => Color.noConfusion h
      have hinv_g : DInv g (t0 + 1) rg := dinv_gray hw hinv
      have hwle_g : whites g rg ≤ fuel := whites_gray_le hw hf
      have hk_g : KInv g dom rg := kinv_gray hw hinv hk hvdom hgr
      have hgr_g : ∀ u' ∈ g.succs v, GraysReach g rg u' := by
        intro u' hu' z hz
        by_cases hzv : z = v
        · refine ⟨[u'], ?_, rfl, ?_⟩
          · rw [hzv]; simp [gchain, hu']
          · intro x hx hxne
            rw [List.mem_singleton] at hx
            exact absurd hx hxne
        · have hcz0 : colorOf r0 z = Color.gray := by rw [← hcne z hzv]; exact hz
          have hdz : detOf rg z = detOf r0 z := hdne z hzv
          have hdz0 : detOf r0 z ≤ t0 := (hinv.gray_open z hcz0).2.1
          have hfz0 : finOf r0 z = 0 := (hinv.gray_open z hcz0).2.2
          obtain ⟨p, hp1, hp2, hp3⟩ := hk_g.k_reach z v
            (by rw [hz]; exact fun h => Color.noConfusion h)
            hgnw
            (by rw [hdz, hdg]; omega)
            (Or.inl (by rw [hfg z]; exact hfz0))
          refine ⟨p ++ [u'], ?_, ?_, ?_⟩
          · rw [gchain_append, hp1, Bool.true_and, hp2]
            simp [gchain, hu']
          · rw [endOf_append, hp2]
            rfl
          · intro x hx hxne
            rw [List.mem_append, List.mem_singleton] at hx
            rcases hx with hx | rfl
            · obtain ⟨hc0, hd0, _⟩ := hp3 x hx
              exact ⟨hc0, hd0⟩
            · exact absurd rfl hxne
      obtain ⟨t1', r', heq', ht', hinv', hpres', hwcls', hwle', hlast'⟩ :=
        loop_spec_of_visit g fuel (visit_spec g fuel) (g.succs v) (t0 + 1) rg
          (fun u hu => mem_allVerts_of_succ hu) hinv_g hwle_g
      have hk' : KInv g dom r' :=
        kloop_of_kvisit g dom fuel (visit_spec g fuel) ihf (g.succs v) (t0 + 1) rg
          (fun u hu => mem_allVerts_of_succ hu)
          (fun u hu => hdall u (mem_allVerts_of_succ hu))
          hinv_g hk_g hgr_g hwle_g t1' r' heq'
      have hvp := hpres' v hgnw
      have hcv' : colorOf r' v = Color.gray := hvp.1.trans hcg
      have hdv' : detOf r' v = t0 + 1 := hvp.2.1.trans hdg
      have hfv' : finOf r' v = 0 := (hvp.2.2.trans (hfg v)).trans hfv0
      set rf : DFSRes V :=
        { r' with
          color_map := setVal r'.color_map v Color.black
          fin := setVal r'.fin v (t1' + 1)
          seq := r'.seq ++ [v] } with hrfdef
      have hcf : colorOf rf v = Color.black := by
        simp [hrfdef, colorOf, lookupD_setVal_self]
      have hff : finOf rf v = t1' + 1 := by
        simp [hrfdef, finOf, lookupD_setVal_self]
      have hdf : ∀ u, detOf rf u = detOf r' u := fun _ => rfl
      have hcne2 : ∀ u, u ≠ v → colorOf rf u = colorOf r' u := fun u hu => by
        simp [hrfdef, colorOf, lookupD_setVal_ne _ _ _ hu]
      have hfne2 : ∀ u, u ≠ v → finOf rf u = finOf r' u := fun u hu => by
        simp [hrfdef, finOf, lookupD_setVal_ne _ _ _ hu]
      have hcomp : DFSVisit g (fuel + 1) v t0 r0 = DRes.ok (t1' + 1) rf := by
        show (match dfsSuccLoop (DFSVisit g fuel) (g.succs v) (t0 + 1) rg with
          | DRes.ok t r =>
              DRes.ok (t + 1)
                { r with
                  color_map := setVal r.color_map v Color.black
                  fin := setVal r.fin v (t + 1)
                  seq := r.seq ++ [v] }
          | DRes.cyc => DRes.cyc
          | DRes.out => DRes.out) = DRes.ok (t1' + 1) rf
        rw [heq']
      rw [hcomp] at heq
      injection heq with h1 h2
      subst h2
      have hgray' : ∀ z, colorOf r' z = Color.gray → z = v ∨ colorOf r0 z = Color.gray := by
        intro z hz
        cases hcz : colorOf rg z with
        | white =>
            rcases hwcls' z hcz with ⟨h3, _, _⟩ | ⟨h3, _, _, _⟩ <;> rw [h3] at hz <;>
              exact absurd hz (fun h => Color.noConfusion h)
        | gray =>
            by_cases hzv : z = v
            · exact Or.inl hzv
            · right; rw [← hcne z hzv]; exact hcz
        | black =>
            have h3 := (hpres' z (by rw [hcz]; exact fun h => Color.noConfusion h)).1
            rw [h3, hcz] at hz
            exact absurd hz (fun h => Color.noConfusion h)
      have hpres0 : ∀ u, u ≠ v → colorOf r0 u ≠ Color.white →
          colorOf r' u = colorOf r0 u ∧ detOf r' u = detOf r0 u ∧
            finOf r' u = finOf r0 u := by
        intro u huv hu
        have h3 := hpres' u (by rw [hcne u huv]; exact hu)
        exact ⟨h3.1.trans (hcne u huv), h3.2.1.trans (hdne u huv), h3.2.2.trans (hfg u)⟩
      have hlate_black : ∀ x, colorOf r' x ≠ Color.white → t0 + 1 < detOf r' x →
          colorOf r' x = Color.black ∧ 1 ≤ finOf r' x ∧ finOf r' x ≤ t1' := by
        intro x hx hdx
        cases hcx : colorOf r' x with
        | white => exact absurd hcx hx
        | gray =>
            rcases hgray' x hcx with hxv | hg0
            · rw [hxv, hdv'] at hdx; omega
            · have hnw0 : colorOf r0 x ≠ Color.white := by
                rw [hg0]; exact fun h => Color.noConfusion h
              have hxv : x ≠ v := fun h => by
                rw [h, hw] at hg0; exact Color.noConfusion hg0
              have hp0 := hpres0 x hxv hnw0
              have hd0 := (hinv.gray_open x hg0).2.1
              rw [hp0.2.1] at hdx
              omega
        | black =>
            have h0 := hinv'.black_closed x hcx
            exact ⟨rfl, by omega, by omega⟩
      refine ⟨?_, ?_, ?_⟩
      · intro u hu
        by_cases huv : u = v
        · rw [huv]; exact hvdom
        · rw [hcne2 u huv] at hu
          exact hk'.k_dom u hu
      · intro u hu w hwsucc
        by_cases huv : u = v
        · rw [huv] at hwsucc ⊢
          have hnw := hlast' w hwsucc
          have hd1 := nonwhite_det_pos hinv' hnw
          rw [hff, hdf w]
          exact ⟨by omega, by omega⟩
        · rw [hcne2 u huv] at hu
          obtain ⟨h3, h4⟩ := hk'.k_edge u hu w hwsucc
          rw [hdf w, hfne2 u huv]
          exact ⟨h3, h4⟩
      · intro u w hu hw2 hdet hfin
        by_cases huv : u = v
        · rw [huv] at hdet hfin ⊢
          rw [hdf v, hdv', hdf w] at hdet
          have hwv : w ≠ v := fun h => by rw [h, hdv'] at hdet; omega
          have hw2' : colorOf r' w ≠ Color.white := by
            rw [hcne2 w hwv] at hw2; exact hw2
          obtain ⟨p, hp1, hp2, hp3⟩ := hk'.k_reach v w
            (by rw [hcv']; exact fun h => Color.noConfusion h) hw2'
            (by rw [hdv']; exact hdet) (Or.inl hfv')
          refine ⟨p, hp1, hp2, ?_⟩
          intro x hx
          obtain ⟨hc0, hd0, _⟩ := hp3 x hx
          have hd0' : t0 + 1 < detOf r' x := by rw [hdv'] at hd0; exact hd0
          obtain ⟨hbx, hfx1, hfx2⟩ := hlate_black x hc0 hd0'
          have hxv : x ≠ v := fun h => by rw [h, hdv'] at hd0'; omega
          refine ⟨?_, ?_, ?_⟩
          · rw [hcne2 x hxv, hbx]; exact fun h => Color.noConfusion h
          · rw [hdf x, hdf v, hdv']; exact hd0'
          · intro h5
            rw [hfne2 x hxv, hff]
            exact ⟨by omega, by omega⟩
        · by_cases hwv : w = v
          · rw [hwv] at hw2 hdet hfin ⊢
            have hu' : colorOf r' u ≠ Color.white := by
              rw [hcne2 u huv] at hu; exact hu
            have hfinu : finOf rf u = 0 := by
              rcases hfin with h5 | ⟨_, h5⟩
              · exact h5
              · rw [hff, hfne2 u huv] at h5
                have h6 : finOf r' u ≤ t1' := by
                  cases hcu : colorOf r' u with
                  | white => exact absurd hcu hu'
                  | gray => rw [(hinv'.gray_open u hcu).2.2]; omega
                  | black =>
                      have h0 := hinv'.black_closed u hcu
                      omega
                omega
            have hfinu' : finOf r' u = 0 := by
              rw [hfne2 u huv] at hfinu; exact hfinu
            rw [hdf u, hdf v, hdv'] at hdet
            obtain ⟨p, hp1, hp2, hp3⟩ := hk'.k_reach u v hu'
              (by rw [hcv']; exact fun h => Color.noConfusion h)
              (by rw [hdv']; omega) (Or.inl hfinu')
            refine ⟨p, hp1, hp2, ?_⟩
            intro x hx
            obtain ⟨hc0, hd0, _⟩ := hp3 x hx
            refine ⟨?_, ?_, ?_⟩
            · by_cases hxv : x = v
              · rw [hxv, hcf]; exact fun h => Color.noConfusion h
              · rw [hcne2 x hxv]; exact hc0
            · rw [hdf x, hdf u]; exact hd0
            · intro hcontra
              rw [hfne2 u huv] at hcontra
              exact absurd hfinu' hcontra
          · have hu' : colorOf r' u ≠ Color.white := by
              rw [hcne2 u huv] at hu; exact hu
            have hw2' : colorOf r' w ≠ Color.white := by
              rw [hcne2 w hwv] at hw2; exact hw2
            rw [hdf u, hdf w] at hdet
            rw [hfne2 u huv, hfne2 w hwv] at hfin
            obtain ⟨p, hp1, hp2, hp3⟩ := hk'.k_reach u w hu' hw2' hdet hfin
            refine ⟨p, hp1, hp2, ?_⟩
            intro x hx
            obtain ⟨hc0, hd0, hf0⟩ := hp3 x hx
            refine ⟨?_, ?_, ?_⟩
            · by_cases hxv : x = v
              · rw [hxv, hcf]; exact fun h => Color.noConfusion h
              · rw [hcne2 x hxv]; exact hc0
            · rw [hdf x, hdf u]; exact hd0
            · intro hne0
              rw [hfne2 u huv] at hne0
              obtain ⟨hf1, hf2⟩ := hf0 hne0
              have hxv : x ≠ v := fun h => by
                rw [h, hfv'] at hf1
                exact absurd rfl hf1
              rw [hfne2 x hxv, hfne2 u huv]
              exact ⟨hf1, hf2⟩

theorem pairwise_after {P : V → V → Prop} {l : List V} (hp : l.Pairwise P)
    {a b : V} (h : After l a b) : P a b := by
  obtain ⟨l1, l2, hl, hb⟩ := h
  rw [hl] at hp
  have h2 := (List.pairwise_append.mp hp).2.1
  exact (List.pairwise_cons.mp h2).1 b hb

/-- The main DFS loop with root bookkeeping: it returns a state whose
black vertices are covered by the stamp intervals of a list of roots,
the roots' intervals are pairwise disjoint in loop order, and every
non-root tree member occurs after its root in the vertex list. -/
theorem dfsMainK (g : Graph V) (dom : List V)
    (hdall : ∀ x ∈ allVerts g, x ∈ dom) :
    ∀ (vs : List V), ∀ t r, DInv g t r → KInv g dom r →
    (∀ z, colorOf r z ≠ Color.gray) →
    (∀ u ∈ vs, u ∈ dom) →
    ∀ t' r', dfsMain g vs t r = DRes.ok t' r' →
      t ≤ t' ∧ DInv g t' r' ∧ KInv g dom r' ∧
      (∀ z, colorOf r' z ≠ Color.gray) ∧
      (∀ u ∈ vs, colorOf r' u ≠ Color.white) ∧
      (∀ u, colorOf r u ≠ Color.white →
        colorOf r' u = colorOf r u ∧ detOf r' u = detOf r u ∧
          finOf r' u = finOf r u) ∧
      (∀ u, colorOf r u = Color.white →
        (colorOf r' u = Color.white ∧ detOf r' u = 0 ∧ finOf r' u = 0) ∨
        (colorOf r' u = Color.black ∧ t < detOf r' u ∧
          detOf r' u < finOf r' u ∧ finOf r' u ≤ t')) ∧
      ∃ roots : List V,
        (∀ z ∈ roots, z ∈ vs ∧ colorOf r z = Color.white ∧
          colorOf r' z = Color.black) ∧
        (∀ u, colorOf r u = Color.white → colorOf r' u = Color.black →
          ∃ z ∈ roots, InTree r' z u) ∧
        roots.Pairwise (fun a b => finOf r' a < detOf r' b) ∧
        (∀ z ∈ roots, ∀ u ∈ vs, colorOf r u = Color.white → u ≠ z →
          InTree r' z u → After vs z u) := by
  intro vs
  induction vs with
  | nil =>
      intro t r hinv hk hng _ t' r' heq
      cases heq
      refine ⟨le_refl t, hinv, hk, hng, by simp, fun u _ => ⟨rfl, rfl, rfl⟩, ?_,
        [], by simp, ?_, List.Pairwise.nil, by simp⟩
      · intro u hu
        exact Or.inl ⟨hu, (hinv.white_unstamped u hu).1, (hinv.white_unstamped u hu).2⟩
      · intro u hu hb
        rw [hu] at hb
        exact absurd hb (fun h => Color.noConfusion h)
  | cons v vs ih =>
      intro t r hinv hk hng hdall2 t' r' heq
      have hdall2' : ∀ w ∈ vs, w ∈ dom :=
        fun w hw => hdall2 w (List.mem_cons_of_mem v hw)
      by_cases hw : colorOf r v = Color.white
      · have hf : whites g r < dfsFuel g ∨ (v ∈ allVerts g ∧ whites g r = dfsFuel g) := by
          refine Or.inl (lt_of_le_of_lt (whites_le_length g r) ?_)
          unfold dfsFuel
          omega
        obtain ⟨t1, r1, heqv, ht1, hinv1, hcb, hdet, hfin, hpres, hwcls, hwle, hwlt⟩ :=
          visit_spec g (dfsFuel g) v t r hw hinv hf
        have hgr0 : GraysReach g r v := fun z hz => absurd hz (hng z)
        have hk1 : KInv g dom r1 :=
          kvisit_spec g dom hdall (dfsFuel g) v t r hw hinv hk
            (hdall2 v (List.mem_cons_self v vs)) hgr0 hf t1 r1 heqv
        have hng1 : ∀ z, colorOf r1 z ≠ Color.gray := by
          intro z
          by_cases hzv : z = v
          · rw [hzv, hcb]; exact fun h => Color.noConfusion h
          · cases hcz : colorOf r z with
            | white =>
                rcases hwcls z hcz hzv with ⟨h1, _, _⟩ | ⟨h1, _, _, _⟩ <;> rw [h1] <;>
                  exact fun h => Color.noConfusion h
            | gray => exact absurd hcz (hng z)
            | black =>
                rw [(hpres z (by rw [hcz]; exact fun h => Color.noConfusion h)).1, hcz]
                exact fun h => Color.noConfusion h
        simp only [dfsMain] at heq
        rw [if_pos hw, heqv] at heq
        obtain ⟨hle, hinv', hk', hng', hallb, hpres', hwcls', roots1, hRa, hRb, hRc, hRd⟩ :=
          ih t1 r1 hinv1 hk1 hng1 hdall2' t' r' heq
        have hvp' := hpres' v (by rw [hcb]; exact fun h => Color.noConfusion h)
        have hcv' : colorOf r' v = Color.black := hvp'.1.trans hcb
        have hdv' : detOf r' v = t + 1 := hvp'.2.1.trans hdet
        have hfv' : finOf r' v = t1 := hvp'.2.2.trans hfin
        have hwhite1 : ∀ z, colorOf r1 z = Color.white → colorOf r z = Color.white := by
          intro z hz
          by_contra hnz
          rw [(hpres z hnz).1] at hz
          exact hnz hz
        refine ⟨by omega, hinv', hk', hng', ?_, ?_, ?_,
          v :: roots1, ?_, ?_, ?_, ?_⟩
        · intro u hu
          rcases List.mem_cons.mp hu with rfl | hu'
          · rw [hcv']; exact fun h => Color.noConfusion h
          · exact hallb u hu'
        · intro u hu
          have h1 := hpres u hu
          have h2 := hpres' u (by rw [h1.1]; exact hu)
          exact ⟨h2.1.trans h1.1, h2.2.1.trans h1.2.1, h2.2.2.trans h1.2.2⟩
        · intro u hu
          by_cases huv : u = v
          · rw [huv]
            refine Or.inr ⟨hcv', ?_, ?_, ?_⟩
            · rw [hdv']; omega
            · rw [hdv', hfv']; omega
            · rw [hfv']; omega
          · rcases hwcls u hu huv with ⟨hc1, hd1, hf1⟩ | ⟨hc1, hd1, hf1, hf2⟩
            · rcases hwcls' u hc1 with ⟨hc2, hd2, hf2'⟩ | ⟨hc2, hd2, hf2', hf3⟩
              · exact Or.inl ⟨hc2, hd2, hf2'⟩
              · exact Or.inr ⟨hc2, by omega, hf2', hf3⟩
            · have h2 := hpres' u (by rw [hc1]; exact fun h => Color.noConfusion h)
              refine Or.inr ⟨h2.1.trans hc1, ?_, ?_, ?_⟩
              · rw [h2.2.1]; omega
              · rw [h2.2.1, h2.2.2]; exact hf1
              · rw [h2.2.2]; omega
        · intro z hz
          rcases List.mem_cons.mp hz with rfl | hz'
          · exact ⟨List.mem_cons_self z vs, hw, hcv'⟩
          · obtain ⟨h1, h2, h3⟩ := hRa z hz'
            exact ⟨List.mem_cons_of_mem v h1, hwhite1 z h2, h3⟩
        · intro u hu hb
          by_cases hu1 : colorOf r1 u = Color.white
          · obtain ⟨z, hz, hin⟩ := hRb u hu1 hb
            exact ⟨z, List.mem_cons_of_mem v hz, hin⟩
          · refine ⟨v, List.mem_cons_self v roots1, ?_⟩
            by_cases huv : u = v
            · rw [huv]
              exact ⟨le_refl _, le_refl _⟩
            · rcases hwcls u hu huv with ⟨hc1, _, _⟩ | ⟨hc1, hd1, hf1, hf2⟩
              · exact absurd hc1 hu1
              · have h2 := hpres' u (by rw [hc1]; exact fun h => Color.noConfusion h)
                constructor
                · rw [hdv', h2.2.1]; omega
                · rw [hfv', h2.2.2]; omega
        · refine List.pairwise_cons.mpr ⟨?_, hRc⟩
          intro z hz
          obtain ⟨hzvs, hzw1, hzb⟩ := hRa z hz
          rcases hwcls' z hzw1 with ⟨h1, _, _⟩ | ⟨_, hd2, _, _⟩
          · rw [h1] at hzb; exact absurd hzb (fun h => Color.noConfusion h)
          · rw [hfv']; omega
        · intro z hz u hu huw hune hin
          rcases List.mem_cons.mp hz with rfl | hz'
          · refine ⟨[], vs, rfl, ?_⟩
            rcases List.mem_cons.mp hu with rfl | hu'
            · exact absurd rfl hune
            · exact hu'
          · obtain ⟨hzvs, hzw1, hzb⟩ := hRa z hz'
            have hdz : t1 < detOf r' z := by
              rcases hwcls' z hzw1 with ⟨h1, _, _⟩ | ⟨_, hd2, _, _⟩
              · rw [h1] at hzb; exact absurd hzb (fun h => Color.noConfusion h)
              · exact hd2
            have hunev : u ≠ v := by
              intro h
              rw [h] at hin
              have := hin.1
              rw [hdv'] at this
              omega
            have hu1 : colorOf r1 u = Color.white := by
              rcases hwcls u huw hunev with ⟨hc1, _, _⟩ | ⟨hc1, hd1, hf1, hf2⟩
              · exact hc1
              · have h2 := hpres' u (by rw [hc1]; exact fun h => Color.noConfusion h)
                have := hin.1
                rw [h2.2.1] at this
                omega
            have huvs : u ∈ vs := by
              rcases List.mem_cons.mp hu with rfl | hu'
              · exact absurd rfl hunev
              · exact hu'
            obtain ⟨l1, l2, hvs, hu2⟩ := hRd z hz' u huvs hu1 hune hin
            exact ⟨v :: l1, l2, by simp [hvs], hu2⟩
      · simp only [dfsMain] at heq
        rw [if_neg hw] at heq
        obtain ⟨hle, hinv', hk', hng', hallb, hpres', hwcls', roots1, hRa, hRb, hRc, hRd⟩ :=
          ih t r hinv hk hng hdall2' t' r' heq
        refine ⟨hle, hinv', hk', hng', ?_, hpres', hwcls',
          roots1, ?_, hRb, hRc, ?_⟩
        · intro u hu
          rcases List.mem_cons.mp hu with rfl | hu'
          · rw [(hpres' u hw).1]; exact hw
          · exact hallb u hu'
        · intro z hz
          obtain ⟨h1, h2, h3⟩ := hRa z hz
          exact ⟨List.mem_cons_of_mem v h1, h2, h3⟩
        · intro z hz u hu huw hune hin
          have hunev : u ≠ v := fun h => hw (h ▸ huw)
          have huvs : u ∈ vs := by
            rcases List.mem_cons.mp hu with rfl | hu'
            · exact absurd rfl hunev
            · exact hu'
          obtain ⟨l1, l2, hvs, hu2⟩ := hRd z hz u huvs huw hune hin
          exact ⟨v :: l1, l2, by simp [hvs], hu2⟩

theorem mem_flatten_exists {m : List (V × List V)} {v : V}
    (h : v ∈ m.foldr (fun p acc => p.2 ++ acc) []) :
    ∃ p ∈ m, v ∈ p.2 := by
  induction m with
  | nil => simp at h
  | cons p m ih =>
      rcases List.mem_append.mp h with h1 | h1
      · exact ⟨p, List.mem_cons_self p m, h1⟩
      · obtain ⟨q, hq, hv⟩ := ih h1
        exact ⟨q, List.mem_cons_of_mem p hq, hv⟩

theorem findVal_of_mem_nodup {α β : Type} [DecidableEq α] {m : List (α × β)}
    (hnd : (keysOf m).Nodup) {k : α} {b : β} (h : (k, b) ∈ m) :
    findVal m k = some b := by
  induction m with
  | nil => simp at h
  | cons p m ih =>
      obtain ⟨k0, b0⟩ := p
      rcases List.mem_cons.mp h with h1 | h1
      · injection h1 with h2 h3
        simp [findVal, h2.symm, h3.symm]
      · have hk0 : k0 ≠ k := by
          intro he
          have : k0 ∈ keysOf m := by
            rw [he]
            exact List.mem_map_of_mem Prod.fst h1
          exact (List.nodup_cons.mp hnd).1 this
        simp only [findVal, if_neg hk0]
        exact ih (List.nodup_cons.mp hnd).2 h1

theorem succs_of_not_mem {g : Graph V} {u : V} (h : u ∉ g.vertices) :
    g.succs u = [] := by
  unfold Graph.succs lookupD
  rw [findVal_eq_none h]
  rfl

theorem mem_vertices_of_succ_src {g : Graph V} {u v : V} (h : v ∈ g.succs u) :
    u ∈ g.vertices := by
  by_contra hu
  rw [succs_of_not_mem hu] at h
  simp at h

theorem transpose_sorted (g : Graph V) : SortedKeys (g.transpose).adj := by
  unfold Graph.transpose
  exact outerFold_sorted g g.vertices [] (by simp [SortedKeys, keysOf])

theorem transpose_count (g : Graph V) (hs : SortedKeys g.adj) (u w : V) :
    ((g.transpose).succs w).count u = (g.succs u).count w := by
  show ((lookupD _ w []).count u) = _
  unfold Graph.transpose
  rw [outerFold_count g g.vertices [] (by simp [SortedKeys, keysOf])
    (sortedKeys_nodup hs) u w]
  by_cases hu : u ∈ g.vertices
  · simp [hu, lookupD, findVal]
  · have : g.succs u = [] := by
      unfold Graph.succs lookupD
      rw [findVal_eq_none hu]
      rfl
    simp [hu, this, lookupD, findVal]

theorem succs_transpose_iff (g : Graph V) (hs : SortedKeys g.adj) (u w : V) :
    u ∈ (g.transpose).succs w ↔ w ∈ g.succs u := by
  rw [← List.count_pos_iff, ← List.count_pos_iff, transpose_count g hs u w]

theorem transpose_vertices_sub {g : Graph V} (hcl : g.Closed) :
    ∀ w ∈ (g.transpose).vertices, w ∈ g.vertices := by
  intro w hw
  have h1 : w ∈ keysOf (g.transpose).adj := hw
  unfold Graph.transpose at h1
  rw [outerFold_mem_keys g g.vertices [] w] at h1
  rcases h1 with h1 | ⟨u, hu, hw2⟩
  · simp [keysOf] at h1
  · exact hcl u hu w hw2

theorem allVerts_transpose_sub {g : Graph V} (hs : SortedKeys g.adj)
    (hcl : g.Closed) : ∀ x ∈ allVerts g.transpose, x ∈ g.vertices := by
  intro x hx
  unfold allVerts at hx
  rw [List.mem_dedup, List.mem_append] at hx
  rcases hx with hx | hx
  · exact transpose_vertices_sub hcl x hx
  · obtain ⟨p, hp, hxp⟩ := mem_flatten_exists hx
    have hf : findVal (g.transpose).adj p.1 = some p.2 :=
      findVal_of_mem_nodup (sortedKeys_nodup (transpose_sorted g)) hp
    have hx2 : x ∈ (g.transpose).succs p.1 := by
      unfold Graph.succs lookupD
      rw [hf]
      exact hxp
    have := (succs_transpose_iff g hs x p.1).mp hx2
    exact mem_vertices_of_succ_src this

theorem allVerts_sub_of_closed {g : Graph V} (hs : SortedKeys g.adj)
    (hcl : g.Closed) : ∀ x ∈ allVerts g, x ∈ g.vertices := by
  intro x hx
  unfold allVerts at hx
  rw [List.mem_dedup, List.mem_append] at hx
  rcases hx with hx | hx
  · exact hx
  · obtain ⟨p, hp, hxp⟩ := mem_flatten_exists hx
    have hf : findVal g.adj p.1 = some p.2 :=
      findVal_of_mem_nodup (sortedKeys_nodup hs) hp
    have hk : p.1 ∈ g.vertices := List.mem_map_of_mem Prod.fst hp
    have hx2 : x ∈ g.succs p.1 := by
      unfold Graph.succs lookupD
      rw [hf]
      exact hxp
    exact hcl p.1 hk x hx2

theorem reachable_mem_vertices {g : Graph V} (hcl : g.Closed) :
    ∀ {u w : V} {n : ℕ}, Walk g u w n → u ∈ g.vertices → w ∈ g.vertices := by
  intro u w n hw
  induction hw with
  | refl v => exact id
  | step hs _ ih =>
      intro hu
      exact ih (hcl _ hu _ hs)

/-- Along a chain of finished vertices whose finish stamps stay at or
below the endpoint's, every vertex's interval — in particular the start's
— is nested in the endpoint's interval (first-pass half of Kosaraju). -/
theorem chain_nested_in_endpoint {g : Graph V} {dom : List V} {t : ℕ}
    {r : DFSRes V} (hinv : DInv g t r) (hk : KInv g dom r) :
    ∀ (p : List V) (u w : V), gchain g u p = true → endOf u p = w →
      colorOf r u = Color.black → (∀ x ∈ p, colorOf r x = Color.black) →
      finOf r u ≤ finOf r w → (∀ x ∈ p, finOf r x ≤ finOf r w) →
      InTree r w u := by
  intro p
  induction p with
  | nil =>
      intro u w _ hend _ _ _ _
      rw [show w = u from hend.symm]
      exact ⟨le_refl _, le_refl _⟩
  | cons b rest ih =>
      intro u w hch hend hu hall hfu hfall
      rw [show gchain g u (b :: rest) =
        (decide (b ∈ g.succs u) && gchain g b rest) from rfl,
        Bool.and_eq_true, decide_eq_true_eq] at hch
      have hb : colorOf r b = Color.black := hall b (List.mem_cons_self b rest)
      have hbw : InTree r w b :=
        ih b w hch.2 hend hb (fun x hx => hall x (List.mem_cons_of_mem b hx))
          (hfall b (List.mem_cons_self b rest))
          (fun x hx => hfall x (List.mem_cons_of_mem b hx))
      have hw : colorOf r w = Color.black := by
        have hend2 : endOf b rest = w := hend
        rcases List.eq_nil_or_concat rest with hr | ⟨l2, a, hr⟩
        · rw [hr] at hend2
          have hbw2 : b = w := hend2
          rw [← hbw2]
          exact hb
        · subst hr
          rw [List.concat_eq_append, endOf_append] at hend2
          have haw : a = w := hend2
          rw [← haw]
          exact hall a (by simp)
      have hedge := hk.k_edge u hu b hch.1
      obtain ⟨hu1, hu2, hu3⟩ := hinv.black_closed u hu
      obtain ⟨hb1, hb2, hb3⟩ := hinv.black_closed b hb
      obtain ⟨hw1, hw2, hw3⟩ := hinv.black_closed w hw
      by_cases huw : u = w
      · rw [huw]
        exact ⟨le_refl _, le_refl _⟩
      · have hp := hinv.black_paren u w hu hw huw
        obtain ⟨hn1, hn2⟩ := hbw
        unfold IntervalsND at hp
        rcases hp with h | h | h | h
        · exact ⟨by omega, by omega⟩
        · exact ⟨by omega, by omega⟩
        · exact ⟨by omega, by omega⟩
        · exact ⟨by omega, by omega⟩

/-- No finished vertex's interval strictly contains a root's interval:
roots are covered only by themselves. -/
theorem root_not_nested {r : DFSRes V} {roots : List V}
    (hparen : ∀ u w, colorOf r u = Color.black → colorOf r w = Color.black →
      u ≠ w → IntervalsND r u w)
    (hbc : ∀ u, colorOf r u = Color.black → 1 ≤ detOf r u ∧ detOf r u < finOf r u)
    (hrb : ∀ z ∈ roots, colorOf r z = Color.black)
    (hcov : ∀ x, colorOf r x = Color.black → ∃ z ∈ roots, InTree r z x)
    (hpw : roots.Pairwise fun a b => finOf r a < detOf r b) :
    ∀ z ∈ roots, ∀ b, colorOf r b = Color.black →
      ¬(detOf r b < detOf r z ∧ finOf r z < finOf r b) := by
  intro z hz b hb hnest
  obtain ⟨w, hw, hwb⟩ := hcov b hb
  obtain ⟨hd1, hf1⟩ := hwb
  obtain ⟨hzb1, hzb2⟩ := hbc z (hrb z hz)
  obtain ⟨hwb1, hwb2⟩ := hbc w (hrb w hw)
  obtain ⟨hbb1, hbb2⟩ := hbc b hb
  by_cases hwz : w = z
  · rw [hwz] at hd1
    omega
  · rcases pairwise_elem hpw hw hz with h | h | h
    · exact hwz h
    · omega
    · omega

/-- Walking edges in the second-pass graph from inside a root's region
(its interval, or anything finished before the root was discovered)
stays in that region. -/
theorem walk_stays_in_region {g : Graph V} {dom : List V} {t : ℕ}
    {r : DFSRes V} {roots : List V}
    (hinv : DInv g t r) (hk : KInv g dom r)
    (hng : ∀ x, colorOf r x ≠ Color.gray)
    (hrb : ∀ z ∈ roots, colorOf r z = Color.black)
    (hcov : ∀ x, colorOf r x = Color.black → ∃ z ∈ roots, InTree r z x)
    (hpw : roots.Pairwise fun a b => finOf r a < detOf r b)
    {z : V} (hz : z ∈ roots) :
    ∀ (p : List V) (a : V), colorOf r a = Color.black →
      (finOf r a < detOf r z ∨ InTree r z a) → gchain g a p = true →
      colorOf r (endOf a p) = Color.black ∧
        (finOf r (endOf a p) < detOf r z ∨ InTree r z (endOf a p)) := by
  have hbc : ∀ u, colorOf r u = Color.black →
      1 ≤ detOf r u ∧ detOf r u < finOf r u := by
    intro u hu
    have := hinv.black_closed u hu
    exact ⟨this.1, this.2.1⟩
  have hnn := root_not_nested
    (fun u w hu hw hne => hinv.black_paren u w hu hw hne) hbc hrb hcov hpw z hz
  intro p
  induction p with
  | nil =>
      intro a ha hreg _
      exact ⟨ha, hreg⟩
  | cons b rest ih =>
      intro a ha hreg hch
      rw [show gchain g a (b :: rest) =
        (decide (b ∈ g.succs a) && gchain g b rest) from rfl,
        Bool.and_eq_true, decide_eq_true_eq] at hch
      obtain ⟨hd0, hdlt⟩ := hk.k_edge a ha b hch.1
      have hb : colorOf r b = Color.black := by
        cases hcb : colorOf r b with
        | white => exact absurd (hinv.white_unstamped b hcb).1 hd0
        | gray => exact absurd hcb (hng b)
        | black => rfl
      have hreg2 : finOf r b < detOf r z ∨ InTree r z b := by
        obtain ⟨hzb1, hzb2⟩ := hbc z (hrb z hz)
        obtain ⟨hab1, hab2⟩ := hbc a ha
        obtain ⟨hbb1, hbb2⟩ := hbc b hb
        by_cases hbz : b = z
        · rw [hbz]
          exact Or.inr ⟨le_refl _, le_refl _⟩
        · have hp := hinv.black_paren b z hb (hrb z hz) hbz
          have hnb := hnn b hb
          unfold IntervalsND at hp
          rcases hreg with hra | ⟨hra1, hra2⟩
          · rcases hp with h | h | h | h
            · exact Or.inl h
            · omega
            · exact Or.inr ⟨by omega, by omega⟩
            · omega
          · rcases hp with h | h | h | h
            · exact Or.inl h
            · omega
            · exact Or.inr ⟨by omega, by omega⟩
            · omega
      exact ih b hb hreg2 hch.2

/-- Distinct roots cover disjoint sets: the interval containment is
unique. -/
theorem cover_unique {r : DFSRes V} {roots : List V}
    (hbc : ∀ u, colorOf r u = Color.black → 1 ≤ detOf r u ∧ detOf r u < finOf r u)
    (hrb : ∀ z ∈ roots, colorOf r z = Color.black)
    (hpw : roots.Pairwise fun a b => finOf r a < detOf r b) :
    ∀ z ∈ roots, ∀ z' ∈ roots, ∀ x, colorOf r x = Color.black →
      InTree r z x → InTree r z' x → z = z' := by
  intro z hz z' hz' x hx h1 h2
  obtain ⟨hzb1, hzb2⟩ := hbc z (hrb z hz)
  obtain ⟨hzb1', hzb2'⟩ := hbc z' (hrb z' hz')
  obtain ⟨hxb1, hxb2⟩ := hbc x hx
  obtain ⟨ha1, ha2⟩ := h1
  obtain ⟨hb1, hb2⟩ := h2
  rcases pairwise_elem hpw hz hz' with h | h | h
  · exact h
  · omega
  · omega

/-- Each vertex ends up in exactly one output component: the grouping
loop only moves vertices from the pending list into components. -/
theorem sccGroup_count (det fn : List (V × ℕ)) (v : V) :
    ∀ (rest : List V) (md mf : ℤ) (l : List V) (acc : List (List V)),
      rest.Nodup → ¬(v ∈ l ∧ v ∈ rest) →
      (sccGroup det fn rest md mf l acc).countP (fun L => decide (v ∈ L)) =
        acc.countP (fun L => decide (v ∈ L)) +
          (if v ∈ l ∨ v ∈ rest then 1 else 0) := by
  intro rest
  induction rest with
  | nil =>
      intro md mf l acc _ _
      show ((l :: acc).countP _) = _
      rw [List.countP_cons]
      by_cases hv : v ∈ l <;> simp [hv]
  | cons x rest ih =>
      intro md mf l acc hnd hboth
      obtain ⟨hx, hnd'⟩ := List.nodup_cons.mp hnd
      have hA : ∀ md' mf' : ℤ,
          (sccGroup det fn rest md' mf' (l ++ [x]) acc).countP
              (fun L => decide (v ∈ L)) =
            acc.countP (fun L => decide (v ∈ L)) +
              (if v ∈ l ++ [x] ∨ v ∈ rest then 1 else 0) := by
        intro md' mf'
        refine ih md' mf' (l ++ [x]) acc hnd' ?_
        rintro ⟨h1, h2⟩
        rcases List.mem_append.mp h1 with h3 | h3
        · exact hboth ⟨h3, List.mem_cons_of_mem x h2⟩
        · rw [List.mem_singleton] at h3
          rw [h3] at h2
          exact hx h2
      have hB : ∀ md' mf' : ℤ,
          (sccGroup det fn rest md' mf' [x] (l :: acc)).countP
              (fun L => decide (v ∈ L)) =
            (l :: acc).countP (fun L => decide (v ∈ L)) +
              (if v ∈ [x] ∨ v ∈ rest then 1 else 0) := by
        intro md' mf'
        refine ih md' mf' [x] (l :: acc) hnd' ?_
        rintro ⟨h1, h2⟩
        rw [List.mem_singleton] at h1
        rw [h1] at h2
        exact hx h2
      have hendA : acc.countP (fun L => decide (v ∈ L)) +
            (if v ∈ l ++ [x] ∨ v ∈ rest then 1 else 0) =
          acc.countP (fun L => decide (v ∈ L)) +
            (if v ∈ l ∨ v ∈ x :: rest then 1 else 0) := by
        by_cases h1 : v ∈ l <;> by_cases h2 : v = x <;> by_cases h3 : v ∈ rest <;>
          simp [h1, h2, h3, List.mem_append, List.mem_cons]
      have hendB : (l :: acc).countP (fun L => decide (v ∈ L)) +
            (if v ∈ [x] ∨ v ∈ rest then 1 else 0) =
          acc.countP (fun L => decide (v ∈ L)) +
            (if v ∈ l ∨ v ∈ x :: rest then 1 else 0) := by
        rw [List.countP_cons]
        have hl : ¬(v ∈ l ∧ (v = x ∨ v ∈ rest)) := by
          rintro ⟨h1, h2⟩
          exact hboth ⟨h1, List.mem_cons.mpr h2⟩
        by_cases h1 : v ∈ l
        · have h2 : v ≠ x := fun h => hl ⟨h1, Or.inl h⟩
          have h3 : v ∉ rest := fun h => hl ⟨h1, Or.inr h⟩
          simp [h1, h2, h3]
        · by_cases h2 : v = x
          · subst h2
            simp [h1]
          · by_cases h3 : v ∈ rest <;> simp [h1, h2, h3]
      simp only [sccGroup]
      split
      · split
        · rw [hA _ _]
          exact hendA
        · rw [hB _ _]
          exact hendB
      · split
        · rw [hA _ _]
          exact hendA
        · rw [hB _ _]
          exact hendB

/-- The grouping loop, started inside root `z`'s block, emits exactly
the interval-trees of the roots as components. -/
theorem sccGroup_blocks (r : DFSRes V) (roots : List V)
    (hbc : ∀ u, colorOf r u = Color.black → 1 ≤ detOf r u ∧ detOf r u < finOf r u)
    (hrb : ∀ z ∈ roots, colorOf r z = Color.black)
    (hcov : ∀ x, colorOf r x = Color.black → ∃ z ∈ roots, InTree r z x)
    (hpw : roots.Pairwise fun a b => finOf r a < detOf r b) :
    ∀ (rest : List V) (z : V) (l : List V) (acc : List (List V)),
      z ∈ roots →
      (∀ x ∈ rest, colorOf r x = Color.black) →
      rest.Pairwise (fun a b => finOf r b < finOf r a) →
      (∀ x ∈ rest, finOf r x < finOf r z) →
      (∀ x, x ∈ l ↔ (colorOf r x = Color.black ∧ InTree r z x ∧ x ∉ rest)) →
      (∀ w ∈ roots, w ≠ z → ∀ x, colorOf r x = Color.black → InTree r w x →
        finOf r x < finOf r z → x ∈ rest) →
      (∀ L ∈ acc, ∃ w ∈ roots, ∀ x, x ∈ L ↔
        (colorOf r x = Color.black ∧ InTree r w x)) →
      ∀ L ∈ sccGroup r.det r.fin rest ((detOf r z : ℕ) : ℤ)
          ((finOf r z : ℕ) : ℤ) l acc,
        ∃ w ∈ roots, ∀ x, x ∈ L ↔ (colorOf r x = Color.black ∧ InTree r w x) := by
  intro rest
  induction rest with
  | nil =>
      intro z l acc hz _ _ _ Hl _ Hacc L hL
      rcases List.mem_cons.mp hL with rfl | hL'
      · refine ⟨z, hz, fun x => ?_⟩
        rw [Hl x]
        simp
      · exact Hacc L hL'
  | cons v tail ih =>
      intro z l acc hz Hb Hpw2 Hlt Hl Hfut Hacc L hL
      have hvb : colorOf r v = Color.black := Hb v (List.mem_cons_self v tail)
      obtain ⟨hhead, hpwt⟩ := List.pairwise_cons.mp Hpw2
      have hvnt : v ∉ tail := fun h => absurd (hhead v h) (lt_irrefl _)
      obtain ⟨hz1, hz2⟩ := hbc z (hrb z hz)
      obtain ⟨hv1, hv2⟩ := hbc v hvb
      have hvflt : finOf r v < finOf r z := Hlt v (List.mem_cons_self v tail)
      have hs : ¬(((detOf r z : ℕ) : ℤ) = -1 ∧ ((finOf r z : ℕ) : ℤ) = -1) := by
        rintro ⟨h1, _⟩
        omega
      simp only [sccGroup, if_neg hs] at hL
      by_cases hin : InTree r z v
      · have hcond : ((detOf r z : ℕ) : ℤ) ≤ ((lookupD r.det v 0 : ℕ) : ℤ) ∧
            ((lookupD r.fin v 0 : ℕ) : ℤ) ≤ ((finOf r z : ℕ) : ℤ) :=
          ⟨by exact_mod_cast hin.1, by exact_mod_cast hin.2⟩
        rw [if_pos hcond] at hL
        refine ih z (l ++ [v]) acc hz
          (fun x hxm => Hb x (List.mem_cons_of_mem v hxm)) hpwt
          (fun x hxm => Hlt x (List.mem_cons_of_mem v hxm)) ?_ ?_ Hacc L hL
        · intro x
          constructor
          · intro hxm
            rcases List.mem_append.mp hxm with h1 | h1
            · obtain ⟨hb1, hb2, hb3⟩ := (Hl x).mp h1
              exact ⟨hb1, hb2, fun h => hb3 (List.mem_cons_of_mem v h)⟩
            · rw [List.mem_singleton] at h1
              rw [h1]
              exact ⟨hvb, hin, hvnt⟩
          · rintro ⟨hb1, hb2, hb3⟩
            by_cases hxv : x = v
            · rw [hxv]
              exact List.mem_append_right _ (List.mem_singleton.mpr rfl)
            · refine List.mem_append_left _ ((Hl x).mpr ⟨hb1, hb2, ?_⟩)
              intro h
              rcases List.mem_cons.mp h with h1 | h1
              · exact hxv h1
              · exact hb3 h1
        · intro w hw hwz x hxb hwx hxf
          have h1 := Hfut w hw hwz x hxb hwx hxf
          rcases List.mem_cons.mp h1 with rfl | h1'
          · exact absurd (cover_unique hbc hrb hpw w hw z hz x hxb hwx hin) hwz
          · exact h1'
      · have hcond : ¬(((detOf r z : ℕ) : ℤ) ≤ ((lookupD r.det v 0 : ℕ) : ℤ) ∧
            ((lookupD r.fin v 0 : ℕ) : ℤ) ≤ ((finOf r z : ℕ) : ℤ)) := by
          rintro ⟨h1, h2⟩
          exact hin ⟨by exact_mod_cast h1, by exact_mod_cast h2⟩
        rw [if_neg hcond] at hL
        obtain ⟨z', hz', hz'v⟩ := hcov v hvb
        have hz'ne : z' ≠ z := fun h => hin (h ▸ hz'v)
        obtain ⟨hz'1, hz'2⟩ := hbc z' (hrb z' hz')
        have hfz' : finOf r z' < finOf r z := by
          rcases pairwise_elem hpw hz' hz with h | h | h
          · exact absurd h hz'ne
          · omega
          · obtain ⟨ha1, ha2⟩ := hz'v
            omega
        have hz'mem : z' ∈ v :: tail :=
          Hfut z' hz' hz'ne z' (hrb z' hz') ⟨le_refl _, le_refl _⟩ hfz'
        have hz'v2 : z' = v := by
          rcases List.mem_cons.mp hz'mem with h | h
          · exact h
          · have h2 := hhead z' h
            obtain ⟨ha1, ha2⟩ := hz'v
            omega
        rw [hz'v2] at hz' hfz'
        have hvdz : finOf r v < detOf r z := by
          rcases pairwise_elem hpw hz' hz with h | h | h
          · exact absurd h (hz'v2 ▸ hz'ne)
          · exact h
          · omega
        refine ih v [v] (l :: acc) hz'
          (fun x hxm => Hb x (List.mem_cons_of_mem v hxm)) hpwt
          (fun x hxm => hhead x hxm) ?_ ?_ ?_ L hL
        · intro x
          constructor
          · intro hxm
            rw [List.mem_singleton] at hxm
            rw [hxm]
            exact ⟨hvb, ⟨le_refl _, le_refl _⟩, hvnt⟩
          · rintro ⟨hb1, hb2, hb3⟩
            have hxf : finOf r x < finOf r z := by
              obtain ⟨hc1, hc2⟩ := hb2
              omega
            have h1 := Hfut v hz' (hz'v2 ▸ hz'ne) x hb1 hb2 hxf
            rcases List.mem_cons.mp h1 with h2 | h2
            · rw [h2]
              exact List.mem_singleton.mpr rfl
            · exact absurd h2 hb3
        · intro w hw hwv x hxb hwx hxf
          by_cases hwz : w = z
          · exfalso
            obtain ⟨hc1, hc2⟩ := hwx
            rw [hwz] at hc1 hc2
            obtain ⟨hx1, hx2⟩ := hbc x hxb
            omega
          · have h1 := Hfut w hw hwz x hxb hwx (by omega)
            rcases List.mem_cons.mp h1 with h2 | h2
            · exfalso
              rw [h2] at hxb hwx
              exact hwv (cover_unique hbc hrb hpw w hw v hz' v hvb hwx
                ⟨le_refl _, le_refl _⟩)
            · exact h2
        · intro L' hL'
          rcases List.mem_cons.mp hL' with rfl | hL''
          · refine ⟨z, hz, fun x => ?_⟩
            constructor
            · intro hxm
              obtain ⟨hb1, hb2, _⟩ := (Hl x).mp hxm
              exact ⟨hb1, hb2⟩
            · rintro ⟨hb1, hb2⟩
              refine (Hl x).mpr ⟨hb1, hb2, ?_⟩
              intro hxm
              obtain ⟨hc1, hc2⟩ := hb2
              obtain ⟨hx1, hx2⟩ := hbc x hb1
              rcases List.mem_cons.mp hxm with h2 | h2
              · rw [h2] at hc1 hc2
                exact hin ⟨hc1, hc2⟩
              · have h3 := hhead x h2
                omega
          · exact Hacc L' hL''

/-- C7.  On every well-formed nonempty graph — strictly sorted adjacency
keys, every successor inside the key set, at least one vertex — `scc`
returns a partition of the vertex set into the strongly connected
components: no output component is empty, components contain only
vertices, every vertex lies in exactly one component, the members of one
component are mutually reachable, and every vertex mutually reachable
with a member of a component belongs to that component.  (The empty
graph is excluded: there `scc` returns `[[]]`, the separate
counterexample.) -/
theorem scc_computes_strongly_connected_components (g : Graph V)
    (hsk : SortedKeys g.adj) (hcl : g.Closed) (hne : g.vertices ≠ []) :
    (∀ L ∈ scc g, L ≠ []) ∧
    (∀ L ∈ scc g, ∀ x ∈ L, x ∈ g.vertices) ∧
    (∀ v ∈ g.vertices, (scc g).countP (fun L => decide (v ∈ L)) = 1) ∧
    (∀ L ∈ scc g, ∀ u ∈ L, ∀ w ∈ L, InSCC g u w) ∧
    (∀ L ∈ scc g, ∀ u ∈ L, ∀ w, InSCC g u w → w ∈ L) := by
  have hdall1 : ∀ x ∈ allVerts g, x ∈ g.vertices := allVerts_sub_of_closed hsk hcl
  obtain ⟨T1, r1, heq1, _, _, _⟩ :=
    dfsMain_spec g g.vertices 0 (dfsInitRes g false) (dfsInit_DInv g)
  have hng01 : ∀ z, colorOf (dfsInitRes g false) z ≠ Color.gray := fun z => by
    rw [dfsInit_all_white g false z]
    exact fun h => Color.noConfusion h
  obtain ⟨_, hinv1, hk1, hng1, hallb1, _, _, _⟩ :=
    dfsMainK g g.vertices hdall1 g.vertices 0 (dfsInitRes g false)
      (dfsInit_DInv g) (kinv_init g g.vertices false) hng01
      (fun u hu => hu) T1 r1 heq1
  have blacks1 : ∀ u, colorOf r1 u = Color.black ↔ u ∈ g.vertices := by
    intro u
    constructor
    · intro h
      exact hk1.k_dom u (by rw [h]; exact fun hh => Color.noConfusion hh)
    · intro h
      have h1 := hallb1 u h
      cases hc : colorOf r1 u with
      | white => exact absurd hc h1
      | gray => exact absurd hc (hng1 u)
      | black => rfl
  have seq1_iff : ∀ u, u ∈ r1.seq ↔ u ∈ g.vertices :=
    fun u => (hinv1.seq_mem u).trans (blacks1 u)
  have hdall2 : ∀ x ∈ allVerts g.transpose, x ∈ r1.seq.reverse := by
    intro x hx
    rw [List.mem_reverse]
    exact (seq1_iff x).mpr (allVerts_transpose_sub hsk hcl x hx)
  obtain ⟨T2, r2, heq2, _, _, _⟩ :=
    dfsMain_spec g.transpose r1.seq.reverse 0 (dfsInitRes g.transpose false)
      (dfsInit_DInv g.transpose)
  have hng02 : ∀ z, colorOf (dfsInitRes g.transpose false) z ≠ Color.gray :=
    fun z => by
      rw [dfsInit_all_white g.transpose false z]
      exact fun h => Color.noConfusion h
  obtain ⟨_, hinv2, hk2, hng2, hallb2, _, _, roots2, hRa2, hRb2, hRc2, hRd2⟩ :=
    dfsMainK g.transpose r1.seq.reverse hdall2 r1.seq.reverse 0
      (dfsInitRes g.transpose false) (dfsInit_DInv g.transpose)
      (kinv_init g.transpose r1.seq.reverse false) hng02
      (fun u hu => hu) T2 r2 heq2
  have blacks2 : ∀ u, colorOf r2 u = Color.black ↔ u ∈ g.vertices := by
    intro u
    constructor
    · intro h
      have h1 := hk2.k_dom u (by rw [h]; exact fun hh => Color.noConfusion hh)
      rw [List.mem_reverse] at h1
      exact (seq1_iff u).mp h1
    · intro h
      have h1 : u ∈ r1.seq.reverse := by
        rw [List.mem_reverse]
        exact (seq1_iff u).mpr h
      have h2 := hallb2 u h1
      cases hc : colorOf r2 u with
      | white => exact absurd hc h2
      | gray => exact absurd hc (hng2 u)
      | black => rfl
  have hq1 : dfs g false = DRes.ok T1 r1 := heq1
  have hq2 : dfsFrom g.transpose r1.seq.reverse false = DRes.ok T2 r2 := heq2
  have hscc : scc g = sccGroup r2.det r2.fin r2.seq.reverse (-1) (-1) [] [] := by
    unfold scc
    simp only [hq1, hq2]
  have hSmem : ∀ u, u ∈ r2.seq.reverse ↔ u ∈ g.vertices := fun u =>
    List.mem_reverse.trans ((hinv2.seq_mem u).trans (blacks2 u))
  have hSpw : (r2.seq.reverse).Pairwise fun a b => finOf r2 b < finOf r2 a := by
    rw [List.pairwise_reverse]
    exact hinv2.seq_sorted
  have hvs2pw : (r1.seq.reverse).Pairwise fun a b => finOf r1 b < finOf r1 a := by
    rw [List.pairwise_reverse]
    exact hinv1.seq_sorted
  have hrb2 : ∀ z ∈ roots2, colorOf r2 z = Color.black :=
    fun z hz => (hRa2 z hz).2.2
  have hcov2 : ∀ x, colorOf r2 x = Color.black →
      ∃ z ∈ roots2, InTree r2 z x := by
    intro x hx
    exact hRb2 x (dfsInit_all_white g.transpose false x) hx
  have hbc2 : ∀ u, colorOf r2 u = Color.black →
      1 ≤ detOf r2 u ∧ detOf r2 u < finOf r2 u := by
    intro u hu
    have := hinv2.black_closed u hu
    exact ⟨this.1, this.2.1⟩
  have hbc1 : ∀ u, colorOf r1 u = Color.black →
      1 ≤ detOf r1 u ∧ detOf r1 u < finOf r1 u := by
    intro u hu
    have := hinv1.black_closed u hu
    exact ⟨this.1, this.2.1⟩
  have hrootmax : ∀ z ∈ roots2, ∀ x, colorOf r2 x = Color.black →
      InTree r2 z x → finOf r1 x ≤ finOf r1 z := by
    intro z hz x hx hin
    by_cases hxz : x = z
    · rw [hxz]
    · have hxvs : x ∈ r1.seq.reverse :=
        hk2.k_dom x (by rw [hx]; exact fun hh => Color.noConfusion hh)
      have haft := hRd2 z hz x hxvs (dfsInit_all_white g.transpose false x) hxz hin
      exact le_of_lt (pairwise_after hvs2pw haft)
  have hdual : ∀ a b : V, a ∈ (g.transpose).succs b ↔ b ∈ g.succs a :=
    succs_transpose_iff g hsk
  have hdual2 : ∀ a b : V, a ∈ g.succs b ↔ b ∈ (g.transpose).succs a :=
    fun a b => (hdual b a).symm
  have hTA : ∀ z ∈ roots2, ∀ x, colorOf r2 x = Color.black →
      InTree r2 z x → InSCC g z x := by
    intro z hz x hx hin
    by_cases hxz : x = z
    · rw [hxz]
      exact inscc_refl g z
    · have hzb := hrb2 z hz
      have hdne := (black_stamps_ne hinv2 hzb hx (fun h => hxz h.symm)).1
      have hfne := (black_stamps_ne hinv2 hzb hx (fun h => hxz h.symm)).2.1
      have hd2lt : detOf r2 z < detOf r2 x := lt_of_le_of_ne hin.1 hdne
      have hf2lt : finOf r2 x < finOf r2 z :=
        lt_of_le_of_ne hin.2 (fun h => hfne h.symm)
      have hfx0 : finOf r2 x ≠ 0 := by
        have := hbc2 x hx
        omega
      have hfz0 : finOf r2 z ≠ 0 := by
        have := hbc2 z hzb
        omega
      obtain ⟨p, hp1, hp2, hp3⟩ := hk2.k_reach z x
        (by rw [hzb]; exact fun h => Color.noConfusion h)
        (by rw [hx]; exact fun h => Color.noConfusion h)
        hd2lt (Or.inr ⟨hfx0, hf2lt⟩)
      have hptree : ∀ y ∈ p, colorOf r2 y = Color.black ∧ InTree r2 z y := by
        intro y hy
        obtain ⟨hynw, hydet, hyfin⟩ := hp3 y hy
        have hyb : colorOf r2 y = Color.black := by
          cases hcy : colorOf r2 y with
          | white => exact absurd hcy hynw
          | gray => exact absurd hcy (hng2 y)
          | black => rfl
        exact ⟨hyb, le_of_lt hydet, le_of_lt (hyfin hfz0).2⟩
      obtain ⟨q, hq1', hq2', hq3'⟩ := gchain_reverse hdual p z hp1
      rw [hp2] at hq1' hq2'
      have hxb1 : colorOf r1 x = Color.black :=
        (blacks1 x).mpr ((blacks2 x).mp hx)
      have hzb1 : colorOf r1 z = Color.black :=
        (blacks1 z).mpr ((blacks2 z).mp hzb)
      have hqbound : ∀ y ∈ q, colorOf r1 y = Color.black ∧
          finOf r1 y ≤ finOf r1 z := by
        intro y hy
        rcases hq3' y hy with rfl | hyp
        · exact ⟨hzb1, le_refl _⟩
        · obtain ⟨hyb2, hytree⟩ := hptree y hyp
          exact ⟨(blacks1 y).mpr ((blacks2 y).mp hyb2),
            hrootmax z hz y hyb2 hytree⟩
      have hnest : InTree r1 z x :=
        chain_nested_in_endpoint hinv1 hk1 q x z hq1' hq2' hxb1
          (fun y hy => (hqbound y hy).1) (hrootmax z hz x hx hin)
          (fun y hy => (hqbound y hy).2)
      have hd1ne := (black_stamps_ne hinv1 hzb1 hxb1 (fun h => hxz h.symm)).1
      have hf1ne := (black_stamps_ne hinv1 hzb1 hxb1 (fun h => hxz h.symm)).2.1
      have hd1lt : detOf r1 z < detOf r1 x := lt_of_le_of_ne hnest.1 hd1ne
      have hf1lt : finOf r1 x < finOf r1 z :=
        lt_of_le_of_ne hnest.2 (fun h => hf1ne h.symm)
      have hf1x0 : finOf r1 x ≠ 0 := by
        have := hbc1 x hxb1
        omega
      obtain ⟨p', hp'1, hp'2, _⟩ := hk1.k_reach z x
        (by rw [hzb1]; exact fun h => Color.noConfusion h)
        (by rw [hxb1]; exact fun h => Color.noConfusion h)
        hd1lt (Or.inr ⟨hf1x0, hf1lt⟩)
      refine ⟨?_, ?_⟩
      · have h := gchain_reachable p' z hp'1
        rwa [hp'2] at h
      · have h := gchain_reachable q x hq1'
        rwa [hq2'] at h
  have hdistinct : ∀ z ∈ roots2, ∀ z' ∈ roots2, z ≠ z' → ¬InSCC g z z' := by
    intro z hz z' hz' hne' hssc
    have hzb := hrb2 z hz
    have hz'b := hrb2 z' hz'
    obtain ⟨hza, hzb'⟩ := hbc2 z hzb
    obtain ⟨hz'a, hz'b'⟩ := hbc2 z' hz'b
    have hA : finOf r2 z' < detOf r2 z := by
      obtain ⟨pp, hpp1, hpp2⟩ := reachable_gchain hssc.2
      obtain ⟨qq, hqq1, hqq2, _⟩ := gchain_reverse hdual2 pp z' hpp1
      rw [hpp2] at hqq1 hqq2
      obtain ⟨_, hreg⟩ := walk_stays_in_region hinv2 hk2 hng2 hrb2 hcov2 hRc2
        hz qq z hzb (Or.inr ⟨le_refl _, le_refl _⟩) hqq1
      rw [hqq2] at hreg
      rcases hreg with h | ⟨hc1, hc2⟩
      · exact h
      · exfalso
        rcases pairwise_elem hRc2 hz hz' with h | h | h
        · exact hne' h
        · omega
        · omega
    have hB : finOf r2 z < detOf r2 z' := by
      obtain ⟨pp, hpp1, hpp2⟩ := reachable_gchain hssc.1
      obtain ⟨qq, hqq1, hqq2, _⟩ := gchain_reverse hdual2 pp z hpp1
      rw [hpp2] at hqq1 hqq2
      obtain ⟨_, hreg⟩ := walk_stays_in_region hinv2 hk2 hng2 hrb2 hcov2 hRc2
        hz' qq z' hz'b (Or.inr ⟨le_refl _, le_refl _⟩) hqq1
      rw [hqq2] at hreg
      rcases hreg with h | ⟨hc1, hc2⟩
      · exact h
      · exfalso
        rcases pairwise_elem hRc2 hz' hz with h | h | h
        · exact hne' h.symm
        · omega
        · omega
    omega
  have hTB : ∀ z ∈ roots2, ∀ x, colorOf r2 x = Color.black →
      InSCC g z x → InTree r2 z x := by
    intro z hz x hx hssc
    obtain ⟨z', hz', hin'⟩ := hcov2 x hx
    by_cases hzz : z = z'
    · rw [hzz]
      exact hin'
    · have h1 : InSCC g z' x := hTA z' hz' x hx hin'
      have h2 : InSCC g z z' := inscc_trans hssc (inscc_symm h1)
      exact absurd h2 (hdistinct z hz z' hz' hzz)
  obtain ⟨v0, S', hS⟩ : ∃ v0 S', r2.seq.reverse = v0 :: S' := by
    cases hS0 : r2.seq.reverse with
    | nil =>
        exfalso
        obtain ⟨v, hv⟩ := List.exists_mem_of_ne_nil g.vertices hne
        have := (hSmem v).mpr hv
        rw [hS0] at this
        simp at this
    | cons a l => exact ⟨a, l, rfl⟩
  have hSpw' := hSpw
  rw [hS] at hSpw'
  obtain ⟨hhead0, hpwS'⟩ := List.pairwise_cons.mp hSpw'
  have hv0S : v0 ∈ r2.seq.reverse := by
    rw [hS]
    exact List.mem_cons_self v0 S'
  have hv0b : colorOf r2 v0 = Color.black := (blacks2 v0).mpr ((hSmem v0).mp hv0S)
  obtain ⟨z0, hz0, hz0v⟩ := hcov2 v0 hv0b
  have hz0v0 : z0 = v0 := by
    have hz0S : z0 ∈ r2.seq.reverse :=
      (hSmem z0).mpr ((blacks2 z0).mp (hrb2 z0 hz0))
    rw [hS] at hz0S
    rcases List.mem_cons.mp hz0S with h | h
    · exact h
    · exfalso
      have h2 := hhead0 z0 h
      obtain ⟨ha1, ha2⟩ := hz0v
      omega
  rw [hz0v0] at hz0
  have hv0nS' : v0 ∉ S' := fun h => absurd (hhead0 v0 h) (lt_irrefl _)
  have hstep : sccGroup r2.det r2.fin (v0 :: S') (-1) (-1) [] [] =
      sccGroup r2.det r2.fin S' ((detOf r2 v0 : ℕ) : ℤ)
        ((finOf r2 v0 : ℕ) : ℤ) [v0] [] := by
    have h1 : ((-1 : ℤ) = -1 ∧ (-1 : ℤ) = -1) := ⟨rfl, rfl⟩
    simp only [sccGroup, if_pos h1, List.nil_append]
    rw [if_pos ⟨le_refl _, le_refl _⟩]
    rfl
  have hS'black : ∀ x ∈ S', colorOf r2 x = Color.black := by
    intro x hx
    refine (blacks2 x).mpr ((hSmem x).mp ?_)
    rw [hS]
    exact List.mem_cons_of_mem v0 hx
  have hparts : ∀ L ∈ scc g, ∃ w ∈ roots2, ∀ x, x ∈ L ↔
      (colorOf r2 x = Color.black ∧ InTree r2 w x) := by
    intro L hL
    rw [hscc, hS, hstep] at hL
    refine sccGroup_blocks r2 roots2 hbc2 hrb2 hcov2 hRc2 S' v0 [v0] [] hz0
      hS'black hpwS' (fun x hx => hhead0 x hx) ?_ ?_ (by simp) L hL
    · intro x
      constructor
      · intro hxm
        rw [List.mem_singleton] at hxm
        rw [hxm]
        exact ⟨hv0b, ⟨le_refl _, le_refl _⟩, hv0nS'⟩
      · rintro ⟨hb1, hb2, hb3⟩
        have hxS : x ∈ r2.seq.reverse := (hSmem x).mpr ((blacks2 x).mp hb1)
        rw [hS] at hxS
        rcases List.mem_cons.mp hxS with h | h
        · rw [h]
          exact List.mem_singleton.mpr rfl
        · exact absurd h hb3
    · intro w hw hwv0 x hxb hwx hxf
      have hxS : x ∈ r2.seq.reverse := (hSmem x).mpr ((blacks2 x).mp hxb)
      rw [hS] at hxS
      rcases List.mem_cons.mp hxS with h | h
      · exfalso
        rw [h] at hxb hwx
        exact hwv0 (cover_unique hbc2 hrb2 hRc2 w hw v0 hz0 v0 hxb hwx
          ⟨le_refl _, le_refl _⟩)
      · exact h
  have hmemV : ∀ L ∈ scc g, ∀ x ∈ L, x ∈ g.vertices := by
    intro L hL x hx
    obtain ⟨w, _, hchar⟩ := hparts L hL
    exact (blacks2 x).mp ((hchar x).mp hx).1
  refine ⟨?_, hmemV, ?_, ?_, ?_⟩
  · intro L hL
    obtain ⟨w, hw, hchar⟩ := hparts L hL
    have : w ∈ L := (hchar w).mpr ⟨hrb2 w hw, le_refl _, le_refl _⟩
    exact List.ne_nil_of_mem this
  · intro v hv
    rw [hscc]
    have hnd : (r2.seq.reverse).Nodup :=
      hSpw.imp fun h heq => absurd (heq ▸ h) (lt_irrefl _)
    rw [sccGroup_count r2.det r2.fin v (r2.seq.reverse) (-1) (-1) [] [] hnd
      (by simp)]
    have hvS : v ∈ r2.seq.reverse := (hSmem v).mpr hv
    simp [hvS]
  · intro L hL u hu w hw
    obtain ⟨z, hz, hchar⟩ := hparts L hL
    have h1 := hTA z hz u ((hchar u).mp hu).1 ((hchar u).mp hu).2
    have h2 := hTA z hz w ((hchar w).mp hw).1 ((hchar w).mp hw).2
    exact inscc_trans (inscc_symm h1) h2
  · intro L hL u hu w hssc
    obtain ⟨z, hz, hchar⟩ := hparts L hL
    have h1 := hTA z hz u ((hchar u).mp hu).1 ((hchar u).mp hu).2
    have h2 : InSCC g z w := inscc_trans h1 hssc
    have hwV : w ∈ g.vertices := by
      obtain ⟨n, hwalk⟩ := hssc.1
      exact reachable_mem_vertices hcl hwalk (hmemV L hL u hu)
    have hwb : colorOf r2 w = Color.black := (blacks2 w).mpr hwV
    exact (hchar w).mpr ⟨hwb, hTB z hz w hwb h2⟩

/-- C7, witnessed on the spec's example graph (`A=0,B=1,C=2,D=3` with
edges `A→B, B→A, B→C, C→D, D→C`): the hypotheses hold concretely and the
partition properties follow. -/
theorem scc_computes_strongly_connected_components_witness :
    (SortedKeys exScc.adj ∧ exScc.Closed ∧ exScc.vertices ≠ []) ∧
    ((∀ L ∈ scc exScc, L ≠ []) ∧
    (∀ L ∈ scc exScc, ∀ x ∈ L, x ∈ exScc.vertices) ∧
    (∀ v ∈ exScc.vertices, (scc exScc).countP (fun L => decide (v ∈ L)) = 1) ∧
    (∀ L ∈ scc exScc, ∀ u ∈ L, ∀ w ∈ L, InSCC exScc u w) ∧
    (∀ L ∈ scc exScc, ∀ u ∈ L, ∀ w, InSCC exScc u w → w ∈ L)) :=
  ⟨⟨by simp [SortedKeys, exScc, keysOf], by unfold Graph.Closed; decide,
      by decide⟩,
    scc_computes_strongly_connected_components exScc
      (by simp [SortedKeys, exScc, keysOf]) (by unfold Graph.Closed; decide)
      (by decide)⟩

end AlgoU3
